import Mathlib

/-!
Verification of the `ben` bencode codec.

This file shallowly embeds the crate's decode path (`src/parse.rs`: the flat
tokenizer; `src/token.rs`: the token record; `src/decode.rs`: the Node/List/Dict
tree views) and its encode path (`src/encode.rs`) into Lean, and proves the
behavioural claims about them.

Modelling conventions:
* Byte buffers are `List Nat` (each element is a byte value; the Rust code
  works on `&[u8]`).
* The Rust fields `start : i32` / `end : i32` are modelled as unbounded `Int`
  with the `-1` sentinel kept; `children : u32` / `next : u32` become `Nat`.
  (The `usize -> i32` casts in the source are exact for any buffer shorter
  than 2^31 bytes, which is the regime all claims live in.)
* `tok_next` in the Rust parser always equals the number of tokens pushed so
  far (`alloc_token` is the only place either changes, and `reset` zeroes
  both), so the embedding uses `tokens.length` for it.
* The main parse loop is written with a fuel argument so that it is
  structurally recursive and computable by `decide`/`rfl`.  Every loop
  iteration advances the byte cursor by at least one, so the fuel
  `buf.length + 1` supplied by `parsePrefix` can never run out; the
  fuel-exhaustion branch is unreachable.
* Rust panics from unchecked indexing (only reachable from states the parser
  never produces) are modelled by harmless total defaults, noted locally.
-/

/-- `TokenKind` from `src/token.rs`. -/
inductive TokenKind where
  | Dict
  | List
  | ByteStr
  | Int
deriving DecidableEq

/-- `Token` from `src/token.rs`.  The Rust field `end` is a Lean keyword and is
written `«end»`. -/
structure Token where
  kind : TokenKind
  start : Int
  «end» : Int
  children : Nat
  next : Nat
deriving DecidableEq

/-- `Token::range` from `src/token.rs`: the token's bounds in the original
buffer.  The Rust version asserts `start >= 0` and `end >= start` (panicking
otherwise); the panic is modelled as `none`. -/
def Token.range (t : Token) : Option (Nat × Nat) :=
  if 0 ≤ t.start ∧ t.start ≤ t.«end» then some (t.start.toNat, t.«end».toNat) else none

/-- `Error` from `src/parse.rs`. -/
inductive BenError where
  | Eof
  | Unexpected (pos : Nat)
  | Invalid (reason : String) (pos : Nat)
  | NoMemory
  | Overflow (pos : Nat)
deriving DecidableEq

/-- `i64::max_value()`. -/
def i64Max : Int := 9223372036854775807

/-- Decimal digit byte test (`b'0'..=b'9'`). -/
def isDigitB (c : Nat) : Bool := 48 ≤ c && c ≤ 57

/-- The digit-accumulation loop inside `Parser::parse_int`
(`src/parse.rs:287-313`).  `bytes` is `buf` from position `pos` on; `start` is
the rollback/report position of the literal; `val` is the accumulator.
Returns the accumulated value and the position of the stop character (or the
buffer length, when the loop ran off the end of the buffer). -/
def parseIntAux (stopChar : Nat) (start : Nat) :
    List Nat → Nat → Int → Except BenError (Int × Nat)
  | [], pos, val => .ok (val, pos)
  | c :: rest, pos, val =>
    if isDigitB c then
      if val > i64Max / 10 then .error (.Overflow start)
      else
        let val1 := val * 10
        let digit : Int := (c : Int) - 48
        if val1 > i64Max - digit then .error (.Overflow start)
        else parseIntAux stopChar start rest (pos + 1) (val1 + digit)
    else if c = stopChar then .ok (val, pos)
    else .error (.Unexpected pos)

/-- `Parser::parse_int` (`src/parse.rs:268-319`).  Returns the parsed value and
the new cursor position.  (The Rust code also rolls the cursor back on error,
but every caller propagates the error, so the rolled-back cursor is dead.) -/
def parseInt (buf : List Nat) (stopChar : Nat) (pos : Nat) :
    Except BenError (Int × Nat) :=
  if buf.length ≤ pos then .error .Eof
  else
    if buf[pos]? = some 45 then
      if pos + 1 = buf.length then .error .Eof
      else
        match parseIntAux stopChar pos (buf.drop (pos + 1)) (pos + 1) 0 with
        | .ok (val, p) => .ok (-val, p)
        | .error e => .error e
    else parseIntAux stopChar pos (buf.drop pos) pos 0

/-- `Parser::alloc_token` (`src/parse.rs:353-360`).  `limit = none` models the
default `usize::max_value()` token limit (never reached). -/
def allocToken (limit : Option Nat) (tokens : List Token) (t : Token) :
    Except BenError (List Token) :=
  match limit with
  | some l => if l ≤ tokens.length then .error .NoMemory else .ok (tokens ++ [t])
  | none => .ok (tokens ++ [t])

/-- `Parser::update_super` (`src/parse.rs:249-265`).  `tokSuper` is the
`tok_super` index (or `-1`); `pos` is the current byte cursor used in the
error.  A `tokSuper` that is not a valid index would panic in Rust; the parser
never produces such a state, and the embedding returns the tokens unchanged
there. -/
def updateSuper (tokens : List Token) (tokSuper : Int) (currKind : TokenKind)
    (pos : Nat) : Except BenError (List Token) :=
  if tokSuper < 0 then .ok tokens
  else
    match tokens[tokSuper.toNat]? with
    | none => .ok tokens
    | some t =>
      if t.kind = TokenKind.Dict ∧ currKind ≠ TokenKind.ByteStr ∧
          (t.children + 1) % 2 ≠ 0 then
        .error (.Invalid "Dictionary key must be a string" pos)
      else .ok (tokens.set tokSuper.toNat { t with children := t.children + 1 })

/-- `Parser::parse_string` (`src/parse.rs:322-350`): length prefix, `:`,
payload.  Returns the new cursor position and token list. -/
def parseString (limit : Option Nat) (buf : List Nat) (pos : Nat)
    (tokens : List Token) : Except BenError (Nat × List Token) :=
  match parseInt buf 58 pos with
  | .error e => .error e
  | .ok (len, pos1) =>
    let pos2 := pos1 + 1
    if len < 0 then .error (.Invalid "String length must be positive" pos)
    else
      let n := len.toNat
      if buf.length < pos2 + n then .error .Eof
      else
        match allocToken limit tokens ⟨.ByteStr, (pos2 : Int), ((pos2 + n : Nat) : Int), 0, 1⟩ with
        | .ok tokens1 => .ok (pos2 + n, tokens1)
        | .error _ => .error .NoMemory

/-- The `b'i'` branch of `Parser::parse_prefix` (`src/parse.rs:145-156`). -/
def doInt (limit : Option Nat) (buf : List Nat) (pos : Nat) (tokSuper : Int)
    (tokens : List Token) : Except BenError (Nat × List Token) :=
  match updateSuper tokens tokSuper .Int pos with
  | .error e => .error e
  | .ok tokens1 =>
    let start := pos + 1
    match parseInt buf 101 start with
    | .error e => .error e
    | .ok (_, pos2) =>
      match allocToken limit tokens1 ⟨.Int, (start : Int), (pos2 : Int), 0, 1⟩ with
      | .error e => .error e
      | .ok tokens2 => .ok (pos2 + 1, tokens2)

/-- The `b'l'` / `b'd'` branches of `Parser::parse_prefix`
(`src/parse.rs:157-172`): open a container, register it with its parent, make
it the new `tok_super`.  Returns new cursor, new `tok_super`, new tokens. -/
def doOpen (isDict : Bool) (limit : Option Nat) (pos : Nat) (tokSuper : Int)
    (tokens : List Token) : Except BenError (Nat × Int × List Token) :=
  let kind : TokenKind := if isDict then .Dict else .List
  match allocToken limit tokens ⟨kind, (pos : Int), -1, 0, 1⟩ with
  | .error e => .error e
  | .ok tokens1 =>
    match updateSuper tokens1 tokSuper kind (pos + 1) with
    | .error e => .error e
    | .ok tokens2 => .ok (pos + 1, (tokens2.length : Int) - 1, tokens2)

/-- The `b'0'..=b'9'` branch of `Parser::parse_prefix`
(`src/parse.rs:173-176`). -/
def doStr (limit : Option Nat) (buf : List Nat) (pos : Nat) (tokSuper : Int)
    (tokens : List Token) : Except BenError (Nat × List Token) :=
  match parseString limit buf pos tokens with
  | .error e => .error e
  | .ok (pos1, tokens1) =>
    match updateSuper tokens1 tokSuper .ByteStr pos1 with
    | .error e => .error e
    | .ok tokens2 => .ok (pos1, tokens2)

/-- The backward scan of the `b'e'` branch (`src/parse.rs:180-191` and
`201-209`): find the largest index `< n` whose token has `start ≥ 0` and
`end < 0` (i.e. the innermost still-open container), together with that
token. -/
def findOpen (tokens : List Token) : Nat → Option (Nat × Token)
  | 0 => none
  | n + 1 =>
    match tokens[n]? with
    | some t => if 0 ≤ t.start ∧ t.«end» < 0 then some (n, t) else findOpen tokens n
    | none => findOpen tokens n

/-- The `b'e'` branch of `Parser::parse_prefix` (`src/parse.rs:177-210`):
close the innermost open container (setting its `next` and `end`), then find
the enclosing open container as the new `tok_super`.  (With no token yet, the
Rust `self.tok_next - 1` underflow yields `-1` after the `as i32` cast in
release mode, i.e. the scan finds nothing; the debug-mode panic is not
modelled.) -/
def doClose (pos : Nat) (tokens : List Token) :
    Except BenError (Nat × Int × List Token) :=
  let pos1 := pos + 1
  match findOpen tokens tokens.length with
  | none => .error (.Invalid "Unclosed object" pos1)
  | some (i, t) =>
    let tokens1 := tokens.set i { t with next := tokens.length - i, «end» := (pos1 : Int) }
    let tokSuper1 : Int :=
      match findOpen tokens1 i with
      | none => -1
      | some (j, _) => (j : Int)
    .ok (pos1, tokSuper1, tokens1)

/-- The main loop of `Parser::parse_prefix` (`src/parse.rs:141-219`), with
fuel.  Arguments after the fuel: byte cursor `pos`, `depth`, `tok_super`,
tokens so far.  Returns the cursor and tokens at loop exit. -/
def parseLoop (limit : Option Nat) (buf : List Nat) :
    Nat → Nat → Int → Int → List Token → Except BenError (Nat × List Token)
  | 0, _, _, _, _ => .error .Eof
  | fuel + 1, pos, depth, tokSuper, tokens =>
    if h : pos < buf.length then
      let c := buf.get ⟨pos, h⟩
      if c = 105 then
        match doInt limit buf pos tokSuper tokens with
        | .error e => .error e
        | .ok (pos1, tokens1) =>
          if depth = 0 then .ok (pos1, tokens1)
          else parseLoop limit buf fuel pos1 depth tokSuper tokens1
      else if c = 108 then
        match doOpen false limit pos tokSuper tokens with
        | .error e => .error e
        | .ok (pos1, tokSuper1, tokens1) =>
          if depth + 1 = 0 then .ok (pos1, tokens1)
          else parseLoop limit buf fuel pos1 (depth + 1) tokSuper1 tokens1
      else if c = 100 then
        match doOpen true limit pos tokSuper tokens with
        | .error e => .error e
        | .ok (pos1, tokSuper1, tokens1) =>
          if depth + 1 = 0 then .ok (pos1, tokens1)
          else parseLoop limit buf fuel pos1 (depth + 1) tokSuper1 tokens1
      else if isDigitB c then
        match doStr limit buf pos tokSuper tokens with
        | .error e => .error e
        | .ok (pos1, tokens1) =>
          if depth = 0 then .ok (pos1, tokens1)
          else parseLoop limit buf fuel pos1 depth tokSuper tokens1
      else if c = 101 then
        match doClose pos tokens with
        | .error e => .error e
        | .ok (pos1, tokSuper1, tokens1) =>
          if depth - 1 = 0 then .ok (pos1, tokens1)
          else parseLoop limit buf fuel pos1 (depth - 1) tokSuper1 tokens1
      else .error (.Unexpected pos)
    else .ok (pos, tokens)

/-- The final validation loop of `Parser::parse_prefix`
(`src/parse.rs:220-233`): a token that is still open, or a `Dict` with an odd
child count, makes the whole parse an `Eof`. -/
def tokenBad (t : Token) : Bool :=
  (decide (0 ≤ t.start) && decide (t.«end» < 0)) ||
    (decide (t.kind = TokenKind.Dict) && decide (t.children % 2 ≠ 0))

/-- `Parser::parse_prefix` (`src/parse.rs:135-240`).  Returns the token list
and the number of bytes consumed.  (The Rust function also wraps the tokens
into a root `Node`; the `Node` record is defined below and carries the same
data.) -/
def parsePrefix (limit : Option Nat) (buf : List Nat) :
    Except BenError (List Token × Nat) :=
  if buf.isEmpty then .error .Eof
  else
    match parseLoop limit buf (buf.length + 1) 0 0 (-1) [] with
    | .error e => .error e
    | .ok (pos, tokens) =>
      if tokens.any tokenBad then .error .Eof
      else .ok (tokens, pos)

/-- `Parser::parse` (`src/parse.rs:121-131`): `parse_prefix` plus the
requirement that the whole buffer was consumed. -/
def parse (limit : Option Nat) (buf : List Nat) : Except BenError (List Token) :=
  match parsePrefix limit buf with
  | .error e => .error e
  | .ok (tokens, len) =>
    if len = buf.length then .ok tokens
    else .error (.Invalid "Extra bytes at the end" len)

/-! ## Tree views (`src/decode.rs`) -/

/-- `Node` from `src/decode.rs`: a cursor `(buffer, token sequence, index)`. -/
structure Node where
  buf : List Nat
  tokens : List Token
  idx : Nat
deriving DecidableEq

/-- The byte slice `&buf[t.range()]`.  For tokens produced by a successful
parse, `0 ≤ start ≤ end ≤ buf.length` holds (proved below), so the
drop/take never clamps and the `range` assertions never fire. -/
def sliceRange (buf : List Nat) (t : Token) : List Nat :=
  (buf.drop t.start.toNat).take (t.«end» - t.start).toNat

/-- `Node::as_raw_bytes` (`src/decode.rs:42-44`).  An out-of-range index would
panic in Rust and yields `[]` here. -/
def Node.as_raw_bytes (n : Node) : List Nat :=
  match n.tokens[n.idx]? with
  | some t => sliceRange n.buf t
  | none => []

/-- `Node::kind` (`src/decode.rs:46-48`), total via `Option`. -/
def Node.kind? (n : Node) : Option TokenKind := (n.tokens[n.idx]?).map Token.kind

/-- `Node::is_list`. -/
def Node.is_list (n : Node) : Bool := n.kind? = some TokenKind.List

/-- `Node::is_dict`. -/
def Node.is_dict (n : Node) : Bool := n.kind? = some TokenKind.Dict

/-- `Node::is_bytes`. -/
def Node.is_bytes (n : Node) : Bool := n.kind? = some TokenKind.ByteStr

/-- `Node::is_int`. -/
def Node.is_int (n : Node) : Bool := n.kind? = some TokenKind.Int

/-- `Node::as_int` (`src/decode.rs:138-157`): re-decode the digit span.  The
Rust loop maps `b'-'` to a negative flag and otherwise accumulates
`val * 10 + (c - b'0')` without further checks; for the tokens the parser
produces, the span is an optional `-` followed by digits whose value fits in
`i64`. -/
def Node.as_int (n : Node) : Option Int :=
  match n.tokens[n.idx]? with
  | none => none
  | some t =>
    if t.kind = TokenKind.Int then
      let r := (sliceRange n.buf t).foldl
        (fun (p : Int × Bool) c =>
          if c = 45 then (p.1, true) else (p.1 * 10 + ((c : Int) - 48), p.2))
        (0, false)
      some (if r.2 then -r.1 else r.1)
    else none

/-- `Node::as_bytes` (`src/decode.rs:172-180`). -/
def Node.as_bytes (n : Node) : Option (List Nat) :=
  match n.tokens[n.idx]? with
  | none => none
  | some t => if t.kind = TokenKind.ByteStr then some (sliceRange n.buf t) else none

/-- `List` from `src/decode.rs` (named `BenList` here to avoid the Lean `List`
clash). -/
structure BenList where
  buf : List Nat
  tokens : List Token
  idx : Nat
deriving DecidableEq

/-- `Dict` from `src/decode.rs`. -/
structure BenDict where
  buf : List Nat
  tokens : List Token
  idx : Nat
deriving DecidableEq

/-- `Node::as_list` (`src/decode.rs:86-96`). -/
def Node.as_list (n : Node) : Option BenList :=
  if n.is_list then some ⟨n.buf, n.tokens, n.idx⟩ else none

/-- `Node::as_dict` (`src/decode.rs:113-123`). -/
def Node.as_dict (n : Node) : Option BenDict :=
  if n.is_dict then some ⟨n.buf, n.tokens, n.idx⟩ else none

/-- `List::len` (`src/decode.rs:298-303`). -/
def BenList.len (l : BenList) : Nat :=
  match l.tokens[l.idx]? with
  | some t => t.children
  | none => 0

/-- The `while` loop of `List::find_idx` (`src/decode.rs:318-321`): starting
from array slot `idx`, advance `steps` times by the visited token's `next`.
(A slot outside the array would panic in Rust; it advances by `0` here and is
unreachable from parsed data, as proved below.) -/
def advanceIdx (tokens : List Token) : Nat → Nat → Nat
  | idx, 0 => idx
  | idx, steps + 1 =>
    advanceIdx tokens
      (idx + (match tokens[idx]? with | some t => t.next | none => 0)) steps

/-- `List::find_idx` (`src/decode.rs:310-324`). -/
def BenList.find_idx (l : BenList) (i : Nat) : Option Nat :=
  match l.tokens[l.idx]? with
  | none => none
  | some t =>
    if t.children ≤ i then none
    else some (advanceIdx l.tokens (l.idx + 1) i)

/-- `List::get` (`src/decode.rs:259-265`). -/
def BenList.get (l : BenList) (i : Nat) : Option Node :=
  (l.find_idx i).map fun j => ⟨l.buf, l.tokens, j⟩

/-- `ListIter` from `src/decode.rs:327-333`. -/
structure ListIter where
  buf : List Nat
  tokens : List Token
  total : Nat
  token_idx : Nat
  pos : Nat
deriving DecidableEq

/-- `List::iter` (`src/decode.rs:248-256`). -/
def BenList.iter (l : BenList) : ListIter :=
  ⟨l.buf, l.tokens,
    (match l.tokens[l.idx]? with | some t => t.children | none => 0),
    l.idx + 1, 0⟩

/-- `<ListIter as Iterator>::next` (`src/decode.rs:335-353`), in
state-passing form. -/
def ListIter.next (it : ListIter) : Option (Node × ListIter) :=
  if it.total ≤ it.pos then none
  else
    let idx := it.token_idx
    let nxt := match it.tokens[idx]? with | some t => t.next | none => 0
    some (⟨it.buf, it.tokens, idx⟩,
      { it with token_idx := idx + nxt, pos := it.pos + 1 })

/-- The `k`-th element yielded by a `ListIter`. -/
def ListIter.nth (it : ListIter) : Nat → Option Node
  | 0 => (it.next).map Prod.fst
  | k + 1 =>
    match it.next with
    | none => none
    | some (_, it1) => it1.nth k

/-- `Dict::len` (`src/decode.rs:426-434`). -/
def BenDict.len (d : BenDict) : Nat :=
  match d.tokens[d.idx]? with
  | some t => t.children / 2
  | none => 0

/-- `DictIter` from `src/decode.rs:442-448`. -/
structure DictIter where
  buf : List Nat
  tokens : List Token
  total : Nat
  token_idx : Nat
  pos : Nat
deriving DecidableEq

/-- `Dict::iter` (`src/decode.rs:370-378`). -/
def BenDict.iter (d : BenDict) : DictIter :=
  ⟨d.buf, d.tokens,
    (match d.tokens[d.idx]? with | some t => t.children | none => 0),
    d.idx + 1, 0⟩

/-- `<DictIter as Iterator>::next` (`src/decode.rs:450-483`): yield the
key/value pair, advancing by the key's `next` then the value's `next`. -/
def DictIter.next (it : DictIter) : Option ((Node × Node) × DictIter) :=
  if it.total ≤ it.pos then none
  else
    let keyIdx := it.token_idx
    match it.tokens[keyIdx]? with
    | none => none
    | some kt =>
      let valIdx := keyIdx + kt.next
      match it.tokens[valIdx]? with
      | none => none
      | some vt =>
        some ((⟨it.buf, it.tokens, keyIdx⟩, ⟨it.buf, it.tokens, valIdx⟩),
          { it with token_idx := valIdx + vt.next, pos := it.pos + 2 })

/-! ## Encoder (`src/encode.rs`) -/

/-- Decimal digit bytes of a natural number, most significant first, exactly
as `itoa` prints it.  The fuel `n + 1` always suffices (the digit count of `n`
is at most `n + 1`). -/
def itoaAux : Nat → Nat → List Nat
  | 0, _ => []
  | fuel + 1, n => if n < 10 then [n + 48] else itoaAux fuel (n / 10) ++ [n % 10 + 48]

/-- `itoa` for a natural number. -/
def itoaN (n : Nat) : List Nat := itoaAux (n + 1) n

/-- `itoa::Buffer::format` for a signed integer. -/
def itoaI (i : Int) : List Nat := if i < 0 then 45 :: itoaN (-i).toNat else itoaN i.toNat

mutual
/-- A value tree as buildable through the `Encoder` API of `src/encode.rs`:
`add_int` takes an `i64`, `add_bytes`/`add_str` take byte payloads, and the
`List`/`Dict` builders nest arbitrary children, a `Dict` entry being a string
key (the `key: &str` argument of `Dict::add`) plus any value.  Mutual lists
are used instead of `Vec` so that structural recursion and induction are
available. -/
inductive Value where
  | vint (i : Int)
  | vbytes (s : List Nat)
  | vlist (items : ValueItems)
  | vdict (entries : ValueEntries)
inductive ValueItems where
  | nil
  | cons (v : Value) (tl : ValueItems)
inductive ValueEntries where
  | nil
  | cons (key : List Nat) (v : Value) (tl : ValueEntries)
end

mutual
/-- The bytes the `Encoder` impl for `Vec<u8>` (`src/encode.rs:143-217`)
appends for a value tree: `add_int` writes `i<itoa>e`; `add_bytes` writes
`<len>:<payload>`; the `List` builder writes `l`, its children, then `e` on
release; the `Dict` builder writes `d`, then `add_str`-encoded key plus value
for each entry, then `e`. -/
def encodeValue : Value → List Nat
  | .vint i => 105 :: itoaI i ++ [101]
  | .vbytes s => itoaN s.length ++ 58 :: s
  | .vlist items => 108 :: encodeItems items ++ [101]
  | .vdict entries => 100 :: encodeEntries entries ++ [101]
def encodeItems : ValueItems → List Nat
  | .nil => []
  | .cons v tl => encodeValue v ++ encodeItems tl
def encodeEntries : ValueEntries → List Nat
  | .nil => []
  | .cons key v tl => itoaN key.length ++ 58 :: key ++ encodeValue v ++ encodeEntries tl
end

/-! ## The grammar of buffers the tokenizer accepts

A `GValue` is one bencoded value in the (permissive) shape the tokenizer
actually recognises: an integer literal is an optional `-` followed by any
(possibly empty) digit string whose value fits in `i64`; a byte string is a
nonempty digit length prefix, `:`, and exactly that many payload bytes; lists
and dicts are delimited child sequences.  `gdict` stores its children flat
(keys and values alternating), mirroring how the parser counts them. -/
mutual
inductive GValue where
  | gint (neg : Bool) (ds : List Nat)
  | gbytes (lds : List Nat) (content : List Nat)
  | glist (items : GItems)
  | gdict (items : GItems)
inductive GItems where
  | nil
  | cons (g : GValue) (tl : GItems)
end

/-- Append a value at the end of a child sequence. -/
def gsnoc : GItems → GValue → GItems
  | .nil, g => .cons g .nil
  | .cons h tl, g => .cons h (gsnoc tl g)

/-- Number of direct children. -/
def itemsLen : GItems → Nat
  | .nil => 0
  | .cons _ tl => 1 + itemsLen tl

mutual
/-- The byte string a `GValue` stands for. -/
def gencode : GValue → List Nat
  | .gint neg ds => 105 :: (if neg then 45 :: ds else ds) ++ [101]
  | .gbytes lds content => lds ++ 58 :: content
  | .glist items => 108 :: itemsBytes items ++ [101]
  | .gdict items => 100 :: itemsBytes items ++ [101]
def itemsBytes : GItems → List Nat
  | .nil => []
  | .cons g tl => gencode g ++ itemsBytes tl
end

mutual
/-- Number of tokens in a value's subtree (itself included). -/
def gcount : GValue → Nat
  | .gint _ _ => 1
  | .gbytes _ _ => 1
  | .glist items => 1 + itemsCount items
  | .gdict items => 1 + itemsCount items
def itemsCount : GItems → Nat
  | .nil => 0
  | .cons g tl => gcount g + itemsCount tl
end

mutual
/-- The token run the parser records for a value whose encoding starts at byte
offset `off`, in preorder.  This is proved below to be exactly what
`parse` produces. -/
def gtokens : GValue → Nat → List Token
  | .gint neg ds, off =>
    [⟨.Int, ((off + 1 : Nat) : Int),
      ((off + 1 + (if neg then 1 else 0) + ds.length : Nat) : Int), 0, 1⟩]
  | .gbytes lds content, off =>
    [⟨.ByteStr, ((off + lds.length + 1 : Nat) : Int),
      ((off + lds.length + 1 + content.length : Nat) : Int), 0, 1⟩]
  | .glist items, off =>
    ⟨.List, (off : Int), ((off + (gencode (.glist items)).length : Nat) : Int),
      itemsLen items, 1 + itemsCount items⟩ :: itemsTokens items (off + 1)
  | .gdict items, off =>
    ⟨.Dict, (off : Int), ((off + (gencode (.gdict items)).length : Nat) : Int),
      itemsLen items, 1 + itemsCount items⟩ :: itemsTokens items (off + 1)
def itemsTokens : GItems → Nat → List Token
  | .nil, _ => []
  | .cons g tl, off => gtokens g off ++ itemsTokens tl (off + (gencode g).length)
end

/-- Value of a decimal digit string (most significant first). -/
def digitsVal (ds : List Nat) : Int :=
  ds.foldl (fun a c => a * 10 + ((c : Int) - 48)) 0

/-- Whether a grammar value is a byte string (a legal dict key). -/
def isGBytes : GValue → Bool
  | .gbytes _ _ => true
  | _ => false

/-- Alternation constraint of dict children: with `keyNext = true`, the
children at even positions (0-based) must be byte strings. -/
def altOk : Bool → GItems → Prop
  | _, .nil => True
  | keyNext, .cons g tl => (keyNext → isGBytes g = true) ∧ altOk (!keyNext) tl

mutual
/-- Well-formedness of a grammar value: digit strings are digits, integer
values fit `i64`, length prefixes are nonempty and spell the payload length,
dict keys are byte strings. -/
def Wfb : GValue → Prop
  | .gint _ ds => (∀ c ∈ ds, isDigitB c = true) ∧ digitsVal ds ≤ i64Max
  | .gbytes lds content =>
    lds ≠ [] ∧ (∀ c ∈ lds, isDigitB c = true) ∧
      digitsVal lds = (content.length : Int) ∧ (content.length : Int) ≤ i64Max
  | .glist items => WfbItems items
  | .gdict items => WfbItems items ∧ altOk true items
def WfbItems : GItems → Prop
  | .nil => True
  | .cons g tl => Wfb g ∧ WfbItems tl
end

mutual
/-- No dict anywhere in the value has a dangling key (odd child count). -/
def CleanG : GValue → Prop
  | .gint _ _ => True
  | .gbytes _ _ => True
  | .glist items => CleanItems items
  | .gdict items => CleanItems items ∧ itemsLen items % 2 = 0
def CleanItems : GItems → Prop
  | .nil => True
  | .cons g tl => CleanG g ∧ CleanItems tl
end

/-! ## The parser's stack of open containers

Mid-parse, the tokens with unset `end` are exactly the chain of currently
open containers.  A `Frame` describes one of them: its kind, the byte offset
of its opening delimiter, and its already-completed direct children.  The
frame list is innermost-first. -/

structure Frame where
  isDict : Bool
  openPos : Nat
  blocks : GItems

/-- The still-open token of a frame; `extra` is `1` when the frame already has
a further open child container (which `update_super` counted). -/
def frameOpenTok (f : Frame) (extra : Nat) : Token :=
  ⟨if f.isDict then .Dict else .List, (f.openPos : Int), -1,
    itemsLen f.blocks + extra, 1⟩

/-- All tokens contributed by one frame. -/
def frameToks (f : Frame) (extra : Nat) : List Token :=
  frameOpenTok f extra :: itemsTokens f.blocks (f.openPos + 1)

/-- Tokens of a stack all of whose frames have an open child. -/
def stackToksN : List Frame → List Token
  | [] => []
  | f :: fs => stackToksN fs ++ frameToks f 1

/-- Tokens of the whole stack (innermost frame first in the list, but its
tokens come last). -/
def stackToks : List Frame → List Token
  | [] => []
  | f :: fs => stackToksN fs ++ frameToks f 0

/-- Bytes contributed by one frame: its opening delimiter plus its completed
children's encodings. -/
def frameBytes (f : Frame) : List Nat :=
  (if f.isDict then 100 else 108) :: itemsBytes f.blocks

/-- All bytes consumed so far. -/
def stackBytes : List Frame → List Nat
  | [] => []
  | f :: fs => stackBytes fs ++ frameBytes f

/-- The `tok_super` value corresponding to a stack. -/
def superIdx : List Frame → Int
  | [] => -1
  | _ :: fs => ((stackToksN fs).length : Int)

/-- Each frame's `openPos` is the byte offset right after all outer frames'
bytes. -/
def stackOffsOK : List Frame → Prop
  | [] => True
  | f :: fs => f.openPos = (stackBytes fs).length ∧ stackOffsOK fs

/-- Well-formedness of the non-top frames: completed children are
well-formed; a dict frame's children alternate starting with a key, and the
currently open child container sits at an odd (value) position. -/
def stackWfN : List Frame → Prop
  | [] => True
  | f :: fs =>
    WfbItems f.blocks ∧
      (f.isDict = true → altOk true f.blocks ∧ itemsLen f.blocks % 2 = 1) ∧
      stackWfN fs

/-- Well-formedness of the whole stack (the top frame has no open child, so
its child count has no parity constraint yet). -/
def stackWf : List Frame → Prop
  | [] => True
  | f :: fs =>
    WfbItems f.blocks ∧ (f.isDict = true → altOk true f.blocks) ∧ stackWfN fs

/-- The parser-state invariant: the loop state `(pos, depth, tok_super,
tokens)` is the one determined by a stack of open frames. -/
def StInv (buf : List Nat) (pos : Nat) (depth tokSuper : Int)
    (tokens : List Token) (frames : List Frame) : Prop :=
  tokens = stackToks frames ∧
  (∃ rest, buf = stackBytes frames ++ rest) ∧
  pos = (stackBytes frames).length ∧
  depth = (frames.length : Int) ∧
  tokSuper = superIdx frames ∧
  stackOffsOK frames ∧ stackWf frames

/-- Append a freshly completed value to the innermost open frame. -/
def appendBlock : List Frame → GValue → List Frame
  | [], _ => []
  | f :: fs, g => { f with blocks := gsnoc f.blocks g } :: fs

/-! ## Structure lemmas for the grammar -/

theorem itemsBytes_gsnoc : ∀ (its : GItems) (g : GValue),
    itemsBytes (gsnoc its g) = itemsBytes its ++ gencode g
  | .nil, g => by simp [gsnoc, itemsBytes]
  | .cons h tl, g => by simp [gsnoc, itemsBytes, itemsBytes_gsnoc tl g]

theorem itemsLen_gsnoc : ∀ (its : GItems) (g : GValue),
    itemsLen (gsnoc its g) = itemsLen its + 1
  | .nil, g => by simp [gsnoc, itemsLen]
  | .cons h tl, g => by simp [gsnoc, itemsLen, itemsLen_gsnoc tl g]; omega

theorem itemsCount_gsnoc : ∀ (its : GItems) (g : GValue),
    itemsCount (gsnoc its g) = itemsCount its + gcount g
  | .nil, g => by simp [gsnoc, itemsCount]
  | .cons h tl, g => by simp [gsnoc, itemsCount, itemsCount_gsnoc tl g]; omega

theorem itemsTokens_gsnoc : ∀ (its : GItems) (g : GValue) (off : Nat),
    itemsTokens (gsnoc its g) off =
      itemsTokens its off ++ gtokens g (off + (itemsBytes its).length)
  | .nil, g, off => by simp [gsnoc, itemsTokens, itemsBytes]
  | .cons h tl, g, off => by
    simp only [gsnoc, itemsTokens, itemsBytes, itemsTokens_gsnoc tl g,
      List.append_assoc, List.length_append]
    have : off + (gencode h).length + (itemsBytes tl).length =
        off + ((gencode h).length + (itemsBytes tl).length) := by omega
    rw [this]

theorem WfbItems_gsnoc : ∀ (its : GItems) (g : GValue),
    WfbItems its → Wfb g → WfbItems (gsnoc its g)
  | .nil, g, _, h2 => ⟨h2, trivial⟩
  | .cons h tl, g, h1, h2 => ⟨h1.1, WfbItems_gsnoc tl g h1.2 h2⟩

theorem altOk_gsnoc : ∀ (its : GItems) (b : Bool) (g : GValue),
    altOk b its →
    ((if itemsLen its % 2 = 0 then b else !b) = true → isGBytes g = true) →
    altOk b (gsnoc its g)
  | .nil, b, g, _, hg => ⟨fun hb => hg (by simpa [itemsLen] using hb), trivial⟩
  | .cons h tl, b, g, hyp, hg => by
    refine ⟨hyp.1, altOk_gsnoc tl (!b) g hyp.2 fun hb => ?_⟩
    apply hg
    rcases Nat.even_or_odd (itemsLen tl) with he | ho
    · have h0 : itemsLen tl % 2 = 0 := Nat.even_iff.mp he
      have h1 : itemsLen (GItems.cons h tl) % 2 = 1 := by simp [itemsLen]; omega
      rw [if_pos h0] at hb
      rw [if_neg (by omega : ¬ itemsLen (GItems.cons h tl) % 2 = 0)]
      simpa using hb
    · have h1 : itemsLen tl % 2 = 1 := Nat.odd_iff.mp ho
      have h0 : itemsLen (GItems.cons h tl) % 2 = 0 := by simp [itemsLen]; omega
      rw [if_neg (by omega : ¬ itemsLen tl % 2 = 0)] at hb
      rw [if_pos h0]
      simpa using hb

mutual
theorem gtokens_length (g : GValue) (off : Nat) :
    (gtokens g off).length = gcount g := by
  cases g with
  | gint neg ds => simp [gtokens, gcount]
  | gbytes lds c => simp [gtokens, gcount]
  | glist items =>
    simp [gtokens, gcount, itemsTokens_length items (off + 1)]; omega
  | gdict items =>
    simp [gtokens, gcount, itemsTokens_length items (off + 1)]; omega
theorem itemsTokens_length (its : GItems) (off : Nat) :
    (itemsTokens its off).length = itemsCount its := by
  cases its with
  | nil => simp [itemsTokens, itemsCount]
  | cons g tl =>
    simp [itemsTokens, itemsCount, gtokens_length g off,
      itemsTokens_length tl (off + (gencode g).length)]
end

mutual
/-- Every token recorded for a value is closed, with its span inside the
value's encoding. -/
theorem gtokens_bounds (g : GValue) (off : Nat) :
    ∀ t ∈ gtokens g off, (off : Int) ≤ t.start ∧ t.start ≤ t.«end» ∧
      t.«end» ≤ ((off + (gencode g).length : Nat) : Int) := by
  cases g with
  | gint neg ds =>
    intro t ht
    simp only [gtokens, List.mem_singleton] at ht
    subst ht
    cases neg <;> simp [gencode] <;> push_cast <;> omega
  | gbytes lds c =>
    intro t ht
    simp only [gtokens, List.mem_singleton] at ht
    subst ht
    simp [gencode]; push_cast; omega
  | glist items =>
    intro t ht
    simp only [gtokens, List.mem_cons] at ht
    rcases ht with rfl | ht
    · simp [gencode]; push_cast; omega
    · have h := itemsTokens_bounds items (off + 1) t ht
      have hlen : (gencode (GValue.glist items)).length =
          (itemsBytes items).length + 2 := by simp [gencode]
      refine ⟨by push_cast at h ⊢; omega, h.2.1, ?_⟩
      rw [hlen]; push_cast at h ⊢; omega
  | gdict items =>
    intro t ht
    simp only [gtokens, List.mem_cons] at ht
    rcases ht with rfl | ht
    · simp [gencode]; push_cast; omega
    · have h := itemsTokens_bounds items (off + 1) t ht
      have hlen : (gencode (GValue.gdict items)).length =
          (itemsBytes items).length + 2 := by simp [gencode]
      refine ⟨by push_cast at h ⊢; omega, h.2.1, ?_⟩
      rw [hlen]; push_cast at h ⊢; omega
theorem itemsTokens_bounds (its : GItems) (off : Nat) :
    ∀ t ∈ itemsTokens its off, (off : Int) ≤ t.start ∧ t.start ≤ t.«end» ∧
      t.«end» ≤ ((off + (itemsBytes its).length : Nat) : Int) := by
  cases its with
  | nil => intro t ht; simp [itemsTokens] at ht
  | cons g tl =>
    intro t ht
    simp only [itemsTokens, List.mem_append] at ht
    have hlen : (itemsBytes (GItems.cons g tl)).length =
        (gencode g).length + (itemsBytes tl).length := by simp [itemsBytes]
    rcases ht with ht | ht
    · have h := gtokens_bounds g off t ht
      refine ⟨h.1, h.2.1, ?_⟩
      rw [hlen]; push_cast at h ⊢; omega
    · have h := itemsTokens_bounds tl (off + (gencode g).length) t ht
      refine ⟨by push_cast at h ⊢; omega, h.2.1, ?_⟩
      rw [hlen]; push_cast at h ⊢; omega
end

/-- Tokens of completed values are never "open" (`end < 0`). -/
theorem gtokens_closed (g : GValue) (off : Nat) :
    ∀ t ∈ gtokens g off, ¬(0 ≤ t.start ∧ t.«end» < 0) := by
  intro t ht ⟨_, h2⟩
  have h := gtokens_bounds g off t ht
  omega

/-- Tokens of completed child sequences are never "open". -/
theorem itemsTokens_closed (its : GItems) (off : Nat) :
    ∀ t ∈ itemsTokens its off, ¬(0 ≤ t.start ∧ t.«end» < 0) := by
  intro t ht ⟨_, h2⟩
  have h := itemsTokens_bounds its off t ht
  omega

mutual
/-- In a dangling-free value every dict token has an even child count. -/
theorem gtokens_dict_even (g : GValue) (off : Nat) (hc : CleanG g) :
    ∀ t ∈ gtokens g off, t.kind = TokenKind.Dict → t.children % 2 = 0 := by
  cases g with
  | gint neg ds => intro t ht; simp [gtokens] at ht; subst ht; simp
  | gbytes lds c => intro t ht; simp [gtokens] at ht; subst ht; simp
  | glist items =>
    intro t ht
    simp only [gtokens, List.mem_cons] at ht
    rcases ht with rfl | ht
    · intro h; simp at h
    · exact itemsTokens_dict_even items (off + 1) hc t ht
  | gdict items =>
    intro t ht
    simp only [gtokens, List.mem_cons] at ht
    rcases ht with rfl | ht
    · intro _; exact hc.2
    · exact itemsTokens_dict_even items (off + 1) hc.1 t ht
theorem itemsTokens_dict_even (its : GItems) (off : Nat) (hc : CleanItems its) :
    ∀ t ∈ itemsTokens its off, t.kind = TokenKind.Dict → t.children % 2 = 0 := by
  cases its with
  | nil => intro t ht; simp [itemsTokens] at ht
  | cons g tl =>
    intro t ht
    simp only [itemsTokens, List.mem_append] at ht
    rcases ht with ht | ht
    · exact gtokens_dict_even g off hc.1 t ht
    · exact itemsTokens_dict_even tl (off + (gencode g).length) hc.2 t ht
end

mutual
/-- Conversely, if every dict token of the run has an even child count the
value is dangling-free. -/
theorem gtokens_dict_even_rev (g : GValue) (off : Nat)
    (h : ∀ t ∈ gtokens g off, t.kind = TokenKind.Dict → t.children % 2 = 0) :
    CleanG g := by
  cases g with
  | gint neg ds => trivial
  | gbytes lds c => trivial
  | glist items =>
    exact itemsTokens_dict_even_rev items (off + 1) fun t ht =>
      h t (by simp [gtokens, List.mem_cons]; right; exact ht)
  | gdict items =>
    refine ⟨itemsTokens_dict_even_rev items (off + 1) fun t ht =>
      h t (by simp [gtokens, List.mem_cons]; right; exact ht), ?_⟩
    have := h _ (by simp [gtokens, List.mem_cons]; left; rfl) rfl
    simpa using this
theorem itemsTokens_dict_even_rev (its : GItems) (off : Nat)
    (h : ∀ t ∈ itemsTokens its off, t.kind = TokenKind.Dict →
      t.children % 2 = 0) :
    CleanItems its := by
  cases its with
  | nil => trivial
  | cons g tl =>
    refine ⟨gtokens_dict_even_rev g off fun t ht =>
        h t (by simp [itemsTokens, List.mem_append]; left; exact ht),
      itemsTokens_dict_even_rev tl (off + (gencode g).length) fun t ht =>
        h t (by simp [itemsTokens, List.mem_append]; right; exact ht)⟩
end

/-! ## Digit accumulation lemmas -/

/-- `digitsVal` with an explicit accumulator. -/
def dvFrom (val : Int) (ds : List Nat) : Int :=
  ds.foldl (fun a c => a * 10 + ((c : Int) - 48)) val

theorem dvFrom_nil (val : Int) : dvFrom val [] = val := rfl

theorem dvFrom_cons (val : Int) (c : Nat) (ds : List Nat) :
    dvFrom val (c :: ds) = dvFrom (val * 10 + ((c : Int) - 48)) ds := rfl

theorem digitsVal_eq_dvFrom (ds : List Nat) : digitsVal ds = dvFrom 0 ds := rfl

theorem dvFrom_le (val : Int) (ds : List Nat) (hds : ∀ c ∈ ds, isDigitB c = true)
    (hval : 0 ≤ val) : val ≤ dvFrom val ds := by
  induction ds generalizing val with
  | nil => simp [dvFrom_nil]
  | cons c tl ih =>
    have hc : isDigitB c = true := hds c (by simp)
    have hc' : 48 ≤ c ∧ c ≤ 57 := by
      simpa [isDigitB, Bool.and_eq_true, decide_eq_true_eq] using hc
    rw [dvFrom_cons]
    have h1 : val ≤ val * 10 + ((c : Int) - 48) := by
      have : (48 : Int) ≤ (c : Int) := by exact_mod_cast hc'.1
      nlinarith
    calc val ≤ val * 10 + ((c : Int) - 48) := h1
      _ ≤ dvFrom (val * 10 + ((c : Int) - 48)) tl :=
        ih _ (fun d hd => hds d (by simp [hd])) (by
          have : (48 : Int) ≤ (c : Int) := by exact_mod_cast hc'.1
          nlinarith)

theorem dvFrom_nonneg (val : Int) (ds : List Nat)
    (hds : ∀ c ∈ ds, isDigitB c = true) (hval : 0 ≤ val) : 0 ≤ dvFrom val ds :=
  le_trans hval (dvFrom_le val ds hds hval)

theorem digitsVal_nonneg (ds : List Nat) (hds : ∀ c ∈ ds, isDigitB c = true) :
    0 ≤ digitsVal ds :=
  dvFrom_nonneg 0 ds hds le_rfl

/-! ## `parseIntAux` characterisation -/

/-- Successful run of the digit loop up to a stop character. -/
theorem parseIntAux_ok (stop start : Nat) (hstop : isDigitB stop = false) :
    ∀ (ds : List Nat) (rest : List Nat) (pos : Nat) (val : Int),
    (∀ c ∈ ds, isDigitB c = true) → 0 ≤ val → dvFrom val ds ≤ i64Max →
    parseIntAux stop start (ds ++ stop :: rest) pos val =
      .ok (dvFrom val ds, pos + ds.length)
  | [], rest, pos, val, _, _, _ => by
    simp [parseIntAux, hstop, dvFrom_nil]
  | c :: tl, rest, pos, val, hds, hval, hle => by
    have hc : isDigitB c = true := hds c (by simp)
    have hc' : 48 ≤ c ∧ c ≤ 57 := by
      simpa [isDigitB, Bool.and_eq_true, decide_eq_true_eq] using hc
    have hc48 : (48 : Int) ≤ (c : Int) := by exact_mod_cast hc'.1
    have hnext : 0 ≤ val * 10 + ((c : Int) - 48) := by nlinarith
    have hstep : val * 10 + ((c : Int) - 48) ≤ i64Max := by
      calc val * 10 + ((c : Int) - 48)
          ≤ dvFrom (val * 10 + ((c : Int) - 48)) tl :=
            dvFrom_le _ tl (fun d hd => hds d (by simp [hd])) hnext
        _ = dvFrom val (c :: tl) := (dvFrom_cons val c tl).symm
        _ ≤ i64Max := hle
    have hdiv : ¬(val > i64Max / 10) := by
      rw [not_lt, Int.le_ediv_iff_mul_le (by norm_num : (0:Int) < 10)]
      omega
    have hadd : ¬(val * 10 > i64Max - ((c : Int) - 48)) := by omega
    rw [List.cons_append, parseIntAux, if_pos hc, if_neg hdiv, if_neg hadd]
    rw [parseIntAux_ok stop start hstop tl rest (pos + 1) _
      (fun d hd => hds d (by simp [hd])) hnext
      (by rw [← dvFrom_cons]; exact hle)]
    simp [dvFrom_cons]
    omega

/-- Successful run of the digit loop up to the end of the buffer. -/
theorem parseIntAux_ok_end (stop start : Nat) :
    ∀ (ds : List Nat) (pos : Nat) (val : Int),
    (∀ c ∈ ds, isDigitB c = true) → 0 ≤ val → dvFrom val ds ≤ i64Max →
    parseIntAux stop start ds pos val = .ok (dvFrom val ds, pos + ds.length)
  | [], pos, val, _, _, _ => by simp [parseIntAux, dvFrom_nil]
  | c :: tl, pos, val, hds, hval, hle => by
    have hc : isDigitB c = true := hds c (by simp)
    have hc' : 48 ≤ c ∧ c ≤ 57 := by
      simpa [isDigitB, Bool.and_eq_true, decide_eq_true_eq] using hc
    have hc48 : (48 : Int) ≤ (c : Int) := by exact_mod_cast hc'.1
    have hnext : 0 ≤ val * 10 + ((c : Int) - 48) := by nlinarith
    have hstep : val * 10 + ((c : Int) - 48) ≤ i64Max := by
      calc val * 10 + ((c : Int) - 48)
          ≤ dvFrom (val * 10 + ((c : Int) - 48)) tl :=
            dvFrom_le _ tl (fun d hd => hds d (by simp [hd])) hnext
        _ = dvFrom val (c :: tl) := (dvFrom_cons val c tl).symm
        _ ≤ i64Max := hle
    have hdiv : ¬(val > i64Max / 10) := by
      rw [not_lt, Int.le_ediv_iff_mul_le (by norm_num : (0:Int) < 10)]
      omega
    have hadd : ¬(val * 10 > i64Max - ((c : Int) - 48)) := by omega
    rw [parseIntAux, if_pos hc, if_neg hdiv, if_neg hadd]
    rw [parseIntAux_ok_end stop start tl (pos + 1) _
      (fun d hd => hds d (by simp [hd])) hnext
      (by rw [← dvFrom_cons]; exact hle)]
    simp [dvFrom_cons]
    omega

/-- The digit loop overflows as soon as the accumulated value would exceed
`i64Max`, whatever follows. -/
theorem parseIntAux_overflow (stop start : Nat) :
    ∀ (ds : List Nat) (tail : List Nat) (pos : Nat) (val : Int),
    (∀ c ∈ ds, isDigitB c = true) → 0 ≤ val → val ≤ i64Max →
    dvFrom val ds > i64Max →
    parseIntAux stop start (ds ++ tail) pos val = .error (.Overflow start)
  | [], tail, pos, val, _, _, hle, hgt => by
    rw [dvFrom_nil] at hgt; omega
  | c :: tl, tail, pos, val, hds, hval, hle, hgt => by
    have hc : isDigitB c = true := hds c (by simp)
    have hc' : 48 ≤ c ∧ c ≤ 57 := by
      simpa [isDigitB, Bool.and_eq_true, decide_eq_true_eq] using hc
    have hc48 : (48 : Int) ≤ (c : Int) := by exact_mod_cast hc'.1
    have hnext : 0 ≤ val * 10 + ((c : Int) - 48) := by nlinarith
    rw [List.cons_append, parseIntAux, if_pos hc]
    by_cases hdiv : val > i64Max / 10
    · rw [if_pos hdiv]
    · rw [if_neg hdiv]
      by_cases hadd : val * 10 > i64Max - ((c : Int) - 48)
      · rw [if_pos hadd]
      · rw [if_neg hadd]
        exact parseIntAux_overflow stop start tl tail (pos + 1) _
          (fun d hd => hds d (by simp [hd])) hnext (by omega)
          (by rw [← dvFrom_cons]; exact hgt)

/-- Soundness of the digit loop: a successful run decomposes the input into a
digit prefix whose value it returns, stopped either by the buffer end or by
the stop character. -/
theorem parseIntAux_sound (stop start : Nat) (hstop : isDigitB stop = false) :
    ∀ (l : List Nat) (pos : Nat) (val : Int), 0 ≤ val → val ≤ i64Max →
    ∀ {v : Int} {p : Nat},
    parseIntAux stop start l pos val = .ok (v, p) →
    ∃ ds rest, l = ds ++ rest ∧ (∀ c ∈ ds, isDigitB c = true) ∧
      p = pos + ds.length ∧ v = dvFrom val ds ∧ v ≤ i64Max ∧ 0 ≤ v ∧
      (rest = [] ∨ ∃ rest', rest = stop :: rest')
  | [], pos, val, hval, hle, v, p, h => by
    refine ⟨[], [], by simp, by simp, ?_⟩
    simp only [parseIntAux] at h
    cases h
    exact ⟨by simp, by simp [dvFrom_nil], hle, hval, Or.inl rfl⟩
  | c :: l, pos, val, hval, hle, v, p, h => by
    by_cases hc : isDigitB c = true
    · have hc' : 48 ≤ c ∧ c ≤ 57 := by
        simpa [isDigitB, Bool.and_eq_true, decide_eq_true_eq] using hc
      have hc48 : (48 : Int) ≤ (c : Int) := by exact_mod_cast hc'.1
      rw [parseIntAux, if_pos hc] at h
      by_cases hdiv : val > i64Max / 10
      · rw [if_pos hdiv] at h; cases h
      · rw [if_neg hdiv] at h
        by_cases hadd : val * 10 > i64Max - ((c : Int) - 48)
        · rw [if_pos hadd] at h; cases h
        · rw [if_neg hadd] at h
          have hnext : 0 ≤ val * 10 + ((c : Int) - 48) := by nlinarith
          obtain ⟨ds, rest, hsplit, hds, hp, hv, hvle, hvnn, hrest⟩ :=
            parseIntAux_sound stop start hstop l (pos + 1) _ hnext (by omega) h
          refine ⟨c :: ds, rest, by simp [hsplit], ?_, by simp [hp]; omega,
            by rw [dvFrom_cons]; exact hv, hvle, hvnn, hrest⟩
          intro d hd
          rcases List.mem_cons.mp hd with rfl | hd
          · exact hc
          · exact hds d hd
    · rw [parseIntAux, if_neg hc] at h
      by_cases hcs : c = stop
      · rw [if_pos hcs] at h
        cases h
        exact ⟨[], c :: l, by simp, by simp, by simp, by simp [dvFrom_nil],
          hle, hval, Or.inr ⟨l, by rw [hcs]⟩⟩
      · rw [if_neg hcs] at h; cases h

/-! ## `parseInt` characterisation -/

/-- The sign-and-digits spelling of an integer literal. -/
def signBytes (neg : Bool) (ds : List Nat) : List Nat :=
  if neg then 45 :: ds else ds

/-- Length of a sign prefix. -/
def signLen (neg : Bool) : Nat := if neg then 1 else 0

/-- The value denoted by a sign and digit string. -/
def signedVal (neg : Bool) (ds : List Nat) : Int :=
  if neg then -digitsVal ds else digitsVal ds

theorem signBytes_length (neg : Bool) (ds : List Nat) :
    (signBytes neg ds).length = signLen neg + ds.length := by
  cases neg <;> simp [signBytes, signLen] <;> omega

theorem parseInt_ok (pre : List Nat) (neg : Bool) (ds : List Nat)
    (stop : Nat) (rest : List Nat) (hds : ∀ c ∈ ds, isDigitB c = true)
    (hstop : isDigitB stop = false) (hstop45 : stop ≠ 45)
    (hle : digitsVal ds ≤ i64Max) :
    parseInt (pre ++ signBytes neg ds ++ stop :: rest) stop pre.length =
      .ok (signedVal neg ds, pre.length + signLen neg + ds.length) := by
  set buf := pre ++ signBytes neg ds ++ stop :: rest with hbuf
  have hlen : buf.length =
      pre.length + (signLen neg + ds.length) + (1 + rest.length) := by
    simp [hbuf, signBytes_length]; omega
  have hpos : pre.length < buf.length := by omega
  cases neg with
  | false =>
    have hdrop : buf.drop pre.length = ds ++ stop :: rest := by
      simp [hbuf, signBytes, List.drop_left]
    have hhead : buf[pre.length]? = (ds ++ stop :: rest)[0]? := by
      rw [hbuf, List.append_assoc, List.getElem?_append_right le_rfl]
      simp [signBytes]
    have hne45 : ¬(buf[pre.length]? = some 45) := by
      rw [hhead]
      cases ds with
      | nil => simp; omega
      | cons c tl =>
        have hc : isDigitB c = true := hds c (by simp)
        have hc' : 48 ≤ c ∧ c ≤ 57 := by
          simpa [isDigitB, Bool.and_eq_true, decide_eq_true_eq] using hc
        simp; omega
    rw [parseInt, if_neg (by omega), if_neg hne45, hdrop,
      parseIntAux_ok stop pre.length hstop ds rest pre.length 0 hds le_rfl
        (by rw [← digitsVal_eq_dvFrom]; exact hle)]
    simp [signedVal, signLen, digitsVal_eq_dvFrom]
  | true =>
    have hhead : buf[pre.length]? = some 45 := by
      rw [hbuf, List.append_assoc, List.getElem?_append_right le_rfl]
      simp [signBytes]
    have hdrop : buf.drop (pre.length + 1) = ds ++ stop :: rest := by
      have : buf = (pre ++ [45]) ++ (ds ++ stop :: rest) := by
        simp [hbuf, signBytes]
      rw [this]
      have hl : (pre ++ [45]).length = pre.length + 1 := by simp
      rw [← hl, List.drop_left]
    have hlen2 : buf.length = pre.length + 1 + ds.length + 1 + rest.length := by
      rw [hlen]; simp [signLen]; omega
    rw [parseInt, if_neg (by omega), if_pos hhead, if_neg (by omega), hdrop,
      parseIntAux_ok stop pre.length hstop ds rest (pre.length + 1) 0 hds le_rfl
        (by rw [← digitsVal_eq_dvFrom]; exact hle)]
    simp [signedVal, signLen, digitsVal_eq_dvFrom]

theorem parseInt_overflow (pre : List Nat) (neg : Bool) (ds : List Nat)
    (stop : Nat) (tail : List Nat) (hds : ∀ c ∈ ds, isDigitB c = true)
    (hgt : digitsVal ds > i64Max) :
    parseInt (pre ++ signBytes neg ds ++ tail) stop pre.length =
      .error (.Overflow pre.length) := by
  set buf := pre ++ signBytes neg ds ++ tail with hbuf
  have hdsne : ds ≠ [] := by
    intro h
    rw [h] at hgt
    simp [digitsVal, i64Max] at hgt
  have hlen : buf.length =
      pre.length + (signLen neg + ds.length) + tail.length := by
    simp [hbuf, signBytes_length]; omega
  have hdslen : 1 ≤ ds.length := by
    cases ds with
    | nil => exact absurd rfl hdsne
    | cons a b => simp
  have hov := parseIntAux_overflow stop pre.length ds tail
  cases neg with
  | false =>
    have hpos : pre.length < buf.length := by simp [signLen] at hlen; omega
    have hdrop : buf.drop pre.length = ds ++ tail := by
      simp [hbuf, signBytes, List.drop_left]
    have hhead : buf[pre.length]? = (ds ++ tail)[0]? := by
      rw [hbuf, List.append_assoc, List.getElem?_append_right le_rfl]
      simp [signBytes]
    have hne45 : ¬(buf[pre.length]? = some 45) := by
      rw [hhead]
      cases ds with
      | nil => exact absurd rfl hdsne
      | cons c tl =>
        have hc : isDigitB c = true := hds c (by simp)
        have hc' : 48 ≤ c ∧ c ≤ 57 := by
          simpa [isDigitB, Bool.and_eq_true, decide_eq_true_eq] using hc
        simp; omega
    rw [parseInt, if_neg (by omega), if_neg hne45, hdrop,
      hov pre.length 0 hds le_rfl (by simp [i64Max])
        (by rw [← digitsVal_eq_dvFrom]; exact hgt)]
  | true =>
    have hpos : pre.length < buf.length := by simp [signLen] at hlen; omega
    have hhead : buf[pre.length]? = some 45 := by
      rw [hbuf, List.append_assoc, List.getElem?_append_right le_rfl]
      simp [signBytes]
    have hdrop : buf.drop (pre.length + 1) = ds ++ tail := by
      have : buf = (pre ++ [45]) ++ (ds ++ tail) := by simp [hbuf, signBytes]
      rw [this]
      have hl : (pre ++ [45]).length = pre.length + 1 := by simp
      rw [← hl, List.drop_left]
    rw [parseInt, if_neg (by omega), if_pos hhead,
      if_neg (by simp [signLen] at hlen; omega), hdrop,
      hov (pre.length + 1) 0 hds le_rfl (by simp [i64Max])
        (by rw [← digitsVal_eq_dvFrom]; exact hgt)]

theorem parseInt_sound (buf : List Nat) (stop pos : Nat)
    (hstop : isDigitB stop = false) (hstop45 : stop ≠ 45) {v : Int} {p : Nat}
    (h : parseInt buf stop pos = .ok (v, p)) :
    ∃ neg ds, (∀ c ∈ ds, isDigitB c = true) ∧ digitsVal ds ≤ i64Max ∧
      buf.drop pos = signBytes neg ds ++ buf.drop p ∧
      p = pos + signLen neg + ds.length ∧ v = signedVal neg ds ∧
      (p = buf.length ∨ buf[p]? = some stop) ∧ pos < buf.length ∧
      p ≤ buf.length := by
  rw [parseInt] at h
  by_cases hpos : buf.length ≤ pos
  · rw [if_pos hpos] at h; cases h
  · rw [if_neg hpos] at h
    by_cases hneg : buf[pos]? = some 45
    · rw [if_pos hneg] at h
      by_cases hend : pos + 1 = buf.length
      · rw [if_pos hend] at h; cases h
      · rw [if_neg hend] at h
        cases haux : parseIntAux stop pos (buf.drop (pos + 1)) (pos + 1) 0 with
        | error e => rw [haux] at h; cases h
        | ok vp =>
          obtain ⟨v', p'⟩ := vp
          rw [haux] at h
          cases h
          obtain ⟨ds, rest, hsplit, hds, hp, hv, hvle, hvnn, hrest⟩ :=
            parseIntAux_sound stop pos hstop (buf.drop (pos + 1)) (pos + 1) 0
              le_rfl (by simp [i64Max]) haux
          have hdlen : (buf.drop (pos + 1)).length = buf.length - (pos + 1) := by
            simp
          refine ⟨true, ds, hds, by rw [digitsVal_eq_dvFrom]; omega, ?_, ?_,
            ?_, ?_, by omega, ?_⟩
          · have h1 : buf.drop pos = 45 :: buf.drop (pos + 1) := by
              rcases List.getElem?_eq_some_iff.mp hneg with ⟨hlt, hget⟩
              calc buf.drop pos = buf[pos] :: buf.drop (pos + 1) :=
                  List.drop_eq_getElem_cons hlt
                _ = 45 :: buf.drop (pos + 1) := by rw [hget]
            rw [h1, hsplit]
            have h2 : buf.drop p = rest := by
              have : rest = (buf.drop (pos + 1)).drop ds.length := by
                rw [hsplit, List.drop_left]
              rw [this, List.drop_drop, hp]
            rw [h2]
            simp [signBytes]
          · rw [hp]; simp [signLen]
          · simp [signedVal, digitsVal_eq_dvFrom, hv]
          · rcases hrest with hrest | ⟨rest', hrest⟩
            · left
              have : (buf.drop (pos + 1)).length = ds.length := by
                rw [hsplit, hrest]; simp
              omega
            · right
              have h2 : buf.drop p = rest := by
                have : rest = (buf.drop (pos + 1)).drop ds.length := by
                  rw [hsplit, List.drop_left]
                rw [this, List.drop_drop, hp]
              have : buf[p]? = (buf.drop p)[0]? := by
                simp [List.getElem?_drop]
              rw [this, h2, hrest]
              simp
          · have : ds.length ≤ (buf.drop (pos + 1)).length := by
              rw [hsplit]; simp
            omega
    · rw [if_neg hneg] at h
      cases haux : parseIntAux stop pos (buf.drop pos) pos 0 with
      | error e => rw [haux] at h; cases h
      | ok vp =>
        obtain ⟨v', p'⟩ := vp
        rw [haux] at h
        cases h
        obtain ⟨ds, rest, hsplit, hds, hp, hv, hvle, hvnn, hrest⟩ :=
          parseIntAux_sound stop pos hstop (buf.drop pos) pos 0
            le_rfl (by simp [i64Max]) haux
        have hdlen : (buf.drop pos).length = buf.length - pos := by simp
        refine ⟨false, ds, hds, by rw [digitsVal_eq_dvFrom]; omega, ?_, ?_,
          ?_, ?_, by omega, ?_⟩
        · rw [hsplit]
          have h2 : buf.drop p = rest := by
            have : rest = (buf.drop pos).drop ds.length := by
              rw [hsplit, List.drop_left]
            rw [this, List.drop_drop, hp]
          rw [h2]
          simp [signBytes]
        · rw [hp]; simp [signLen]
        · simp [signedVal, digitsVal_eq_dvFrom, hv]
        · rcases hrest with hrest | ⟨rest', hrest⟩
          · left
            have : (buf.drop pos).length = ds.length := by
              rw [hsplit, hrest]; simp
            omega
          · right
            have h2 : buf.drop p = rest := by
              have : rest = (buf.drop pos).drop ds.length := by
                rw [hsplit, List.drop_left]
              rw [this, List.drop_drop, hp]
            have : buf[p]? = (buf.drop p)[0]? := by
              simp [List.getElem?_drop]
            rw [this, h2, hrest]
            simp
        · have : ds.length ≤ (buf.drop pos).length := by
            rw [hsplit]; simp
          omega

/-! ## `parseString`, `updateSuper`, `allocToken`, `findOpen` -/

theorem allocToken_sound {limit : Option Nat} {tokens : List Token} {t : Token}
    {r : List Token} (h : allocToken limit tokens t = .ok r) :
    r = tokens ++ [t] := by
  cases limit with
  | none => simpa [allocToken] using h.symm
  | some l =>
    rw [allocToken] at h
    by_cases hl : l ≤ tokens.length
    · rw [if_pos hl] at h; cases h
    · rw [if_neg hl] at h; cases h; rfl

theorem allocToken_none (tokens : List Token) (t : Token) :
    allocToken none tokens t = .ok (tokens ++ [t]) := rfl

theorem parseString_ok (limit : Option Nat) (pre lds content rest : List Nat)
    (tokens : List Token) (hld : ∀ c ∈ lds, isDigitB c = true)
    (hne : lds ≠ []) (hv : digitsVal lds = (content.length : Int))
    (hle : (content.length : Int) ≤ i64Max)
    (halloc : allocToken limit tokens
      ⟨.ByteStr, ((pre.length + lds.length + 1 : Nat) : Int),
        ((pre.length + lds.length + 1 + content.length : Nat) : Int), 0, 1⟩ =
      .ok (tokens ++ [⟨.ByteStr, ((pre.length + lds.length + 1 : Nat) : Int),
        ((pre.length + lds.length + 1 + content.length : Nat) : Int), 0, 1⟩])) :
    parseString limit (pre ++ lds ++ 58 :: content ++ rest) pre.length tokens =
      .ok (pre.length + lds.length + 1 + content.length,
        tokens ++ [⟨.ByteStr, ((pre.length + lds.length + 1 : Nat) : Int),
          ((pre.length + lds.length + 1 + content.length : Nat) : Int), 0, 1⟩]) := by
  have h58 : isDigitB 58 = false := by decide
  have hbuf : pre ++ lds ++ 58 :: content ++ rest =
      pre ++ signBytes false lds ++ 58 :: (content ++ rest) := by
    simp [signBytes]
  have hsv : signedVal false lds = (content.length : Int) := by
    simp [signedVal, hv]
  have hsl : signLen false = 0 := rfl
  rw [parseString, hbuf,
    parseInt_ok pre false lds 58 (content ++ rest) hld h58 (by decide)
      (by rw [hv]; exact hle)]
  dsimp only
  rw [hsv, hsl]
  rw [if_neg (by simp)]
  have hlen : (pre ++ signBytes false lds ++ 58 :: (content ++ rest)).length =
      pre.length + lds.length + 1 + content.length + rest.length := by
    simp [signBytes]; omega
  rw [if_neg (by rw [hlen]; omega)]
  have harith : pre.length + 0 + lds.length + 1 = pre.length + lds.length + 1 := by
    omega
  rw [Int.toNat_natCast, harith, halloc]
theorem parseString_sound (limit : Option Nat) (buf : List Nat) (pos : Nat)
    (tokens : List Token) {pos1 : Nat} {tokens1 : List Token} {c : Nat}
    (hc : buf[pos]? = some c) (hcd : isDigitB c = true)
    (h : parseString limit buf pos tokens = .ok (pos1, tokens1)) :
    ∃ lds content, (∀ d ∈ lds, isDigitB d = true) ∧ lds ≠ [] ∧
      digitsVal lds = (content.length : Int) ∧
      (content.length : Int) ≤ i64Max ∧
      buf.drop pos = lds ++ 58 :: content ++ buf.drop pos1 ∧
      pos1 = pos + lds.length + 1 + content.length ∧ pos1 ≤ buf.length ∧
      tokens1 = tokens ++ [⟨.ByteStr, ((pos + lds.length + 1 : Nat) : Int),
        ((pos1 : Nat) : Int), 0, 1⟩] := by
  rw [parseString] at h
  cases hpi : parseInt buf 58 pos with
  | error e => rw [hpi] at h; cases h
  | ok vp =>
    obtain ⟨len, p1⟩ := vp
    rw [hpi] at h
    dsimp only at h
    obtain ⟨neg, ds, hds, hdle, hdrop, hp1, hval, hstop, hposlt, hp1le⟩ :=
      parseInt_sound buf 58 pos (by decide) (by decide) hpi
    cases neg with
    | true =>
      exfalso
      have : buf.drop pos = 45 :: (ds ++ buf.drop p1) := by
        simpa [signBytes] using hdrop
      have h0 : (buf.drop pos)[0]? = some 45 := by rw [this]; simp
      rw [List.getElem?_drop, Nat.add_zero, hc] at h0
      cases h0
      simp [isDigitB] at hcd
    | false =>
      have hsl0 : signLen false = 0 := rfl
      rw [hsl0] at hp1
      have hdsplit : buf.drop pos = ds ++ buf.drop p1 := by
        simpa [signBytes] using hdrop
      simp only [signedVal, if_neg (Bool.false_ne_true)] at hval
      subst hval
      have hdnn : (0 : Int) ≤ digitsVal ds := digitsVal_nonneg ds hds
      have hdsne : ds ≠ [] := by
        intro hnil
        subst hnil
        have hp1' : p1 = pos := by simpa using hp1
        rcases hstop with hstop | hstop
        · omega
        · rw [hp1', hc] at hstop
          cases hstop
          exact absurd hcd (by decide)
      have h58 : buf[p1]? = some 58 := by
        rcases hstop with hstop | hstop
        · exfalso
          rw [if_neg (by omega)] at h
          rw [if_pos (by omega)] at h
          cases h
        · exact hstop
      rw [if_neg (by omega)] at h
      by_cases hbound : buf.length < p1 + 1 + (digitsVal ds).toNat
      · rw [if_pos hbound] at h; cases h
      · rw [if_neg hbound] at h
        cases halloc : allocToken limit tokens
            ⟨.ByteStr, ((p1 + 1 : Nat) : Int),
              ((p1 + 1 + (digitsVal ds).toNat : Nat) : Int), 0, 1⟩ with
        | error e => rw [halloc] at h; cases h
        | ok r =>
          rw [halloc] at h
          cases h
          have hr := allocToken_sound halloc
          set n := (digitsVal ds).toNat with hn
          have hlen : ((buf.drop (p1 + 1)).take n).length = n := by
            rw [List.length_take]; simp; omega
          refine ⟨ds, (buf.drop (p1 + 1)).take n, hds, hdsne, ?_, ?_, ?_, ?_,
            ?_, ?_⟩
          · rw [hlen, hn]; omega
          · rw [hlen, hn]; omega
          · have h2 : buf.drop (p1 + 1) =
                (buf.drop (p1 + 1)).take n ++ buf.drop (p1 + 1 + n) := by
              conv_lhs => rw [← List.take_append_drop n (buf.drop (p1 + 1))]
              rw [List.drop_drop]
            calc buf.drop pos = ds ++ buf.drop p1 := hdsplit
              _ = ds ++ 58 :: buf.drop (p1 + 1) := by
                  rcases List.getElem?_eq_some_iff.mp h58 with ⟨hlt, hget⟩
                  rw [List.drop_eq_getElem_cons hlt, hget]
              _ = ds ++ 58 :: ((buf.drop (p1 + 1)).take n ++
                    buf.drop (p1 + 1 + n)) := by rw [← h2]
              _ = ds ++ 58 :: (buf.drop (p1 + 1)).take n ++
                    buf.drop (p1 + 1 + n) := by simp
          · rw [hlen]; omega
          · omega
          · rw [hr]
            have hpp : p1 + 1 = pos + ds.length + 1 := by omega
            rw [hpp]

theorem updateSuper_neg (tokens : List Token) (tokSuper : Int)
    (k : TokenKind) (pos : Nat) (h : tokSuper < 0) :
    updateSuper tokens tokSuper k pos = .ok tokens := by
  rw [updateSuper, if_pos h]

theorem updateSuper_at (A : List Token) (t : Token) (B : List Token)
    (k : TokenKind) (pos : Nat) :
    updateSuper (A ++ t :: B) (A.length : Int) k pos =
      (if t.kind = TokenKind.Dict ∧ k ≠ TokenKind.ByteStr ∧
          (t.children + 1) % 2 ≠ 0 then
        .error (.Invalid "Dictionary key must be a string" pos)
      else .ok (A ++ { t with children := t.children + 1 } :: B)) := by
  rw [updateSuper, if_neg (by omega)]
  have hget : (A ++ t :: B)[(A.length : Int).toNat]? = some t := by
    rw [Int.toNat_natCast, List.getElem?_append_right le_rfl]
    simp
  rw [hget]
  dsimp only
  by_cases hcond : t.kind = TokenKind.Dict ∧ k ≠ TokenKind.ByteStr ∧
      (t.children + 1) % 2 ≠ 0
  · rw [if_pos hcond, if_pos hcond]
  · rw [if_neg hcond, if_neg hcond]
    have hset : (A ++ t :: B).set (A.length : Int).toNat
        { t with children := t.children + 1 } =
        A ++ { t with children := t.children + 1 } :: B := by
      rw [Int.toNat_natCast, List.set_append, if_neg (by omega)]
      simp
    rw [hset]

/-! ## `findOpen` lemmas -/

theorem findOpen_skip_closed (tokens : List Token) :
    ∀ n m, m ≤ n →
    (∀ j, m ≤ j → j < n → ∀ t, tokens[j]? = some t →
      ¬(0 ≤ t.start ∧ t.«end» < 0)) →
    findOpen tokens n = findOpen tokens m
  | 0, m, hm, _ => by
    have : m = 0 := by omega
    rw [this]
  | n + 1, m, hm, hcl => by
    by_cases hmn : m = n + 1
    · rw [hmn]
    · have hm' : m ≤ n := by omega
      rw [findOpen]
      cases hj : tokens[n]? with
      | none =>
        exact findOpen_skip_closed tokens n m hm' fun j h1 h2 t ht =>
          hcl j h1 (by omega) t ht
      | some t =>
        dsimp only
        rw [if_neg (hcl n hm' (by omega) t hj)]
        exact findOpen_skip_closed tokens n m hm' fun j h1 h2 t' ht =>
          hcl j h1 (by omega) t' ht

theorem findOpen_at_open (tokens : List Token) (n : Nat) (t : Token)
    (h : tokens[n]? = some t) (hopen : 0 ≤ t.start ∧ t.«end» < 0) :
    findOpen tokens (n + 1) = some (n, t) := by
  rw [findOpen, h]
  dsimp only
  rw [if_pos hopen]

theorem findOpen_prefix (A B : List Token) :
    ∀ n, n ≤ A.length → findOpen (A ++ B) n = findOpen A n
  | 0, _ => rfl
  | n + 1, h => by
    rw [findOpen, findOpen, List.getElem?_append_left (by omega)]
    cases hj : A[n]? with
    | none => exact findOpen_prefix A B n (by omega)
    | some t =>
      dsimp only
      by_cases hopen : 0 ≤ t.start ∧ t.«end» < 0
      · rw [if_pos hopen, if_pos hopen]
      · rw [if_neg hopen, if_neg hopen]
        exact findOpen_prefix A B n (by omega)

/-! ## Stack lemmas -/

/-- The completed value a closing frame turns into. -/
def gClose (f : Frame) : GValue :=
  if f.isDict then .gdict f.blocks else .glist f.blocks

theorem stackToks_appendBlock (f : Frame) (fs : List Frame) (g : GValue) :
    stackToks (appendBlock (f :: fs) g) =
      stackToksN fs ++ frameOpenTok f 1 ::
        (itemsTokens f.blocks (f.openPos + 1) ++
          gtokens g (f.openPos + 1 + (itemsBytes f.blocks).length)) := by
  simp [appendBlock, stackToks, frameToks, frameOpenTok, itemsLen_gsnoc,
    itemsTokens_gsnoc]

theorem stackBytes_appendBlock (f : Frame) (fs : List Frame) (g : GValue) :
    stackBytes (appendBlock (f :: fs) g) =
      stackBytes (f :: fs) ++ gencode g := by
  simp [appendBlock, stackBytes, frameBytes, itemsBytes_gsnoc]

theorem superIdx_appendBlock (f : Frame) (fs : List Frame) (g : GValue) :
    superIdx (appendBlock (f :: fs) g) = superIdx (f :: fs) := rfl

theorem length_appendBlock (f : Frame) (fs : List Frame) (g : GValue) :
    (appendBlock (f :: fs) g).length = (f :: fs).length := rfl

theorem stackOffsOK_appendBlock (f : Frame) (fs : List Frame) (g : GValue)
    (h : stackOffsOK (f :: fs)) : stackOffsOK (appendBlock (f :: fs) g) := by
  exact h

theorem stackWf_appendBlock (f : Frame) (fs : List Frame) (g : GValue)
    (h : stackWf (f :: fs)) (hg : Wfb g)
    (hkey : f.isDict = true → itemsLen f.blocks % 2 = 0 → isGBytes g = true) :
    stackWf (appendBlock (f :: fs) g) := by
  obtain ⟨h1, h2, h3⟩ := h
  refine ⟨WfbItems_gsnoc _ _ h1 hg, fun hd => ?_, h3⟩
  refine altOk_gsnoc _ true g (h2 hd) fun hflag => ?_
  by_cases he : itemsLen f.blocks % 2 = 0
  · exact hkey hd he
  · rw [if_neg he] at hflag
    cases hflag

/-- Tokens contributed by completed child blocks inside a frame are closed. -/
theorem findOpen_stackToksN (fs : List Frame) :
    findOpen (stackToksN fs) (stackToksN fs).length =
      match fs with
      | [] => none
      | f :: fs' => some ((stackToksN fs').length, frameOpenTok f 1) := by
  cases fs with
  | nil => rfl
  | cons f fs' =>
    have hsh : stackToksN (f :: fs') =
        stackToksN fs' ++ frameOpenTok f 1 ::
          itemsTokens f.blocks (f.openPos + 1) := rfl
    have hlen : (stackToksN (f :: fs')).length =
        (stackToksN fs').length + 1 + itemsCount f.blocks := by
      rw [hsh]; simp [itemsTokens_length]; omega
    have hskip : findOpen (stackToksN (f :: fs')) (stackToksN (f :: fs')).length =
        findOpen (stackToksN (f :: fs')) ((stackToksN fs').length + 1) := by
      apply findOpen_skip_closed
      · omega
      · intro j h1 h2 t ht
        have hj : (stackToksN (f :: fs'))[j]? =
            (itemsTokens f.blocks (f.openPos + 1))[j - ((stackToksN fs').length + 1)]? := by
          rw [hsh]
          rw [List.getElem?_append_right (by omega)]
          have : j - (stackToksN fs').length =
              (j - ((stackToksN fs').length + 1)) + 1 := by omega
          rw [this]
          simp
        rw [hj] at ht
        have hmem : t ∈ itemsTokens f.blocks (f.openPos + 1) :=
          List.getElem?_mem ht
        exact itemsTokens_closed _ _ t hmem
    rw [hskip]
    apply findOpen_at_open
    · rw [hsh, List.getElem?_append_right le_rfl]
      simp
    · constructor
      · simp [frameOpenTok]
      · simp [frameOpenTok]

/-- Locating the innermost open container inside a full stack. -/
theorem findOpen_stackToks (f : Frame) (fs : List Frame) :
    findOpen (stackToks (f :: fs)) (stackToks (f :: fs)).length =
      some ((stackToksN fs).length, frameOpenTok f 0) := by
  have hsh : stackToks (f :: fs) =
      stackToksN fs ++ frameOpenTok f 0 ::
        itemsTokens f.blocks (f.openPos + 1) := rfl
  have hlen : (stackToks (f :: fs)).length =
      (stackToksN fs).length + 1 + itemsCount f.blocks := by
    rw [hsh]; simp [itemsTokens_length]; omega
  have hskip : findOpen (stackToks (f :: fs)) (stackToks (f :: fs)).length =
      findOpen (stackToks (f :: fs)) ((stackToksN fs).length + 1) := by
    apply findOpen_skip_closed
    · omega
    · intro j h1 h2 t ht
      have hj : (stackToks (f :: fs))[j]? =
          (itemsTokens f.blocks (f.openPos + 1))[j - ((stackToksN fs).length + 1)]? := by
        rw [hsh]
        rw [List.getElem?_append_right (by omega)]
        have : j - (stackToksN fs).length =
            (j - ((stackToksN fs).length + 1)) + 1 := by omega
        rw [this]
        simp
      rw [hj] at ht
      have hmem : t ∈ itemsTokens f.blocks (f.openPos + 1) :=
        List.getElem?_mem ht
      exact itemsTokens_closed _ _ t hmem
  rw [hskip]
  apply findOpen_at_open
  · rw [hsh, List.getElem?_append_right le_rfl]
    simp
  · constructor
    · simp [frameOpenTok]
    · simp [frameOpenTok]

/-! ## Branch characterisations -/

theorem doInt_sound (limit : Option Nat) (buf : List Nat) (pos : Nat)
    (sup : Int) (toks : List Token) {pos1 : Nat} {toks1 : List Token}
    (h : doInt limit buf pos sup toks = .ok (pos1, toks1)) :
    ∃ toksMid neg ds p2,
      updateSuper toks sup .Int pos = .ok toksMid ∧
      (∀ c ∈ ds, isDigitB c = true) ∧ digitsVal ds ≤ i64Max ∧
      p2 = pos + 1 + signLen neg + ds.length ∧ pos1 = p2 + 1 ∧
      toks1 = toksMid ++ [⟨.Int, ((pos + 1 : Nat) : Int), ((p2 : Nat) : Int), 0, 1⟩] ∧
      buf.drop (pos + 1) = signBytes neg ds ++ buf.drop p2 ∧
      pos + 1 ≤ buf.length ∧ p2 ≤ buf.length ∧
      (p2 = buf.length ∨ buf[p2]? = some 101) := by
  rw [doInt] at h
  cases hus : updateSuper toks sup .Int pos with
  | error e => rw [hus] at h; cases h
  | ok toksMid =>
    rw [hus] at h
    dsimp only at h
    cases hpi : parseInt buf 101 (pos + 1) with
    | error e => rw [hpi] at h; cases h
    | ok vp =>
      obtain ⟨v, p2⟩ := vp
      rw [hpi] at h
      dsimp only at h
      cases halloc : allocToken limit toksMid
          ⟨.Int, ((pos + 1 : Nat) : Int), ((p2 : Nat) : Int), 0, 1⟩ with
      | error e => rw [halloc] at h; cases h
      | ok r =>
        rw [halloc] at h
        cases h
        obtain ⟨neg, ds, hds, hdle, hdrop, hp2, _, hstop, hlt, hle⟩ :=
          parseInt_sound buf 101 (pos + 1) (by decide) (by decide) hpi
        exact ⟨toksMid, neg, ds, p2, rfl, hds, hdle, by omega, rfl,
          allocToken_sound halloc, hdrop, by omega, hle, hstop⟩

theorem doStr_sound (limit : Option Nat) (buf : List Nat) (pos : Nat)
    (sup : Int) (toks : List Token) {pos1 : Nat} {toks1 : List Token}
    {c : Nat} (hc : buf[pos]? = some c) (hcd : isDigitB c = true)
    (h : doStr limit buf pos sup toks = .ok (pos1, toks1)) :
    ∃ lds content,
      (∀ d ∈ lds, isDigitB d = true) ∧ lds ≠ [] ∧
      digitsVal lds = (content.length : Int) ∧
      (content.length : Int) ≤ i64Max ∧
      buf.drop pos = lds ++ 58 :: content ++ buf.drop pos1 ∧
      pos1 = pos + lds.length + 1 + content.length ∧ pos1 ≤ buf.length ∧
      updateSuper (toks ++ [⟨.ByteStr, ((pos + lds.length + 1 : Nat) : Int),
        ((pos1 : Nat) : Int), 0, 1⟩]) sup .ByteStr pos1 = .ok toks1 := by
  rw [doStr] at h
  cases hps : parseString limit buf pos toks with
  | error e => rw [hps] at h; cases h
  | ok vp =>
    obtain ⟨p1, toksMid⟩ := vp
    rw [hps] at h
    dsimp only at h
    cases hus : updateSuper toksMid sup .ByteStr p1 with
    | error e => rw [hus] at h; cases h
    | ok r =>
      rw [hus] at h
      cases h
      obtain ⟨lds, content, hld, hne, hv, hle, hsplit, hp1, hp1len, htoks⟩ :=
        parseString_sound limit buf pos toks hc hcd hps
      subst htoks
      exact ⟨lds, content, hld, hne, hv, hle, hsplit, hp1, hp1len, hus⟩

theorem doOpen_sound (isDict : Bool) (limit : Option Nat) (pos : Nat)
    (sup : Int) (toks : List Token) {pos1 : Nat} {sup1 : Int}
    {toks1 : List Token}
    (h : doOpen isDict limit pos sup toks = .ok (pos1, sup1, toks1)) :
    updateSuper (toks ++ [⟨if isDict then .Dict else .List, (pos : Int), -1, 0, 1⟩])
        sup (if isDict then .Dict else .List) (pos + 1) = .ok toks1 ∧
      pos1 = pos + 1 ∧ sup1 = (toks1.length : Int) - 1 := by
  rw [doOpen] at h
  cases halloc : allocToken limit toks
      ⟨if isDict then .Dict else .List, (pos : Int), -1, 0, 1⟩ with
  | error e => rw [halloc] at h; cases h
  | ok toksMid =>
    rw [halloc] at h
    dsimp only at h
    cases hus : updateSuper toksMid sup (if isDict then .Dict else .List)
        (pos + 1) with
    | error e => rw [hus] at h; cases h
    | ok r =>
      rw [hus] at h
      cases h
      rw [allocToken_sound halloc] at hus
      exact ⟨hus, rfl, rfl⟩

theorem drop_cons_getElem {buf : List Nat} {pos c : Nat}
    (h : buf[pos]? = some c) : buf.drop pos = c :: buf.drop (pos + 1) := by
  rcases List.getElem?_eq_some_iff.mp h with ⟨hlt, hget⟩
  rw [List.drop_eq_getElem_cons hlt, hget]

theorem take_of_append {α : Type} {buf P R : List α} {n : Nat}
    (h : buf = P ++ R) (hn : P.length = n) : buf.take n = P := by
  subst h
  rw [← hn, List.take_left]

theorem stackToks_len (f : Frame) (fs : List Frame) :
    (stackToks (f :: fs)).length =
      (stackToksN fs).length + 1 + itemsCount f.blocks := by
  show (stackToksN fs ++ frameOpenTok f 0 ::
    itemsTokens f.blocks (f.openPos + 1)).length = _
  simp [itemsTokens_length]
  omega

theorem stackBytes_cons_len (f : Frame) (fs : List Frame) :
    (stackBytes (f :: fs)).length =
      (stackBytes fs).length + 1 + (itemsBytes f.blocks).length := by
  show (stackBytes fs ++
    ((if f.isDict then 100 else 108) :: itemsBytes f.blocks)).length = _
  simp
  omega

theorem gencode_gClose_len (f : Frame) :
    (gencode (gClose f)).length = (itemsBytes f.blocks).length + 2 := by
  cases hd : f.isDict <;> simp [gClose, hd, gencode] <;> omega

/-! ## Invariant preservation, branch by branch -/

theorem stepInt_nil (limit : Option Nat) (buf : List Nat)
    {pos1 : Nat} {toks1 : List Token} (hc : buf[0]? = some 105)
    (h : doInt limit buf 0 (-1) [] = .ok (pos1, toks1)) :
    (∃ g, Wfb g ∧ toks1 = gtokens g 0 ∧ buf.take pos1 = gencode g ∧
      pos1 ≤ buf.length) ∨ pos1 = buf.length + 1 := by
  obtain ⟨toksMid, neg, ds, p2, hus, hds, hdle, hp2, hpos1, htoks1, hdrop,
    hlt, hp2le, hstop⟩ := doInt_sound limit buf 0 (-1) [] h
  rw [updateSuper_neg _ _ _ _ (by omega)] at hus
  cases hus
  rcases hstop with hend | hstop
  · right
    omega
  · left
    refine ⟨.gint neg ds, ⟨hds, hdle⟩, ?_, ?_, ?_⟩
    · rw [htoks1]
      simp only [gtokens, List.nil_append]
      have hsl : signLen neg = if neg then 1 else 0 := rfl
      have : p2 = 0 + 1 + (if neg then 1 else 0) + ds.length := by
        rw [← hsl]; omega
      rw [← this]
    · have hb : buf = 105 :: signBytes neg ds ++ 101 :: buf.drop (p2 + 1) := by
        calc buf = buf.drop 0 := rfl
          _ = 105 :: buf.drop 1 := drop_cons_getElem hc
          _ = 105 :: (signBytes neg ds ++ buf.drop p2) := by rw [← hdrop]
          _ = 105 :: (signBytes neg ds ++ (101 :: buf.drop (p2 + 1))) := by
              rw [← drop_cons_getElem hstop]
          _ = 105 :: signBytes neg ds ++ 101 :: buf.drop (p2 + 1) := by simp
      have hb2 : buf = (105 :: signBytes neg ds ++ [101]) ++ buf.drop (p2 + 1) := by
        conv_lhs => rw [hb]
        simp
      have hg : gencode (.gint neg ds) = 105 :: signBytes neg ds ++ [101] := by
        simp [gencode, signBytes]
      rw [hg]
      apply take_of_append hb2
      cases neg <;> simp [signBytes, signLen] at hp2 ⊢ <;> omega
    · have := (List.getElem?_eq_some_iff.mp hstop).1
      omega

theorem stepInt_cons (limit : Option Nat) (buf : List Nat) (pos : Nat)
    (depth sup : Int) (toks : List Token) (f : Frame) (fs : List Frame)
    {pos1 : Nat} {toks1 : List Token}
    (hinv : StInv buf pos depth sup toks (f :: fs))
    (hc : buf[pos]? = some 105)
    (h : doInt limit buf pos sup toks = .ok (pos1, toks1)) :
    (∃ g, StInv buf pos1 depth sup toks1 (appendBlock (f :: fs) g)) ∨
      pos1 = buf.length + 1 := by
  obtain ⟨hT, ⟨rest, hB⟩, hP, hD, hS, hOffs, hWf⟩ := hinv
  obtain ⟨toksMid, neg, ds, p2, hus, hds, hdle, hp2, hpos1, htoks1, hdrop,
    hlt, hp2le, hstop⟩ := doInt_sound limit buf pos sup toks h
  have hTsh : toks = stackToksN fs ++ frameOpenTok f 0 ::
      itemsTokens f.blocks (f.openPos + 1) := hT
  rw [hTsh, hS] at hus
  have hsup : superIdx (f :: fs) = ((stackToksN fs).length : Int) := rfl
  rw [hsup, updateSuper_at] at hus
  by_cases hcond : (frameOpenTok f 0).kind = TokenKind.Dict ∧
      TokenKind.Int ≠ TokenKind.ByteStr ∧
      ((frameOpenTok f 0).children + 1) % 2 ≠ 0
  · rw [if_pos hcond] at hus; cases hus
  · rw [if_neg hcond] at hus
    cases hus
    rcases hstop with hend | hstop
    · right
      omega
    · left
      refine ⟨.gint neg ds, ?_, ⟨buf.drop pos1, ?_⟩, ?_, ?_, ?_, ?_, ?_⟩
      · rw [htoks1, stackToks_appendBlock]
        have hoff : f.openPos + 1 + (itemsBytes f.blocks).length = pos := by
          have := stackBytes_cons_len f fs
          rw [hOffs.1]
          omega
        have hbump : { frameOpenTok f 0 with
            children := (frameOpenTok f 0).children + 1 } = frameOpenTok f 1 := by
          simp [frameOpenTok]
        rw [hbump, hoff]
        have hg : gtokens (.gint neg ds) pos =
            [⟨.Int, ((pos + 1 : Nat) : Int), ((p2 : Nat) : Int), 0, 1⟩] := by
          simp only [gtokens]
          have hsl : signLen neg = if neg then 1 else 0 := rfl
          have : pos + 1 + (if neg then 1 else 0) + ds.length = p2 := by
            rw [← hsl]; omega
          rw [this]
        rw [hg]
        simp
      · rw [stackBytes_appendBlock]
        have hb : buf.drop pos = gencode (.gint neg ds) ++ buf.drop pos1 := by
          have hg : gencode (.gint neg ds) = 105 :: signBytes neg ds ++ [101] := by
            simp [gencode, signBytes]
          rw [hg]
          calc buf.drop pos = 105 :: buf.drop (pos + 1) := drop_cons_getElem hc
            _ = 105 :: (signBytes neg ds ++ buf.drop p2) := by rw [← hdrop]
            _ = 105 :: (signBytes neg ds ++ (101 :: buf.drop (p2 + 1))) := by
                rw [← drop_cons_getElem hstop]
            _ = _ := by rw [hpos1]; simp
        calc buf = buf.take pos ++ buf.drop pos := (List.take_append_drop _ _).symm
          _ = stackBytes (f :: fs) ++ buf.drop pos := by
              rw [take_of_append hB hP.symm]
          _ = stackBytes (f :: fs) ++ (gencode (.gint neg ds) ++ buf.drop pos1) := by
              rw [← hb]
          _ = _ := by simp
      · rw [stackBytes_appendBlock]
        have hg : (gencode (GValue.gint neg ds)).length = 2 + signLen neg + ds.length := by
          cases neg <;> simp [gencode, signLen] <;> omega
        simp only [List.length_append, hg]
        omega
      · rw [hD, length_appendBlock]
      · rw [hS, superIdx_appendBlock]
      · exact stackOffsOK_appendBlock f fs _ hOffs
      · refine stackWf_appendBlock f fs _ hWf ⟨hds, hdle⟩ fun hd he => ?_
        exfalso
        apply hcond
        refine ⟨by simp [frameOpenTok, hd], by simp, ?_⟩
        simp [frameOpenTok]
        omega

theorem set_append_cons {α : Type} (A : List α) (x : α) (B : List α) (y : α) :
    (A ++ x :: B).set A.length y = A ++ y :: B := by
  rw [List.set_append, if_neg (by omega)]
  simp

theorem stackWfN_sound : ∀ fs : List Frame, stackWfN fs → stackWf fs
  | [], h => h
  | f :: fs, h => ⟨h.1, fun hd => (h.2.1 hd).1, h.2.2⟩

theorem Wfb_gClose (f : Frame) (fs : List Frame) (h : stackWf (f :: fs)) :
    Wfb (gClose f) := by
  obtain ⟨h1, h2, _⟩ := h
  cases hd : f.isDict with
  | false => simpa [gClose, hd, Wfb] using h1
  | true => exact (by simpa [gClose, hd, Wfb] using ⟨h1, h2 hd⟩)

theorem gencode_gClose (f : Frame) :
    gencode (gClose f) =
      (if f.isDict then 100 else 108) :: itemsBytes f.blocks ++ [101] := by
  cases hd : f.isDict <;> simp [gClose, hd, gencode]

theorem gtokens_gClose (f : Frame) (off : Nat) :
    gtokens (gClose f) off =
      ⟨if f.isDict then .Dict else .List, (off : Int),
        ((off + (itemsBytes f.blocks).length + 2 : Nat) : Int),
        itemsLen f.blocks, 1 + itemsCount f.blocks⟩ ::
        itemsTokens f.blocks (off + 1) := by
  cases hd : f.isDict with
  | false =>
    have h1 : gClose f = GValue.glist f.blocks := by simp [gClose, hd]
    rw [h1]
    simp only [gtokens]
    have : (gencode (GValue.glist f.blocks)).length =
        (itemsBytes f.blocks).length + 2 := by simp [gencode]
    rw [this]
    simp [hd, Nat.add_assoc]
  | true =>
    have h1 : gClose f = GValue.gdict f.blocks := by simp [gClose, hd]
    rw [h1]
    simp only [gtokens]
    have : (gencode (GValue.gdict f.blocks)).length =
        (itemsBytes f.blocks).length + 2 := by simp [gencode]
    rw [this]
    simp [hd, Nat.add_assoc]

theorem stepStr_nil (limit : Option Nat) (buf : List Nat) {c : Nat}
    {pos1 : Nat} {toks1 : List Token} (hc : buf[0]? = some c)
    (hcd : isDigitB c = true)
    (h : doStr limit buf 0 (-1) [] = .ok (pos1, toks1)) :
    ∃ g, Wfb g ∧ toks1 = gtokens g 0 ∧ buf.take pos1 = gencode g ∧
      pos1 ≤ buf.length := by
  obtain ⟨lds, content, hld, hne, hv, hle, hsplit, hp1, hp1len, hus⟩ :=
    doStr_sound limit buf 0 (-1) [] hc hcd h
  rw [updateSuper_neg _ _ _ _ (by omega)] at hus
  cases hus
  refine ⟨.gbytes lds content, ⟨hne, hld, hv, hle⟩, ?_, ?_, hp1len⟩
  · simp only [gtokens, List.nil_append]
    have h1 : 0 + lds.length + 1 = lds.length + 1 := by omega
    have h2 : pos1 = lds.length + 1 + content.length := by omega
    rw [h1, h2]
  · have hb : buf = (lds ++ 58 :: content) ++ buf.drop pos1 := by
      have h0 := hsplit
      rw [List.drop_zero] at h0
      exact h0.trans (by simp)
    have hg : gencode (.gbytes lds content) = lds ++ 58 :: content := by
      simp [gencode]
    rw [hg]
    apply take_of_append hb
    simp
    omega

theorem stepStr_cons (limit : Option Nat) (buf : List Nat) (pos : Nat)
    (depth sup : Int) (toks : List Token) (f : Frame) (fs : List Frame)
    {c : Nat} {pos1 : Nat} {toks1 : List Token}
    (hinv : StInv buf pos depth sup toks (f :: fs))
    (hc : buf[pos]? = some c) (hcd : isDigitB c = true)
    (h : doStr limit buf pos sup toks = .ok (pos1, toks1)) :
    ∃ g, StInv buf pos1 depth sup toks1 (appendBlock (f :: fs) g) := by
  obtain ⟨hT, ⟨rest, hB⟩, hP, hD, hS, hOffs, hWf⟩ := hinv
  obtain ⟨lds, content, hld, hne, hv, hle, hsplit, hp1, hp1len, hus⟩ :=
    doStr_sound limit buf pos sup toks hc hcd h
  have hTsh : toks = stackToksN fs ++ frameOpenTok f 0 ::
      itemsTokens f.blocks (f.openPos + 1) := hT
  have happ : toks ++ [⟨.ByteStr, ((pos + lds.length + 1 : Nat) : Int),
      ((pos1 : Nat) : Int), 0, 1⟩] = stackToksN fs ++ frameOpenTok f 0 ::
      (itemsTokens f.blocks (f.openPos + 1) ++
        [⟨.ByteStr, ((pos + lds.length + 1 : Nat) : Int),
          ((pos1 : Nat) : Int), 0, 1⟩]) := by
    rw [hTsh]; simp
  rw [happ, hS] at hus
  have hsup : superIdx (f :: fs) = ((stackToksN fs).length : Int) := rfl
  rw [hsup, updateSuper_at] at hus
  rw [if_neg (by intro hcon; exact hcon.2.1 rfl)] at hus
  cases hus
  have hoff : f.openPos + 1 + (itemsBytes f.blocks).length = pos := by
    have := stackBytes_cons_len f fs
    rw [hOffs.1]
    omega
  refine ⟨.gbytes lds content, ?_, ⟨buf.drop pos1, ?_⟩, ?_, ?_, ?_, ?_, ?_⟩
  · rw [stackToks_appendBlock]
    have hbump : { frameOpenTok f 0 with
        children := (frameOpenTok f 0).children + 1 } = frameOpenTok f 1 := by
      simp [frameOpenTok]
    rw [hbump, hoff]
    have hg : gtokens (.gbytes lds content) pos =
        [⟨.ByteStr, ((pos + lds.length + 1 : Nat) : Int),
          ((pos1 : Nat) : Int), 0, 1⟩] := by
      simp only [gtokens]
      have : pos + lds.length + 1 + content.length = pos1 := by omega
      rw [this]
    rw [hg]
  · rw [stackBytes_appendBlock]
    have hg : gencode (.gbytes lds content) = lds ++ 58 :: content := by
      simp [gencode]
    have hb : buf.drop pos = gencode (.gbytes lds content) ++ buf.drop pos1 := by
      rw [hg, hsplit]
    calc buf = buf.take pos ++ buf.drop pos := (List.take_append_drop _ _).symm
      _ = stackBytes (f :: fs) ++ buf.drop pos := by
          rw [take_of_append hB hP.symm]
      _ = stackBytes (f :: fs) ++
          (gencode (.gbytes lds content) ++ buf.drop pos1) := by rw [← hb]
      _ = _ := by simp
  · rw [stackBytes_appendBlock]
    have hg : (gencode (GValue.gbytes lds content)).length =
        lds.length + 1 + content.length := by
      simp [gencode]
      omega
    simp only [List.length_append, hg]
    omega
  · rw [hD, length_appendBlock]
  · rw [hS, superIdx_appendBlock]
  · exact stackOffsOK_appendBlock f fs _ hOffs
  · exact stackWf_appendBlock f fs _ hWf ⟨hne, hld, hv, hle⟩
      (fun _ _ => rfl)

theorem stepOpen_nil (isDict : Bool) (limit : Option Nat) (buf : List Nat)
    {pos1 : Nat} {sup1 : Int} {toks1 : List Token}
    (hc : buf[0]? = some (if isDict then 100 else 108))
    (h : doOpen isDict limit 0 (-1) [] = .ok (pos1, sup1, toks1)) :
    StInv buf pos1 1 sup1 toks1 [⟨isDict, 0, .nil⟩] := by
  obtain ⟨hus, hpos1, hsup1⟩ := doOpen_sound isDict limit 0 (-1) [] h
  rw [updateSuper_neg _ _ _ _ (by omega)] at hus
  cases hus
  subst hpos1 hsup1
  refine ⟨?_, ⟨buf.drop 1, ?_⟩, ?_, ?_, ?_, ?_, ?_⟩
  · show _ = stackToksN [] ++ frameToks ⟨isDict, 0, .nil⟩ 0
    simp [stackToksN, frameToks, frameOpenTok, itemsLen, itemsTokens]
  · show buf = stackBytes [] ++
      ((if isDict then 100 else 108) :: itemsBytes GItems.nil) ++ buf.drop 1
    have := drop_cons_getElem hc
    rw [List.drop_zero] at this
    simpa [stackBytes, itemsBytes] using this
  · show 0 + 1 = (stackBytes [⟨isDict, 0, .nil⟩]).length
    simp [stackBytes, frameBytes, itemsBytes]
  · rfl
  · simp [superIdx, stackToksN]
  · exact ⟨rfl, trivial⟩
  · exact ⟨trivial, fun _ => trivial, trivial⟩

theorem stepOpen_cons (isDict : Bool) (limit : Option Nat) (buf : List Nat)
    (pos : Nat) (depth sup : Int) (toks : List Token) (f : Frame)
    (fs : List Frame) {pos1 : Nat} {sup1 : Int} {toks1 : List Token}
    (hinv : StInv buf pos depth sup toks (f :: fs))
    (hc : buf[pos]? = some (if isDict then 100 else 108))
    (h : doOpen isDict limit pos sup toks = .ok (pos1, sup1, toks1)) :
    StInv buf pos1 (depth + 1) sup1 toks1 (⟨isDict, pos, .nil⟩ :: f :: fs) := by
  obtain ⟨hT, ⟨rest, hB⟩, hP, hD, hS, hOffs, hWf⟩ := hinv
  obtain ⟨hus, hpos1, hsup1⟩ := doOpen_sound isDict limit pos sup toks h
  have hTsh : toks = stackToksN fs ++ frameOpenTok f 0 ::
      itemsTokens f.blocks (f.openPos + 1) := hT
  have happ : toks ++ [⟨if isDict then .Dict else .List, (pos : Int), -1, 0, 1⟩] =
      stackToksN fs ++ frameOpenTok f 0 ::
      (itemsTokens f.blocks (f.openPos + 1) ++
        [⟨if isDict then .Dict else .List, (pos : Int), -1, 0, 1⟩]) := by
    rw [hTsh]; simp
  rw [happ, hS] at hus
  have hsup : superIdx (f :: fs) = ((stackToksN fs).length : Int) := rfl
  rw [hsup, updateSuper_at] at hus
  by_cases hcond : (frameOpenTok f 0).kind = TokenKind.Dict ∧
      (if isDict then TokenKind.Dict else TokenKind.List) ≠ TokenKind.ByteStr ∧
      ((frameOpenTok f 0).children + 1) % 2 ≠ 0
  · rw [if_pos hcond] at hus; cases hus
  · rw [if_neg hcond] at hus
    cases hus
    subst hpos1 hsup1
    have hbump : { frameOpenTok f 0 with
        children := (frameOpenTok f 0).children + 1 } = frameOpenTok f 1 := by
      simp [frameOpenTok]
    refine ⟨?_, ⟨buf.drop (pos + 1), ?_⟩, ?_, ?_, ?_, ?_, ?_⟩
    · show _ = stackToksN (f :: fs) ++ frameToks ⟨isDict, pos, .nil⟩ 0
      rw [hbump]
      show stackToksN fs ++ frameOpenTok f 1 ::
          (itemsTokens f.blocks (f.openPos + 1) ++
            [⟨if isDict then .Dict else .List, (pos : Int), -1, 0, 1⟩]) =
        (stackToksN fs ++ frameToks f 1) ++ frameToks ⟨isDict, pos, .nil⟩ 0
      simp [frameToks, frameOpenTok, itemsLen, itemsTokens]
    · show buf = stackBytes (f :: fs) ++
        ((if (⟨isDict, pos, .nil⟩ : Frame).isDict then 100 else 108) ::
          itemsBytes GItems.nil) ++ buf.drop (pos + 1)
      have hdc := drop_cons_getElem hc
      calc buf = buf.take pos ++ buf.drop pos := (List.take_append_drop _ _).symm
        _ = stackBytes (f :: fs) ++ buf.drop pos := by
            rw [take_of_append hB hP.symm]
        _ = stackBytes (f :: fs) ++
            ((if isDict then 100 else 108) :: buf.drop (pos + 1)) := by
            rw [← hdc]
        _ = _ := by simp [itemsBytes]
    · show pos + 1 = (stackBytes (⟨isDict, pos, .nil⟩ :: f :: fs)).length
      have := stackBytes_cons_len (⟨isDict, pos, .nil⟩ : Frame) (f :: fs)
      rw [this]
      simp [itemsBytes]
      omega
    · show depth + 1 = ((⟨isDict, pos, .nil⟩ :: f :: fs).length : Int)
      rw [hD]
      simp
    · show ((stackToksN fs ++ frameOpenTok f 1 ::
        (itemsTokens f.blocks (f.openPos + 1) ++
          [⟨if isDict then .Dict else .List, (pos : Int), -1, 0, 1⟩])).length : Int) - 1 =
        superIdx (⟨isDict, pos, .nil⟩ :: f :: fs)
      show _ = ((stackToksN (f :: fs)).length : Int)
      show _ = (((stackToksN fs) ++ frameToks f 1).length : Int)
      simp [frameToks, itemsTokens_length]
      omega
    · exact ⟨hP, hOffs⟩
    · refine ⟨trivial, fun _ => trivial, ?_, fun hd => ?_, hWf.2.2⟩
      · exact hWf.1
      · refine ⟨hWf.2.1 hd, ?_⟩
        by_contra hodd
        apply hcond
        refine ⟨by simp [frameOpenTok, hd], by cases isDict <;> simp, ?_⟩
        simp [frameOpenTok]
        omega

/-- `findOpen` only looks below its bound, so setting a slot at or above the
bound does not change it. -/
theorem findOpen_set_ge (tokens : List Token) (j : Nat) (x : Token) :
    ∀ n, n ≤ j → findOpen (tokens.set j x) n = findOpen tokens n
  | 0, _ => rfl
  | n + 1, h => by
    rw [findOpen, findOpen, List.getElem?_set_ne (by omega)]
    cases hj : tokens[n]? with
    | none => exact findOpen_set_ge tokens j x n (by omega)
    | some t =>
      dsimp only
      by_cases hopen : 0 ≤ t.start ∧ t.«end» < 0
      · rw [if_pos hopen, if_pos hopen]
      · rw [if_neg hopen, if_neg hopen]
        exact findOpen_set_ge tokens j x n (by omega)

/-- Shared computation for the `b'e'` branch: closing the top frame rewrites
the token list into the grammar run of the completed container. -/
theorem doClose_stack (buf : List Nat) (pos : Nat) (depth sup : Int)
    (toks : List Token) (f : Frame) (fs : List Frame)
    {pos1 : Nat} {sup1 : Int} {toks1 : List Token}
    (hinv : StInv buf pos depth sup toks (f :: fs))
    (h : doClose pos toks = .ok (pos1, sup1, toks1)) :
    pos1 = pos + 1 ∧
    toks1 = stackToksN fs ++ gtokens (gClose f) f.openPos ∧
    sup1 = superIdx fs ∧
    pos + 1 = f.openPos + (itemsBytes f.blocks).length + 2 := by
  obtain ⟨hT, ⟨rest, hB⟩, hP, hD, hS, hOffs, hWf⟩ := hinv
  have hfo : findOpen toks toks.length =
      some ((stackToksN fs).length, frameOpenTok f 0) := by
    rw [hT]; exact findOpen_stackToks f fs
  rw [doClose] at h
  dsimp only at h
  rw [hfo] at h
  dsimp only at h
  cases h
  have hlen : toks.length = (stackToksN fs).length + 1 + itemsCount f.blocks := by
    rw [hT]; exact stackToks_len f fs
  have hend : pos + 1 = f.openPos + (itemsBytes f.blocks).length + 2 := by
    have h1 := stackBytes_cons_len f fs
    rw [hOffs.1]
    omega
  refine ⟨rfl, ?_, ?_, hend⟩
  · conv_lhs => rw [hT]
    show (stackToksN fs ++ frameOpenTok f 0 ::
      itemsTokens f.blocks (f.openPos + 1)).set (stackToksN fs).length _ = _
    rw [set_append_cons, gtokens_gClose]
    refine congrArg (fun l => stackToksN fs ++ l) ?_
    refine congrArg (fun t => t :: itemsTokens f.blocks (f.openPos + 1)) ?_
    dsimp only [frameOpenTok]
    simp only [Token.mk.injEq]
    refine ⟨trivial, trivial, by exact_mod_cast hend, by omega, ?_⟩
    rw [stackToks_len]
    omega
  · rw [findOpen_set_ge toks (stackToksN fs).length _ _ le_rfl]
    have hpre : findOpen toks (stackToksN fs).length =
        findOpen (stackToksN fs) (stackToksN fs).length := by
      rw [hT]
      exact findOpen_prefix _ _ _ le_rfl
    rw [hpre, findOpen_stackToksN]
    cases fs with
    | nil => rfl
    | cons f2 fs' => rfl

theorem stepClose_root (buf : List Nat) (pos : Nat) (depth sup : Int)
    (toks : List Token) (f : Frame) {pos1 : Nat} {sup1 : Int}
    {toks1 : List Token} (hinv : StInv buf pos depth sup toks [f])
    (hc : buf[pos]? = some 101)
    (h : doClose pos toks = .ok (pos1, sup1, toks1)) :
    Wfb (gClose f) ∧ toks1 = gtokens (gClose f) 0 ∧
      buf.take pos1 = gencode (gClose f) ∧ pos1 ≤ buf.length := by
  obtain ⟨hp1, htoks, hsup, hend⟩ := doClose_stack buf pos depth sup toks f []
    hinv h
  obtain ⟨hT, ⟨rest, hB⟩, hP, hD, hS, hOffs, hWf⟩ := hinv
  have hop0 : f.openPos = 0 := by
    have := hOffs.1
    simpa [stackBytes] using this
  refine ⟨Wfb_gClose f [] hWf, by rw [htoks, hop0]; rfl, ?_, ?_⟩
  · have hrest : rest = buf.drop pos := by
      have := take_of_append hB hP.symm
      calc rest = (stackBytes [f] ++ rest).drop (stackBytes [f]).length := by
            simp
        _ = buf.drop pos := by rw [← hB, ← hP]
    have hbuf2 : buf = gencode (gClose f) ++ buf.drop (pos + 1) := by
      rw [gencode_gClose]
      calc buf = stackBytes [f] ++ rest := hB
        _ = stackBytes [f] ++ (101 :: buf.drop (pos + 1)) := by
            rw [hrest, drop_cons_getElem hc]
        _ = ((if f.isDict then 100 else 108) :: itemsBytes f.blocks ++
            [101]) ++ buf.drop (pos + 1) := by
            show stackBytes [] ++ frameBytes f ++ _ = _
            simp [stackBytes, frameBytes]
      
    rw [hp1]
    apply take_of_append hbuf2
    rw [gencode_gClose] at hbuf2 ⊢
    simp
    omega
  · have := (List.getElem?_eq_some_iff.mp hc).1
    omega

theorem stepClose_inner (buf : List Nat) (pos : Nat) (depth sup : Int)
    (toks : List Token) (f f2 : Frame) (fs' : List Frame) {pos1 : Nat}
    {sup1 : Int} {toks1 : List Token}
    (hinv : StInv buf pos depth sup toks (f :: f2 :: fs'))
    (hc : buf[pos]? = some 101)
    (h : doClose pos toks = .ok (pos1, sup1, toks1)) :
    StInv buf pos1 (depth - 1) sup1 toks1
      (appendBlock (f2 :: fs') (gClose f)) := by
  obtain ⟨hp1, htoks, hsup, hend⟩ := doClose_stack buf pos depth sup toks f
    (f2 :: fs') hinv h
  obtain ⟨hT, ⟨rest, hB⟩, hP, hD, hS, hOffs, hWf⟩ := hinv
  have hoff2 : f2.openPos + 1 + (itemsBytes f2.blocks).length = f.openPos := by
    have h1 := stackBytes_cons_len f2 fs'
    have h2 := hOffs.1
    have h3 := hOffs.2.1
    omega
  refine ⟨?_, ⟨buf.drop pos1, ?_⟩, ?_, ?_, ?_, ?_, ?_⟩
  · rw [htoks, stackToks_appendBlock, hoff2]
    show stackToksN fs' ++ frameToks f2 1 ++ _ = _
    simp [frameToks]
  · rw [stackBytes_appendBlock, hp1]
    have hrest : rest = buf.drop pos := by
      calc rest = (stackBytes (f :: f2 :: fs') ++ rest).drop
            (stackBytes (f :: f2 :: fs')).length := by simp
        _ = buf.drop pos := by rw [← hB, ← hP]
    calc buf = stackBytes (f :: f2 :: fs') ++ rest := hB
      _ = stackBytes (f2 :: fs') ++ frameBytes f ++
          (101 :: buf.drop (pos + 1)) := by
          rw [hrest, drop_cons_getElem hc]; rfl
      _ = stackBytes (f2 :: fs') ++ gencode (gClose f) ++ buf.drop (pos + 1) := by
          rw [gencode_gClose]
          show _ ++ ((if f.isDict then 100 else 108) :: itemsBytes f.blocks) ++ _ = _
          simp
  · rw [stackBytes_appendBlock, hp1]
    rw [gencode_gClose]
    have h1 := stackBytes_cons_len f (f2 :: fs')
    simp only [List.length_append, List.length_cons]
    rw [hOffs.1] at hend
    simp
    omega
  · rw [hD, length_appendBlock]
    push_cast [List.length_cons]
    omega
  · rw [hsup, superIdx_appendBlock]
  · exact stackOffsOK_appendBlock f2 fs' _ hOffs.2
  · refine stackWf_appendBlock f2 fs' _ (stackWfN_sound _ hWf.2.2)
      (Wfb_gClose f (f2 :: fs') hWf) fun hd he => ?_
    exfalso
    have := (hWf.2.2.2.1 hd).2
    omega

theorem parseLoop_past_end (limit : Option Nat) (buf : List Nat) (fuel pos : Nat)
    (depth sup : Int) (toks : List Token) {pos' : Nat} {toks' : List Token}
    (hpos : ¬pos < buf.length)
    (h : parseLoop limit buf fuel pos depth sup toks = .ok (pos', toks')) :
    pos' = pos ∧ toks' = toks := by
  cases fuel with
  | zero => cases h
  | succ fuel =>
    rw [parseLoop, dif_neg hpos] at h
    cases h
    exact ⟨rfl, rfl⟩

/-- Soundness of the tokenizer loop: from a state described by a frame stack,
a successful run ends either still inside an open container (some token
remains open), or having recognised exactly one grammar value from the start
of the buffer, or one past the buffer end (the truncated-integer case). -/
theorem parseLoop_sound :
    ∀ (fuel : Nat) (limit : Option Nat) (buf : List Nat) (pos : Nat)
      (depth tokSuper : Int) (tokens : List Token) (frames : List Frame)
      {pos' : Nat} {tokens' : List Token},
    StInv buf pos depth tokSuper tokens frames →
    (frames = [] → pos < buf.length) →
    parseLoop limit buf fuel pos depth tokSuper tokens = .ok (pos', tokens') →
    (∃ t ∈ tokens', 0 ≤ t.start ∧ t.«end» < 0) ∨
    (∃ g, Wfb g ∧ tokens' = gtokens g 0 ∧ buf.take pos' = gencode g ∧
      pos' ≤ buf.length) ∨
    pos' = buf.length + 1
  | 0, _, _, _, _, _, _, _, _, _, _, _, h => by cases h
  | fuel + 1, limit, buf, pos, depth, tokSuper, tokens, frames, pos', tokens',
      hinv, hne, hloop => by
    rw [parseLoop] at hloop
    by_cases hpos : pos < buf.length
    case neg =>
      rw [dif_neg hpos] at hloop
      cases hloop
      cases frames with
      | nil => exact absurd (hne rfl) hpos
      | cons f fs =>
        left
        obtain ⟨hT, _⟩ := hinv
        refine ⟨frameOpenTok f 0, ?_, by simp [frameOpenTok], by
          simp [frameOpenTok]⟩
        rw [hT]
        show _ ∈ stackToksN fs ++ frameOpenTok f 0 :: _
        simp
    case pos =>
      rw [dif_pos hpos] at hloop
      have hc : buf[pos]? = some (buf.get ⟨pos, hpos⟩) := by
        rw [List.getElem?_eq_getElem hpos]
        rfl
      set c := buf.get ⟨pos, hpos⟩ with hcdef
      have hdframes : depth = (frames.length : Int) := hinv.2.2.2.1
      by_cases h105 : c = 105
      · rw [if_pos h105] at hloop
        rw [h105] at hc
        cases hdi : doInt limit buf pos tokSuper tokens with
        | error e => rw [hdi] at hloop; cases hloop
        | ok pr =>
          obtain ⟨pos1, tokens1⟩ := pr
          rw [hdi] at hloop
          dsimp only at hloop
          cases frames with
          | nil =>
            obtain ⟨hT, hB, hP, hD, hS, _, _⟩ := hinv
            have hT0 : tokens = [] := hT
            have hP0 : pos = 0 := hP
            have hS0 : tokSuper = -1 := hS
            have hD0 : depth = 0 := hD
            rw [if_pos hD0] at hloop
            cases hloop
            rw [hT0, hP0, hS0] at hdi
            rw [hP0] at hc
            rcases stepInt_nil limit buf hc hdi with hg | hov
            · right; left; exact hg
            · right; right; exact hov
          | cons f fs =>
            have hdne : ¬(depth = 0) := by
              rw [hdframes]
              simp only [List.length_cons]
              omega
            rw [if_neg hdne] at hloop
            rcases stepInt_cons limit buf pos depth tokSuper tokens f fs hinv
                hc hdi with ⟨g, hinv1⟩ | hov
            · exact parseLoop_sound fuel limit buf pos1 depth tokSuper tokens1
                (appendBlock (f :: fs) g) hinv1
                (by intro hcon; simp [appendBlock] at hcon) hloop
            · obtain ⟨hp, _⟩ := parseLoop_past_end limit buf fuel pos1 depth
                tokSuper tokens1 (by omega) hloop
              right; right; omega
      · rw [if_neg h105] at hloop
        by_cases h108 : c = 108
        · rw [if_pos h108] at hloop
          rw [h108] at hc
          cases hdo : doOpen false limit pos tokSuper tokens with
          | error e => rw [hdo] at hloop; cases hloop
          | ok pr =>
            obtain ⟨pos1, sup1, tokens1⟩ := pr
            rw [hdo] at hloop
            dsimp only at hloop
            have hdne : ¬(depth + 1 = 0) := by
              rw [hdframes]
              omega
            rw [if_neg hdne] at hloop
            have hc' : buf[pos]? = some (if false then 100 else 108) := by
              simpa using hc
            cases frames with
            | nil =>
              obtain ⟨hT, hB, hP, hD, hS, _, _⟩ := hinv
              have hT0 : tokens = [] := hT
              have hP0 : pos = 0 := hP
              have hS0 : tokSuper = -1 := hS
              have hD0 : depth = 0 := hD
              rw [hT0, hP0, hS0] at hdo
              rw [hP0] at hc'
              have hinv1 := stepOpen_nil false limit buf hc' hdo
              have hd1 : depth + 1 = 1 := by omega
              rw [← hd1] at hinv1
              exact parseLoop_sound fuel limit buf pos1 (depth + 1) sup1
                tokens1 [⟨false, 0, .nil⟩] hinv1 (by intro hcon; cases hcon)
                hloop
            | cons f fs =>
              have hinv1 := stepOpen_cons false limit buf pos depth tokSuper
                tokens f fs hinv hc' hdo
              exact parseLoop_sound fuel limit buf pos1 (depth + 1) sup1
                tokens1 (⟨false, pos, .nil⟩ :: f :: fs) hinv1
                (by intro hcon; cases hcon) hloop
        · rw [if_neg h108] at hloop
          by_cases h100 : c = 100
          · rw [if_pos h100] at hloop
            rw [h100] at hc
            cases hdo : doOpen true limit pos tokSuper tokens with
            | error e => rw [hdo] at hloop; cases hloop
            | ok pr =>
              obtain ⟨pos1, sup1, tokens1⟩ := pr
              rw [hdo] at hloop
              dsimp only at hloop
              have hdne : ¬(depth + 1 = 0) := by
                rw [hdframes]
                omega
              rw [if_neg hdne] at hloop
              have hc' : buf[pos]? = some (if true then 100 else 108) := by
                simpa using hc
              cases frames with
              | nil =>
                obtain ⟨hT, hB, hP, hD, hS, _, _⟩ := hinv
                have hT0 : tokens = [] := hT
                have hP0 : pos = 0 := hP
                have hS0 : tokSuper = -1 := hS
                have hD0 : depth = 0 := hD
                rw [hT0, hP0, hS0] at hdo
                rw [hP0] at hc'
                have hinv1 := stepOpen_nil true limit buf hc' hdo
                have hd1 : depth + 1 = 1 := by omega
                rw [← hd1] at hinv1
                exact parseLoop_sound fuel limit buf pos1 (depth + 1) sup1
                  tokens1 [⟨true, 0, .nil⟩] hinv1 (by intro hcon; cases hcon)
                  hloop
              | cons f fs =>
                have hinv1 := stepOpen_cons true limit buf pos depth tokSuper
                  tokens f fs hinv hc' hdo
                exact parseLoop_sound fuel limit buf pos1 (depth + 1) sup1
                  tokens1 (⟨true, pos, .nil⟩ :: f :: fs) hinv1
                  (by intro hcon; cases hcon) hloop
          · rw [if_neg h100] at hloop
            by_cases hdig : isDigitB c = true
            · rw [if_pos hdig] at hloop
              cases hds : doStr limit buf pos tokSuper tokens with
              | error e => rw [hds] at hloop; cases hloop
              | ok pr =>
                obtain ⟨pos1, tokens1⟩ := pr
                rw [hds] at hloop
                dsimp only at hloop
                cases frames with
                | nil =>
                  obtain ⟨hT, hB, hP, hD, hS, _, _⟩ := hinv
                  have hT0 : tokens = [] := hT
                  have hP0 : pos = 0 := hP
                  have hS0 : tokSuper = -1 := hS
                  have hD0 : depth = 0 := hD
                  rw [if_pos hD0] at hloop
                  cases hloop
                  rw [hT0, hP0, hS0] at hds
                  rw [hP0] at hc
                  right; left
                  exact stepStr_nil limit buf hc hdig hds
                | cons f fs =>
                  have hdne : ¬(depth = 0) := by
                    rw [hdframes]
                    simp only [List.length_cons]
                    omega
                  rw [if_neg hdne] at hloop
                  obtain ⟨g, hinv1⟩ := stepStr_cons limit buf pos depth
                    tokSuper tokens f fs hinv hc hdig hds
                  exact parseLoop_sound fuel limit buf pos1 depth tokSuper
                    tokens1 (appendBlock (f :: fs) g) hinv1
                    (by intro hcon; simp [appendBlock] at hcon) hloop
            · rw [if_neg hdig] at hloop
              by_cases h101 : c = 101
              · rw [if_pos h101] at hloop
                rw [h101] at hc
                cases frames with
                | nil =>
                  have hT0 : tokens = [] := hinv.1
                  rw [hT0] at hloop
                  rw [show doClose pos ([] : List Token) =
                    .error (.Invalid "Unclosed object" (pos + 1)) from rfl]
                    at hloop
                  cases hloop
                | cons f fs =>
                  cases hdc : doClose pos tokens with
                  | error e => rw [hdc] at hloop; cases hloop
                  | ok pr =>
                    obtain ⟨pos1, sup1, tokens1⟩ := pr
                    rw [hdc] at hloop
                    dsimp only at hloop
                    cases fs with
                    | nil =>
                      have hd1 : depth - 1 = 0 := by
                        rw [hdframes]
                        simp
                      rw [if_pos hd1] at hloop
                      cases hloop
                      obtain ⟨hwf, ht, htake, hle⟩ := stepClose_root buf pos
                        depth tokSuper tokens f hinv hc hdc
                      right; left
                      exact ⟨gClose f, hwf, ht, htake, hle⟩
                    | cons f2 fs' =>
                      have hdne : ¬(depth - 1 = 0) := by
                        rw [hdframes]
                        simp
                        omega
                      rw [if_neg hdne] at hloop
                      have hinv1 := stepClose_inner buf pos depth tokSuper
                        tokens f f2 fs' hinv hc hdc
                      exact parseLoop_sound fuel limit buf pos1 (depth - 1)
                        sup1 tokens1 (appendBlock (f2 :: fs') (gClose f)) hinv1
                        (by intro hcon; simp [appendBlock] at hcon) hloop
              · rw [if_neg h101] at hloop
                cases hloop

/-- Soundness of `parse_prefix`: a successful run either recognised one
well-formed, dangling-free grammar value as a prefix of the buffer, or ended
one past the buffer end (the truncated-trailing-integer case). -/
theorem parsePrefix_sound (limit : Option Nat) (buf : List Nat)
    {tokens : List Token} {pos : Nat}
    (h : parsePrefix limit buf = .ok (tokens, pos)) :
    (∃ g, Wfb g ∧ CleanG g ∧ tokens = gtokens g 0 ∧
      buf.take pos = gencode g ∧ pos ≤ buf.length) ∨
    pos = buf.length + 1 := by
  rw [parsePrefix] at h
  by_cases hE : buf.isEmpty
  · rw [if_pos hE] at h
    cases h
  · rw [if_neg hE] at h
    cases hl : parseLoop limit buf (buf.length + 1) 0 0 (-1) [] with
    | error e => rw [hl] at h; cases h
    | ok pr =>
      obtain ⟨pos1, tokens1⟩ := pr
      rw [hl] at h
      dsimp only at h
      by_cases hbad : tokens1.any tokenBad
      · rw [if_pos hbad] at h
        cases h
      · rw [if_neg hbad] at h
        cases h
        have hinv0 : StInv buf 0 0 (-1) [] [] :=
          ⟨rfl, ⟨buf, rfl⟩, rfl, rfl, rfl, trivial, trivial⟩
        have hne0 : ([] : List Frame) = [] → 0 < buf.length := fun _ => by
          cases buf with
          | nil => simp at hE
          | cons a l => simp
        rcases parseLoop_sound (buf.length + 1) limit buf 0 0 (-1) [] []
            hinv0 hne0 hl with hopen | hg | hov
        · obtain ⟨t, ht, h1, h2⟩ := hopen
          exfalso
          apply hbad
          rw [List.any_eq_true]
          refine ⟨t, ht, ?_⟩
          unfold tokenBad
          rw [Bool.or_eq_true, Bool.and_eq_true]
          exact Or.inl ⟨decide_eq_true h1, decide_eq_true h2⟩
        · obtain ⟨g, hwf, htok, htake, hle⟩ := hg
          left
          refine ⟨g, hwf, ?_, htok, htake, hle⟩
          apply gtokens_dict_even_rev g 0
          intro t ht hk
          by_contra hodd
          apply hbad
          rw [List.any_eq_true]
          refine ⟨t, by rw [htok]; exact ht, ?_⟩
          unfold tokenBad
          rw [Bool.or_eq_true, Bool.and_eq_true, Bool.and_eq_true]
          exact Or.inr ⟨decide_eq_true hk, decide_eq_true hodd⟩
        · right
          exact hov

/-- Soundness of `parse`: a successful full parse recognised exactly one
well-formed, dangling-free grammar value covering the whole buffer, and the
token arena is the canonical arena of that value. -/
theorem parse_sound (limit : Option Nat) (buf : List Nat)
    {tokens : List Token}
    (h : parse limit buf = .ok tokens) :
    ∃ g, Wfb g ∧ CleanG g ∧ gencode g = buf ∧ tokens = gtokens g 0 := by
  rw [parse] at h
  cases hp : parsePrefix limit buf with
  | error e => rw [hp] at h; cases h
  | ok pr =>
    obtain ⟨tokens1, len⟩ := pr
    rw [hp] at h
    dsimp only at h
    by_cases hlen : len = buf.length
    · rw [if_pos hlen] at h
      cases h
      rcases parsePrefix_sound limit buf hp with hg | hov
      · obtain ⟨g, hwf, hclean, htok, htake, _⟩ := hg
        refine ⟨g, hwf, hclean, ?_, htok⟩
        rw [← htake, hlen, List.take_length]
      · omega
    · rw [if_neg hlen] at h
      cases h

/-! ## Completeness: the parser accepts every well-formed value -/

mutual
/-- Number of loop iterations the parser spends consuming a value. -/
def gIters : GValue → Nat
  | .gint _ _ => 1
  | .gbytes _ _ => 1
  | .glist items => 2 + itemsIters items
  | .gdict items => 2 + itemsIters items
def itemsIters : GItems → Nat
  | .nil => 0
  | .cons g tl => gIters g + itemsIters tl
end

/-- Concatenation of child sequences. -/
def gappend : GItems → GItems → GItems
  | .nil, b => b
  | .cons g tl, b => .cons g (gappend tl b)

theorem gappend_gsnoc : ∀ (a : GItems) (g : GValue) (b : GItems),
    gappend (gsnoc a g) b = gappend a (.cons g b)
  | .nil, g, b => rfl
  | .cons h tl, g, b => by
    simp only [gsnoc, gappend, gappend_gsnoc tl g b]

theorem gappend_nil_right : ∀ (a : GItems), gappend a .nil = a
  | .nil => rfl
  | .cons g tl => by simp only [gappend, gappend_nil_right tl]

theorem gencode_length_pos (g : GValue) : 1 ≤ (gencode g).length := by
  cases g with
  | gint neg ds => simp [gencode]
  | gbytes lds content => simp [gencode]; omega
  | glist items => simp [gencode]
  | gdict items => simp [gencode]

mutual
theorem gIters_le : ∀ g : GValue, gIters g ≤ (gencode g).length
  | .gint neg ds => by simp [gIters, gencode]
  | .gbytes lds content => by simp [gIters, gencode]; omega
  | .glist items => by
    simp only [gIters, gencode, List.length_cons, List.length_append,
      List.length_singleton]
    have := itemsIters_le items
    omega
  | .gdict items => by
    simp only [gIters, gencode, List.length_cons, List.length_append,
      List.length_singleton]
    have := itemsIters_le items
    omega
theorem itemsIters_le : ∀ its : GItems, itemsIters its ≤ (itemsBytes its).length
  | .nil => le_rfl
  | .cons g tl => by
    simp only [itemsIters, itemsBytes, List.length_append]
    have h1 := gIters_le g
    have h2 := itemsIters_le tl
    omega
end

theorem parityFlip (n : Nat) :
    decide ((n + 1) % 2 = 0) = !decide (n % 2 = 0) := by
  rcases Nat.mod_two_eq_zero_or_one n with h | h <;>
    simp [Nat.add_mod, h]

/-- Appending a freshly completed child to the innermost open frame preserves
the parser invariant, moving the cursor past the child's encoding. -/
theorem StInv_appendBlock (buf : List Nat) (pos : Nat) (depth sup : Int)
    (toks : List Token) (f : Frame) (fs : List Frame) (g : GValue)
    (rest : List Nat)
    (hinv : StInv buf pos depth sup toks (f :: fs))
    (hdropB : buf.drop pos = gencode g ++ rest)
    (hwf : Wfb g)
    (hkey : f.isDict = true → itemsLen f.blocks % 2 = 0 → isGBytes g = true) :
    StInv buf (pos + (gencode g).length) depth sup
      (stackToks (appendBlock (f :: fs) g)) (appendBlock (f :: fs) g) := by
  obtain ⟨hT, ⟨r0, hB⟩, hP, hD, hS, hOffs, hWf⟩ := hinv
  have htk : buf.take pos = stackBytes (f :: fs) := take_of_append hB hP.symm
  refine ⟨rfl, ⟨rest, ?_⟩, ?_, ?_, ?_, ?_, ?_⟩
  · rw [stackBytes_appendBlock, List.append_assoc, ← htk, ← hdropB]
    exact (List.take_append_drop pos buf).symm
  · rw [stackBytes_appendBlock, List.length_append, hP]
  · rw [hD, length_appendBlock]
  · rw [hS, superIdx_appendBlock]
  · exact stackOffsOK_appendBlock f fs g hOffs
  · exact stackWf_appendBlock f fs g hWf hwf hkey

/-- With an open frame on the stack and the bytes of a well-formed integer
literal ahead, `doInt` succeeds and records exactly the literal's token. -/
theorem fwdInt (buf : List Nat) (pos : Nat) (depth sup : Int)
    (toks : List Token) (f : Frame) (fs : List Frame) (neg : Bool)
    (ds rest : List Nat)
    (hinv : StInv buf pos depth sup toks (f :: fs))
    (hwf : Wfb (.gint neg ds))
    (hkey : f.isDict = true → itemsLen f.blocks % 2 = 1)
    (hdropB : buf.drop pos = gencode (.gint neg ds) ++ rest) :
    doInt none buf pos sup toks =
      .ok (pos + (gencode (.gint neg ds)).length,
        stackToks (appendBlock (f :: fs) (.gint neg ds))) := by
  obtain ⟨hT, ⟨r0, hB⟩, hP, hD, hS, hOffs, hWf⟩ := hinv
  obtain ⟨hds, hdle⟩ := hwf
  have hglen : (gencode (.gint neg ds)).length = 2 + signLen neg + ds.length := by
    cases neg <;> simp [gencode, signLen] <;> omega
  have hdlen : (buf.drop pos).length = buf.length - pos := by simp
  have hpos : pos < buf.length := by
    rw [hdropB] at hdlen
    simp only [List.length_append, hglen] at hdlen
    omega
  have hgenc : gencode (.gint neg ds) = 105 :: signBytes neg ds ++ [101] := by
    simp [gencode, signBytes]
  have hdropB' : buf.drop pos = 105 :: (signBytes neg ds ++ 101 :: rest) := by
    rw [hdropB, hgenc]
    simp
  have hdrop1 : buf.drop (pos + 1) = signBytes neg ds ++ 101 :: rest := by
    have hdd : buf.drop (pos + 1) = (buf.drop pos).drop 1 := by
      rw [List.drop_drop, Nat.add_comm]
    rw [hdd, hdropB']
    simp
  have hsplit : buf = buf.take (pos + 1) ++ signBytes neg ds ++ 101 :: rest := by
    rw [List.append_assoc, ← hdrop1]
    exact (List.take_append_drop (pos + 1) buf).symm
  have hprelen : (buf.take (pos + 1)).length = pos + 1 := by
    simp
    omega
  have hPI := parseInt_ok (buf.take (pos + 1)) neg ds 101 rest hds (by decide)
    (by decide) hdle
  rw [← hsplit, hprelen] at hPI
  have hTsh : toks = stackToksN fs ++ frameOpenTok f 0 ::
      itemsTokens f.blocks (f.openPos + 1) := hT
  have hsup : superIdx (f :: fs) = ((stackToksN fs).length : Int) := rfl
  have hbump : { frameOpenTok f 0 with
      children := (frameOpenTok f 0).children + 1 } = frameOpenTok f 1 := by
    simp [frameOpenTok]
  have hUS : updateSuper toks sup .Int pos =
      .ok (stackToksN fs ++ frameOpenTok f 1 ::
        itemsTokens f.blocks (f.openPos + 1)) := by
    rw [hTsh, hS, hsup, updateSuper_at, if_neg ?hcond, hbump]
    case hcond =>
      rintro ⟨h1, _, h3⟩
      cases hfd : f.isDict with
      | false => simp [frameOpenTok, hfd] at h1
      | true =>
        have hodd := hkey hfd
        simp [frameOpenTok] at h3
        omega
  rw [doInt, hUS]
  dsimp only
  rw [hPI]
  dsimp only
  rw [allocToken_none]
  have hoff : f.openPos + 1 + (itemsBytes f.blocks).length = pos := by
    have := stackBytes_cons_len f fs
    rw [hOffs.1]
    omega
  have hposEq : pos + 1 + signLen neg + ds.length + 1 =
      pos + (gencode (.gint neg ds)).length := by
    rw [hglen]
    omega
  have hg : gtokens (.gint neg ds) pos =
      [⟨.Int, ((pos + 1 : Nat) : Int),
        ((pos + 1 + signLen neg + ds.length : Nat) : Int), 0, 1⟩] := by
    simp only [gtokens]
    have hsl : signLen neg = if neg then 1 else 0 := rfl
    have heq : pos + 1 + (if neg then 1 else 0) + ds.length =
        pos + 1 + signLen neg + ds.length := by rw [← hsl]
    rw [heq]
  rw [stackToks_appendBlock, hoff, hg, hposEq]
  simp

/-- With an open frame on the stack and the bytes of a well-formed string
ahead, `doStr` succeeds and records exactly the string's token. -/
theorem fwdStr (buf : List Nat) (pos : Nat) (depth sup : Int)
    (toks : List Token) (f : Frame) (fs : List Frame)
    (lds content rest : List Nat)
    (hinv : StInv buf pos depth sup toks (f :: fs))
    (hwf : Wfb (.gbytes lds content))
    (hdropB : buf.drop pos = gencode (.gbytes lds content) ++ rest) :
    doStr none buf pos sup toks =
      .ok (pos + (gencode (.gbytes lds content)).length,
        stackToks (appendBlock (f :: fs) (.gbytes lds content))) := by
  obtain ⟨hT, ⟨r0, hB⟩, hP, hD, hS, hOffs, hWf⟩ := hinv
  obtain ⟨hne, hld, hv, hle⟩ := hwf
  have hglen : (gencode (.gbytes lds content)).length =
      lds.length + 1 + content.length := by
    simp [gencode]
    omega
  have hdlen : (buf.drop pos).length = buf.length - pos := by simp
  have hpos : pos < buf.length := by
    rw [hdropB] at hdlen
    simp only [List.length_append, hglen] at hdlen
    omega
  have hsplit : buf = buf.take pos ++ lds ++ 58 :: content ++ rest := by
    conv_lhs => rw [← List.take_append_drop pos buf, hdropB]
    simp only [gencode, List.append_assoc, List.cons_append]
  have hprelen : (buf.take pos).length = pos := by
    simp
    omega
  have hPS := parseString_ok none (buf.take pos) lds content rest toks hld hne
    hv hle (allocToken_none toks _)
  rw [← hsplit, hprelen] at hPS
  have hTsh : toks = stackToksN fs ++ frameOpenTok f 0 ::
      itemsTokens f.blocks (f.openPos + 1) := hT
  have hsup : superIdx (f :: fs) = ((stackToksN fs).length : Int) := rfl
  have hbump : { frameOpenTok f 0 with
      children := (frameOpenTok f 0).children + 1 } = frameOpenTok f 1 := by
    simp [frameOpenTok]
  rw [doStr, hPS]
  dsimp only
  have happ : toks ++ [⟨.ByteStr, ((pos + lds.length + 1 : Nat) : Int),
      ((pos + lds.length + 1 + content.length : Nat) : Int), 0, 1⟩] =
      stackToksN fs ++ frameOpenTok f 0 ::
        (itemsTokens f.blocks (f.openPos + 1) ++
          [⟨.ByteStr, ((pos + lds.length + 1 : Nat) : Int),
            ((pos + lds.length + 1 + content.length : Nat) : Int), 0, 1⟩]) := by
    rw [hTsh]
    simp
  rw [happ, hS, hsup, updateSuper_at,
    if_neg (fun hcon => hcon.2.1 rfl), hbump]
  have hoff : f.openPos + 1 + (itemsBytes f.blocks).length = pos := by
    have := stackBytes_cons_len f fs
    rw [hOffs.1]
    omega
  have hg : gtokens (.gbytes lds content) pos =
      [⟨.ByteStr, ((pos + lds.length + 1 : Nat) : Int),
        ((pos + lds.length + 1 + content.length : Nat) : Int), 0, 1⟩] := by
    simp only [gtokens]
  have hposEq : pos + lds.length + 1 + content.length =
      pos + (gencode (.gbytes lds content)).length := by
    rw [hglen]
    omega
  rw [stackToks_appendBlock, hoff, hg, hposEq]

/-- With an open frame on the stack, `doOpen` succeeds, registers the new
container with its parent and makes it the innermost frame. -/
theorem fwdOpen (isDict : Bool) (buf : List Nat) (pos : Nat) (depth sup : Int)
    (toks : List Token) (f : Frame) (fs : List Frame)
    (hinv : StInv buf pos depth sup toks (f :: fs))
    (hkey : f.isDict = true → itemsLen f.blocks % 2 = 1) :
    doOpen isDict none pos sup toks =
      .ok (pos + 1, superIdx (⟨isDict, pos, .nil⟩ :: f :: fs),
        stackToks (⟨isDict, pos, .nil⟩ :: f :: fs)) := by
  obtain ⟨hT, ⟨r0, hB⟩, hP, hD, hS, hOffs, hWf⟩ := hinv
  have hTsh : toks = stackToksN fs ++ frameOpenTok f 0 ::
      itemsTokens f.blocks (f.openPos + 1) := hT
  have hsup : superIdx (f :: fs) = ((stackToksN fs).length : Int) := rfl
  have hbump : { frameOpenTok f 0 with
      children := (frameOpenTok f 0).children + 1 } = frameOpenTok f 1 := by
    simp [frameOpenTok]
  rw [doOpen]
  rw [allocToken_none]
  dsimp only
  have happ : toks ++ [⟨if isDict then .Dict else .List, (pos : Int), -1, 0, 1⟩] =
      stackToksN fs ++ frameOpenTok f 0 ::
        (itemsTokens f.blocks (f.openPos + 1) ++
          [⟨if isDict then .Dict else .List, (pos : Int), -1, 0, 1⟩]) := by
    rw [hTsh]
    simp
  rw [happ, hS, hsup, updateSuper_at, if_neg ?hcond, hbump]
  case hcond =>
    rintro ⟨h1, _, h3⟩
    cases hfd : f.isDict with
    | false => simp [frameOpenTok, hfd] at h1
    | true =>
      have hodd := hkey hfd
      simp [frameOpenTok] at h3
      omega
  have hT2 : stackToksN fs ++ frameOpenTok f 1 ::
      (itemsTokens f.blocks (f.openPos + 1) ++
        [⟨if isDict then .Dict else .List, (pos : Int), -1, 0, 1⟩]) =
      stackToks (⟨isDict, pos, .nil⟩ :: f :: fs) := by
    simp [stackToks, stackToksN, frameToks, frameOpenTok, itemsTokens, itemsLen]
  rw [hT2]
  dsimp only
  have hS2 : ((stackToks (⟨isDict, pos, .nil⟩ :: f :: fs)).length : Int) - 1 =
      superIdx (⟨isDict, pos, .nil⟩ :: f :: fs) := by
    rw [stackToks_len]
    show _ = ((stackToksN (f :: fs)).length : Int)
    simp [itemsCount]
  rw [hS2]

/-- With at least one open frame, `doClose` always succeeds. -/
theorem fwdClose (pos : Nat) (f : Frame) (fs : List Frame) :
    ∃ pos1 sup1 toks1,
      doClose pos (stackToks (f :: fs)) = .ok (pos1, sup1, toks1) := by
  rw [doClose, findOpen_stackToks]
  exact ⟨_, _, _, rfl⟩

theorem getElem?_of_drop {buf : List Nat} {pos c : Nat} {tl : List Nat}
    (h : buf.drop pos = c :: tl) : buf[pos]? = some c := by
  have h2 : (buf.drop pos)[0]? = some c := by rw [h]; simp
  rw [List.getElem?_drop] at h2
  simpa using h2

theorem lt_of_drop_cons {buf : List Nat} {pos c : Nat} {tl : List Nat}
    (h : buf.drop pos = c :: tl) : pos < buf.length := by
  have h2 := congrArg List.length h
  simp at h2
  omega

theorem get_of_drop {buf : List Nat} {pos c : Nat} {tl : List Nat}
    (h : buf.drop pos = c :: tl) (hpos : pos < buf.length) :
    buf.get ⟨pos, hpos⟩ = c := by
  have h2 := getElem?_of_drop h
  rw [List.getElem?_eq_getElem hpos] at h2
  simpa using h2

theorem drop_succ_of_drop {buf : List Nat} {pos c : Nat} {tl : List Nat}
    (h : buf.drop pos = c :: tl) : buf.drop (pos + 1) = tl := by
  have hdd : buf.drop (pos + 1) = (buf.drop pos).drop 1 := by
    rw [List.drop_drop, Nat.add_comm]
  rw [hdd, h]
  rfl

theorem drop_add_of_drop {buf : List Nat} {pos : Nat} {pre tl : List Nat}
    (h : buf.drop pos = pre ++ tl) : buf.drop (pos + pre.length) = tl := by
  have hdd : buf.drop (pos + pre.length) = (buf.drop pos).drop pre.length := by
    rw [List.drop_drop, Nat.add_comm]
  rw [hdd, h, List.drop_left]

mutual
/-- Running the loop on the encoding of one well-formed value, inside an open
container: the loop consumes exactly the value's bytes and appends its block
to the innermost frame, using exactly `gIters` iterations. -/
theorem runVal : ∀ (g : GValue), Wfb g →
    ∀ (fuel : Nat) (buf : List Nat) (pos : Nat) (depth sup : Int)
      (toks : List Token) (f : Frame) (fs : List Frame) (rest : List Nat),
    StInv buf pos depth sup toks (f :: fs) →
    buf.drop pos = gencode g ++ rest →
    (f.isDict = true → itemsLen f.blocks % 2 = 0 → isGBytes g = true) →
    parseLoop none buf (fuel + gIters g) pos depth sup toks =
      parseLoop none buf fuel (pos + (gencode g).length) depth sup
        (stackToks (appendBlock (f :: fs) g)) ∧
    StInv buf (pos + (gencode g).length) depth sup
      (stackToks (appendBlock (f :: fs) g)) (appendBlock (f :: fs) g)
  | .gint neg ds, hwf, fuel, buf, pos, depth, sup, toks, f, fs, rest, hinv,
      hdropB, hkeyA => by
    have hkey : f.isDict = true → itemsLen f.blocks % 2 = 1 := by
      intro hd
      rcases Nat.mod_two_eq_zero_or_one (itemsLen f.blocks) with h0 | h1
      · have := hkeyA hd h0
        simp [isGBytes] at this
      · exact h1
    have hgenc : gencode (GValue.gint neg ds) =
        105 :: (signBytes neg ds ++ [101]) := by
      simp [gencode, signBytes]
    have hdropB' : buf.drop pos =
        105 :: (signBytes neg ds ++ [101] ++ rest) := by
      rw [hdropB, hgenc]
      simp
    have hpos : pos < buf.length := lt_of_drop_cons hdropB'
    have hcg : buf.get ⟨pos, hpos⟩ = 105 := get_of_drop hdropB' hpos
    have hdi := fwdInt buf pos depth sup toks f fs neg ds rest hinv hwf hkey
      hdropB
    have hdep : ¬(depth = 0) := by
      have hD := hinv.2.2.2.1
      rw [hD]
      simp only [List.length_cons]
      omega
    refine ⟨?_, StInv_appendBlock buf pos depth sup toks f fs _ rest hinv
      hdropB hwf hkeyA⟩
    have hfuel : fuel + gIters (GValue.gint neg ds) = fuel + 1 := rfl
    rw [hfuel, parseLoop, dif_pos hpos, if_pos hcg, hdi]
    dsimp only
    rw [if_neg hdep]
  | .gbytes lds content, hwf, fuel, buf, pos, depth, sup, toks, f, fs, rest,
      hinv, hdropB, hkeyA => by
    obtain ⟨hne, hld, hv, hle⟩ := hwf
    obtain ⟨l0, lds', hlds⟩ : ∃ l0 lds', lds = l0 :: lds' := by
      cases lds with
      | nil => exact absurd rfl hne
      | cons a b => exact ⟨a, b, rfl⟩
    have hdropB' : buf.drop pos =
        l0 :: (lds' ++ 58 :: content ++ rest) := by
      rw [hdropB]
      simp [gencode, hlds]
    have hpos : pos < buf.length := lt_of_drop_cons hdropB'
    have hcg : buf.get ⟨pos, hpos⟩ = l0 := get_of_drop hdropB' hpos
    have hdig : isDigitB l0 = true := hld l0 (by rw [hlds]; simp)
    have hbounds : 48 ≤ l0 ∧ l0 ≤ 57 := by
      rw [isDigitB, Bool.and_eq_true, decide_eq_true_eq, decide_eq_true_eq]
        at hdig
      exact hdig
    have hds := fwdStr buf pos depth sup toks f fs lds content rest hinv
      ⟨hne, hld, hv, hle⟩ hdropB
    have hdig' : isDigitB l0 = true := hld l0 (by rw [hlds]; simp)
    have hdep : ¬(depth = 0) := by
      have hD := hinv.2.2.2.1
      rw [hD]
      simp only [List.length_cons]
      omega
    refine ⟨?_, StInv_appendBlock buf pos depth sup toks f fs _ rest hinv
      hdropB ⟨hne, hld, hv, hle⟩ hkeyA⟩
    have hfuel : fuel + gIters (GValue.gbytes lds content) = fuel + 1 := rfl
    rw [hfuel, parseLoop, dif_pos hpos,
      if_neg (show ¬(buf.get ⟨pos, hpos⟩ = 105) by rw [hcg]; omega),
      if_neg (show ¬(buf.get ⟨pos, hpos⟩ = 108) by rw [hcg]; omega),
      if_neg (show ¬(buf.get ⟨pos, hpos⟩ = 100) by rw [hcg]; omega),
      if_pos (show isDigitB (buf.get ⟨pos, hpos⟩) = true by
        rw [hcg]; exact hdig'),
      hds]
    dsimp only
    rw [if_neg hdep]
  | .glist items, hwf, fuel, buf, pos, depth, sup, toks, f, fs, rest, hinv,
      hdropB, hkeyA => by
    have hkey : f.isDict = true → itemsLen f.blocks % 2 = 1 := by
      intro hd
      rcases Nat.mod_two_eq_zero_or_one (itemsLen f.blocks) with h0 | h1
      · have := hkeyA hd h0
        simp [isGBytes] at this
      · exact h1
    have hdropB' : buf.drop pos =
        108 :: (itemsBytes items ++ [101] ++ rest) := by
      rw [hdropB]
      simp [gencode]
    have hpos : pos < buf.length := lt_of_drop_cons hdropB'
    have hcg : buf.get ⟨pos, hpos⟩ = 108 := get_of_drop hdropB' hpos
    have hdo := fwdOpen false buf pos depth sup toks f fs hinv hkey
    have hc' : buf[pos]? = some (if false then 100 else 108) := by
      simpa using getElem?_of_drop hdropB'
    have hinv2' := stepOpen_cons false none buf pos depth sup toks f fs hinv
      hc' hdo
    have hinv2 : StInv buf (pos + 1) (depth + 1)
        (superIdx ((⟨false, pos, GItems.nil⟩ : Frame) :: f :: fs))
        (stackToks ((⟨false, pos, GItems.nil⟩ : Frame) :: f :: fs))
        ((⟨false, pos, GItems.nil⟩ : Frame) :: f :: fs) := hinv2'
    have hdrop2 : buf.drop (pos + 1) = itemsBytes items ++ (101 :: rest) := by
      have hd1 := drop_succ_of_drop hdropB'
      rw [hd1]
      simp
    have halt2 : (⟨false, pos, GItems.nil⟩ : Frame).isDict = true →
        altOk
          (decide (itemsLen (⟨false, pos, GItems.nil⟩ : Frame).blocks % 2 = 0))
          items := by
      intro h
      exact absurd (show false = true from h) (by decide)
    obtain ⟨heqI', hinv3'⟩ := runItems items hwf (fuel + 1) buf (pos + 1)
      (depth + 1) (superIdx ((⟨false, pos, GItems.nil⟩ : Frame) :: f :: fs))
      (stackToks ((⟨false, pos, GItems.nil⟩ : Frame) :: f :: fs))
      ⟨false, pos, GItems.nil⟩ (f :: fs) (101 :: rest) hinv2 hdrop2 halt2
    have heqI : parseLoop none buf (fuel + 1 + itemsIters items) (pos + 1)
        (depth + 1) (superIdx ((⟨false, pos, GItems.nil⟩ : Frame) :: f :: fs))
        (stackToks ((⟨false, pos, GItems.nil⟩ : Frame) :: f :: fs)) =
        parseLoop none buf (fuel + 1) (pos + 1 + (itemsBytes items).length)
          (depth + 1)
          (superIdx ((⟨false, pos, GItems.nil⟩ : Frame) :: f :: fs))
          (stackToks ((⟨false, pos, items⟩ : Frame) :: f :: fs)) := heqI'
    have hinv3 : StInv buf (pos + 1 + (itemsBytes items).length) (depth + 1)
        (superIdx ((⟨false, pos, GItems.nil⟩ : Frame) :: f :: fs))
        (stackToks ((⟨false, pos, items⟩ : Frame) :: f :: fs))
        ((⟨false, pos, items⟩ : Frame) :: f :: fs) := hinv3'
    have hdrop3 : buf.drop (pos + 1 + (itemsBytes items).length) =
        101 :: rest := drop_add_of_drop hdrop2
    have hlt3 : pos + 1 + (itemsBytes items).length < buf.length :=
      lt_of_drop_cons hdrop3
    have hcg3 : buf.get ⟨pos + 1 + (itemsBytes items).length, hlt3⟩ = 101 :=
      get_of_drop hdrop3 hlt3
    have hc3 : buf[pos + 1 + (itemsBytes items).length]? = some 101 :=
      getElem?_of_drop hdrop3
    obtain ⟨pos3, sup3, toks3, hdc⟩ :=
      fwdClose (pos + 1 + (itemsBytes items).length)
        (⟨false, pos, items⟩ : Frame) (f :: fs)
    have hclose := stepClose_inner buf (pos + 1 + (itemsBytes items).length)
      (depth + 1) (superIdx ((⟨false, pos, GItems.nil⟩ : Frame) :: f :: fs))
      (stackToks ((⟨false, pos, items⟩ : Frame) :: f :: fs))
      ⟨false, pos, items⟩ f fs hinv3 hc3 hdc
    have hgc : gClose (⟨false, pos, items⟩ : Frame) = GValue.glist items := rfl
    rw [hgc] at hclose
    have htoks3 : toks3 =
        stackToks (appendBlock (f :: fs) (GValue.glist items)) := hclose.1
    have hpos3e : pos3 = pos + (gencode (GValue.glist items)).length := by
      have h1 := hclose.2.2.1
      rw [stackBytes_appendBlock, List.length_append] at h1
      have h2 := hinv.2.2.1
      omega
    have hsup3e : sup3 = sup := by
      have h1 := hclose.2.2.2.2.1
      rw [superIdx_appendBlock] at h1
      rw [h1]
      exact hinv.2.2.2.2.1.symm
    have hdep1 : depth + 1 - 1 = depth := by omega
    rw [htoks3, hpos3e, hsup3e, hdep1] at hclose
    refine ⟨?_, hclose⟩
    have hdepL : depth = ((f :: fs).length : Int) := hinv.2.2.2.1
    have hfuel : fuel + gIters (GValue.glist items) =
        fuel + 1 + itemsIters items + 1 := by
      show fuel + (2 + itemsIters items) = fuel + 1 + itemsIters items + 1
      omega
    rw [hfuel, parseLoop, dif_pos hpos,
      if_neg (show ¬(buf.get ⟨pos, hpos⟩ = 105) by rw [hcg]; omega),
      if_pos hcg, hdo]
    dsimp only
    rw [if_neg (show ¬(depth + 1 = 0) by rw [hdepL]; omega)]
    rw [heqI]
    rw [parseLoop, dif_pos hlt3,
      if_neg (show
        ¬(buf.get ⟨pos + 1 + (itemsBytes items).length, hlt3⟩ = 105) by
        rw [hcg3]; omega),
      if_neg (show
        ¬(buf.get ⟨pos + 1 + (itemsBytes items).length, hlt3⟩ = 108) by
        rw [hcg3]; omega),
      if_neg (show
        ¬(buf.get ⟨pos + 1 + (itemsBytes items).length, hlt3⟩ = 100) by
        rw [hcg3]; omega),
      if_neg (show
        ¬(isDigitB (buf.get ⟨pos + 1 + (itemsBytes items).length, hlt3⟩) =
          true) by rw [hcg3]; decide),
      if_pos hcg3, hdc]
    dsimp only
    rw [if_neg (show ¬(depth + 1 - 1 = 0) by
      rw [hdep1, hdepL]; simp only [List.length_cons]; omega)]
    rw [htoks3, hpos3e, hsup3e, hdep1]
  | .gdict items, hwf, fuel, buf, pos, depth, sup, toks, f, fs, rest, hinv,
      hdropB, hkeyA => by
    obtain ⟨hwfI, haltI⟩ := hwf
    have hkey : f.isDict = true → itemsLen f.blocks % 2 = 1 := by
      intro hd
      rcases Nat.mod_two_eq_zero_or_one (itemsLen f.blocks) with h0 | h1
      · have := hkeyA hd h0
        simp [isGBytes] at this
      · exact h1
    have hdropB' : buf.drop pos =
        100 :: (itemsBytes items ++ [101] ++ rest) := by
      rw [hdropB]
      simp [gencode]
    have hpos : pos < buf.length := lt_of_drop_cons hdropB'
    have hcg : buf.get ⟨pos, hpos⟩ = 100 := get_of_drop hdropB' hpos
    have hdo := fwdOpen true buf pos depth sup toks f fs hinv hkey
    have hc' : buf[pos]? = some (if true then 100 else 108) := by
      simpa using getElem?_of_drop hdropB'
    have hinv2' := stepOpen_cons true none buf pos depth sup toks f fs hinv
      hc' hdo
    have hinv2 : StInv buf (pos + 1) (depth + 1)
        (superIdx ((⟨true, pos, GItems.nil⟩ : Frame) :: f :: fs))
        (stackToks ((⟨true, pos, GItems.nil⟩ : Frame) :: f :: fs))
        ((⟨true, pos, GItems.nil⟩ : Frame) :: f :: fs) := hinv2'
    have hdrop2 : buf.drop (pos + 1) = itemsBytes items ++ (101 :: rest) := by
      have hd1 := drop_succ_of_drop hdropB'
      rw [hd1]
      simp
    have halt2 : (⟨true, pos, GItems.nil⟩ : Frame).isDict = true →
        altOk
          (decide (itemsLen (⟨true, pos, GItems.nil⟩ : Frame).blocks % 2 = 0))
          items := fun _ => haltI
    obtain ⟨heqI', hinv3'⟩ := runItems items hwfI (fuel + 1) buf (pos + 1)
      (depth + 1) (superIdx ((⟨true, pos, GItems.nil⟩ : Frame) :: f :: fs))
      (stackToks ((⟨true, pos, GItems.nil⟩ : Frame) :: f :: fs))
      ⟨true, pos, GItems.nil⟩ (f :: fs) (101 :: rest) hinv2 hdrop2 halt2
    have heqI : parseLoop none buf (fuel + 1 + itemsIters items) (pos + 1)
        (depth + 1) (superIdx ((⟨true, pos, GItems.nil⟩ : Frame) :: f :: fs))
        (stackToks ((⟨true, pos, GItems.nil⟩ : Frame) :: f :: fs)) =
        parseLoop none buf (fuel + 1) (pos + 1 + (itemsBytes items).length)
          (depth + 1)
          (superIdx ((⟨true, pos, GItems.nil⟩ : Frame) :: f :: fs))
          (stackToks ((⟨true, pos, items⟩ : Frame) :: f :: fs)) := heqI'
    have hinv3 : StInv buf (pos + 1 + (itemsBytes items).length) (depth + 1)
        (superIdx ((⟨true, pos, GItems.nil⟩ : Frame) :: f :: fs))
        (stackToks ((⟨true, pos, items⟩ : Frame) :: f :: fs))
        ((⟨true, pos, items⟩ : Frame) :: f :: fs) := hinv3'
    have hdrop3 : buf.drop (pos + 1 + (itemsBytes items).length) =
        101 :: rest := drop_add_of_drop hdrop2
    have hlt3 : pos + 1 + (itemsBytes items).length < buf.length :=
      lt_of_drop_cons hdrop3
    have hcg3 : buf.get ⟨pos + 1 + (itemsBytes items).length, hlt3⟩ = 101 :=
      get_of_drop hdrop3 hlt3
    have hc3 : buf[pos + 1 + (itemsBytes items).length]? = some 101 :=
      getElem?_of_drop hdrop3
    obtain ⟨pos3, sup3, toks3, hdc⟩ :=
      fwdClose (pos + 1 + (itemsBytes items).length)
        (⟨true, pos, items⟩ : Frame) (f :: fs)
    have hclose := stepClose_inner buf (pos + 1 + (itemsBytes items).length)
      (depth + 1) (superIdx ((⟨true, pos, GItems.nil⟩ : Frame) :: f :: fs))
      (stackToks ((⟨true, pos, items⟩ : Frame) :: f :: fs))
      ⟨true, pos, items⟩ f fs hinv3 hc3 hdc
    have hgc : gClose (⟨true, pos, items⟩ : Frame) = GValue.gdict items := rfl
    rw [hgc] at hclose
    have htoks3 : toks3 =
        stackToks (appendBlock (f :: fs) (GValue.gdict items)) := hclose.1
    have hpos3e : pos3 = pos + (gencode (GValue.gdict items)).length := by
      have h1 := hclose.2.2.1
      rw [stackBytes_appendBlock, List.length_append] at h1
      have h2 := hinv.2.2.1
      omega
    have hsup3e : sup3 = sup := by
      have h1 := hclose.2.2.2.2.1
      rw [superIdx_appendBlock] at h1
      rw [h1]
      exact hinv.2.2.2.2.1.symm
    have hdep1 : depth + 1 - 1 = depth := by omega
    rw [htoks3, hpos3e, hsup3e, hdep1] at hclose
    refine ⟨?_, hclose⟩
    have hdepL : depth = ((f :: fs).length : Int) := hinv.2.2.2.1
    have hfuel : fuel + gIters (GValue.gdict items) =
        fuel + 1 + itemsIters items + 1 := by
      show fuel + (2 + itemsIters items) = fuel + 1 + itemsIters items + 1
      omega
    rw [hfuel, parseLoop, dif_pos hpos,
      if_neg (show ¬(buf.get ⟨pos, hpos⟩ = 105) by rw [hcg]; omega),
      if_neg (show ¬(buf.get ⟨pos, hpos⟩ = 108) by rw [hcg]; omega),
      if_pos hcg, hdo]
    dsimp only
    rw [if_neg (show ¬(depth + 1 = 0) by rw [hdepL]; omega)]
    rw [heqI]
    rw [parseLoop, dif_pos hlt3,
      if_neg (show
        ¬(buf.get ⟨pos + 1 + (itemsBytes items).length, hlt3⟩ = 105) by
        rw [hcg3]; omega),
      if_neg (show
        ¬(buf.get ⟨pos + 1 + (itemsBytes items).length, hlt3⟩ = 108) by
        rw [hcg3]; omega),
      if_neg (show
        ¬(buf.get ⟨pos + 1 + (itemsBytes items).length, hlt3⟩ = 100) by
        rw [hcg3]; omega),
      if_neg (show
        ¬(isDigitB (buf.get ⟨pos + 1 + (itemsBytes items).length, hlt3⟩) =
          true) by rw [hcg3]; decide),
      if_pos hcg3, hdc]
    dsimp only
    rw [if_neg (show ¬(depth + 1 - 1 = 0) by
      rw [hdep1, hdepL]; simp only [List.length_cons]; omega)]
    rw [htoks3, hpos3e, hsup3e, hdep1]
theorem runItems : ∀ (its : GItems), WfbItems its →
    ∀ (fuel : Nat) (buf : List Nat) (pos : Nat) (depth sup : Int)
      (toks : List Token) (f : Frame) (fs : List Frame) (rest : List Nat),
    StInv buf pos depth sup toks (f :: fs) →
    buf.drop pos = itemsBytes its ++ rest →
    (f.isDict = true → altOk (decide (itemsLen f.blocks % 2 = 0)) its) →
    parseLoop none buf (fuel + itemsIters its) pos depth sup toks =
      parseLoop none buf fuel (pos + (itemsBytes its).length) depth sup
        (stackToks
          ((⟨f.isDict, f.openPos, gappend f.blocks its⟩ : Frame) :: fs)) ∧
    StInv buf (pos + (itemsBytes its).length) depth sup
      (stackToks ((⟨f.isDict, f.openPos, gappend f.blocks its⟩ : Frame) :: fs))
      ((⟨f.isDict, f.openPos, gappend f.blocks its⟩ : Frame) :: fs)
  | .nil, hwf, fuel, buf, pos, depth, sup, toks, f, fs, rest, hinv, hdropB,
      halt => by
    have hT : toks = stackToks (f :: fs) := hinv.1
    have hfr : (⟨f.isDict, f.openPos, gappend f.blocks GItems.nil⟩ : Frame) =
        f := by
      rw [gappend_nil_right]
    constructor
    · have h0 : itemsIters GItems.nil = 0 := rfl
      have h1 : (itemsBytes GItems.nil).length = 0 := rfl
      rw [h0, h1, Nat.add_zero, Nat.add_zero, hT, hfr]
    · have h1 : (itemsBytes GItems.nil).length = 0 := rfl
      rw [h1, Nat.add_zero, hfr, ← hT]
      exact hinv
  | .cons g tl, hwf, fuel, buf, pos, depth, sup, toks, f, fs, rest, hinv,
      hdropB, halt => by
    obtain ⟨hwfg, hwftl⟩ := hwf
    have hdropg : buf.drop pos = gencode g ++ (itemsBytes tl ++ rest) := by
      rw [hdropB]
      simp [itemsBytes]
    have hkeyg : f.isDict = true → itemsLen f.blocks % 2 = 0 →
        isGBytes g = true := by
      intro hd hpar
      exact (halt hd).1 (by simp [hpar])
    obtain ⟨heqg, hinvg⟩ := runVal g hwfg (fuel + itemsIters tl) buf pos depth
      sup toks f fs (itemsBytes tl ++ rest) hinv hdropg hkeyg
    have hinvg' : StInv buf (pos + (gencode g).length) depth sup
        (stackToks ((⟨f.isDict, f.openPos, gsnoc f.blocks g⟩ : Frame) :: fs))
        ((⟨f.isDict, f.openPos, gsnoc f.blocks g⟩ : Frame) :: fs) := hinvg
    have heqg' : parseLoop none buf (fuel + itemsIters tl + gIters g) pos depth
        sup toks =
        parseLoop none buf (fuel + itemsIters tl) (pos + (gencode g).length)
          depth sup
          (stackToks
            ((⟨f.isDict, f.openPos, gsnoc f.blocks g⟩ : Frame) :: fs)) := heqg
    have hdroptl : buf.drop (pos + (gencode g).length) =
        itemsBytes tl ++ rest := drop_add_of_drop hdropg
    have halt2 :
        (⟨f.isDict, f.openPos, gsnoc f.blocks g⟩ : Frame).isDict = true →
        altOk (decide
          (itemsLen (⟨f.isDict, f.openPos, gsnoc f.blocks g⟩ : Frame).blocks
            % 2 = 0)) tl := by
      intro hd
      show altOk (decide (itemsLen (gsnoc f.blocks g) % 2 = 0)) tl
      rw [itemsLen_gsnoc, parityFlip]
      exact (halt hd).2
    obtain ⟨heqt, hinvt⟩ := runItems tl hwftl fuel buf
      (pos + (gencode g).length) depth sup
      (stackToks ((⟨f.isDict, f.openPos, gsnoc f.blocks g⟩ : Frame) :: fs))
      ⟨f.isDict, f.openPos, gsnoc f.blocks g⟩ fs rest hinvg' hdroptl halt2
    have heqt' : parseLoop none buf (fuel + itemsIters tl)
        (pos + (gencode g).length) depth sup
        (stackToks ((⟨f.isDict, f.openPos, gsnoc f.blocks g⟩ : Frame) :: fs)) =
        parseLoop none buf fuel
          (pos + (gencode g).length + (itemsBytes tl).length) depth sup
          (stackToks
            ((⟨f.isDict, f.openPos,
              gappend (gsnoc f.blocks g) tl⟩ : Frame) :: fs)) := heqt
    have hinvt' : StInv buf
        (pos + (gencode g).length + (itemsBytes tl).length) depth sup
        (stackToks
          ((⟨f.isDict, f.openPos,
            gappend (gsnoc f.blocks g) tl⟩ : Frame) :: fs))
        ((⟨f.isDict, f.openPos,
          gappend (gsnoc f.blocks g) tl⟩ : Frame) :: fs) := hinvt
    have hlen2 : pos + (gencode g).length + (itemsBytes tl).length =
        pos + (itemsBytes (GItems.cons g tl)).length := by
      simp [itemsBytes]
      omega
    rw [hlen2, gappend_gsnoc] at heqt' hinvt'
    constructor
    · have hfuel : fuel + itemsIters (GItems.cons g tl) =
          fuel + itemsIters tl + gIters g := by
        show fuel + (gIters g + itemsIters tl) = fuel + itemsIters tl + gIters g
        omega
      rw [hfuel]
      exact heqg'.trans heqt'
    · exact hinvt'
end

/-- At the root (no open frame), `doInt` on a well-formed integer literal
succeeds and yields exactly the literal's token run. -/
theorem fwdIntRoot (buf : List Nat) (neg : Bool) (ds rest : List Nat)
    (hwf : Wfb (.gint neg ds))
    (hbuf : buf = gencode (.gint neg ds) ++ rest) :
    doInt none buf 0 (-1) [] =
      .ok ((gencode (.gint neg ds)).length, gtokens (.gint neg ds) 0) := by
  obtain ⟨hds, hdle⟩ := hwf
  have hglen : (gencode (.gint neg ds)).length =
      2 + signLen neg + ds.length := by
    cases neg <;> simp [gencode, signLen] <;> omega
  have hsplit : buf = [105] ++ signBytes neg ds ++ 101 :: rest := by
    rw [hbuf]
    simp [gencode, signBytes]
  have hPI := parseInt_ok [105] neg ds 101 rest hds (by decide) (by decide)
    hdle
  rw [← hsplit] at hPI
  have hl1 : ([105] : List Nat).length = 1 := rfl
  rw [hl1] at hPI
  rw [doInt, updateSuper_neg _ _ _ _ (by omega)]
  dsimp only
  simp only [Nat.zero_add]
  rw [hPI]
  dsimp only
  rw [allocToken_none]
  have hposEq : 1 + signLen neg + ds.length + 1 =
      (gencode (.gint neg ds)).length := by
    rw [hglen]
    omega
  have hg : gtokens (.gint neg ds) 0 =
      [⟨.Int, ((1 : Nat) : Int),
        ((1 + signLen neg + ds.length : Nat) : Int), 0, 1⟩] := by
    simp only [gtokens]
    have hsl : signLen neg = if neg then 1 else 0 := rfl
    have h2 : 0 + 1 + (if neg then 1 else 0) + ds.length =
        1 + signLen neg + ds.length := by
      rw [← hsl]
    rw [h2]
  rw [hposEq, hg]
  simp

/-- At the root, `doStr` on a well-formed string succeeds and yields exactly
the string's token run. -/
theorem fwdStrRoot (buf : List Nat) (lds content rest : List Nat)
    (hwf : Wfb (.gbytes lds content))
    (hbuf : buf = gencode (.gbytes lds content) ++ rest) :
    doStr none buf 0 (-1) [] =
      .ok ((gencode (.gbytes lds content)).length,
        gtokens (.gbytes lds content) 0) := by
  obtain ⟨hne, hld, hv, hle⟩ := hwf
  have hsplit : buf = ([] : List Nat) ++ lds ++ 58 :: content ++ rest := by
    rw [hbuf]
    simp [gencode]
  have hPS := parseString_ok none [] lds content rest [] hld hne hv hle
    (allocToken_none [] _)
  rw [← hsplit] at hPS
  have hl0 : ([] : List Nat).length = 0 := rfl
  rw [hl0] at hPS
  rw [doStr, hPS]
  dsimp only
  rw [updateSuper_neg _ _ _ _ (by omega)]
  have hglen : 0 + lds.length + 1 + content.length =
      (gencode (.gbytes lds content)).length := by
    simp [gencode]
    omega
  have hg : gtokens (.gbytes lds content) 0 =
      [⟨.ByteStr, ((0 + lds.length + 1 : Nat) : Int),
        ((0 + lds.length + 1 + content.length : Nat) : Int), 0, 1⟩] := by
    simp only [gtokens]
  rw [hg, ← hglen]
  simp

/-- At the root, opening a list. -/
theorem fwdOpenRootL :
    doOpen false none 0 (-1) [] =
      .ok (1, 0, [⟨.List, (0 : Int), -1, 0, 1⟩]) := rfl

/-- At the root, opening a dictionary. -/
theorem fwdOpenRootD :
    doOpen true none 0 (-1) [] =
      .ok (1, 0, [⟨.Dict, (0 : Int), -1, 0, 1⟩]) := rfl

/-- Running the loop from the initial state on the encoding of one
well-formed value: the loop stops at the root `depth` check and returns
exactly the value's token arena and byte length. -/
theorem rootRun (g : GValue) (hwf : Wfb g) (fuel : Nat) (buf rest : List Nat)
    (hbuf : buf = gencode g ++ rest) :
    parseLoop none buf (fuel + gIters g) 0 0 (-1) [] =
      .ok ((gencode g).length, gtokens g 0) := by
  cases g with
  | gint neg ds =>
    have hdropB' : buf.drop 0 = 105 :: (signBytes neg ds ++ [101] ++ rest) := by
      rw [List.drop_zero, hbuf]
      simp [gencode, signBytes]
    have hpos : 0 < buf.length := lt_of_drop_cons hdropB'
    have hcg : buf.get ⟨0, hpos⟩ = 105 := get_of_drop hdropB' hpos
    have hfi := fwdIntRoot buf neg ds rest hwf hbuf
    have hfuel : fuel + gIters (GValue.gint neg ds) = fuel + 1 := rfl
    rw [hfuel, parseLoop, dif_pos hpos, if_pos hcg, hfi]
    dsimp only
    rw [if_pos (show (0 : Int) = 0 from rfl)]
  | gbytes lds content =>
    obtain ⟨l0, lds', hlds⟩ : ∃ l0 lds', lds = l0 :: lds' := by
      cases lds with
      | nil => exact absurd rfl hwf.1
      | cons a b => exact ⟨a, b, rfl⟩
    have hdropB' : buf.drop 0 = l0 :: (lds' ++ 58 :: content ++ rest) := by
      rw [List.drop_zero, hbuf]
      simp [gencode, hlds]
    have hpos : 0 < buf.length := lt_of_drop_cons hdropB'
    have hcg : buf.get ⟨0, hpos⟩ = l0 := get_of_drop hdropB' hpos
    have hdig : isDigitB l0 = true := hwf.2.1 l0 (by rw [hlds]; simp)
    have hbounds : 48 ≤ l0 ∧ l0 ≤ 57 := by
      rw [isDigitB, Bool.and_eq_true, decide_eq_true_eq, decide_eq_true_eq]
        at hdig
      exact hdig
    have hdig' : isDigitB l0 = true := hwf.2.1 l0 (by rw [hlds]; simp)
    have hfs := fwdStrRoot buf lds content rest hwf hbuf
    have hfuel : fuel + gIters (GValue.gbytes lds content) = fuel + 1 := rfl
    rw [hfuel, parseLoop, dif_pos hpos,
      if_neg (show ¬(buf.get ⟨0, hpos⟩ = 105) by rw [hcg]; omega),
      if_neg (show ¬(buf.get ⟨0, hpos⟩ = 108) by rw [hcg]; omega),
      if_neg (show ¬(buf.get ⟨0, hpos⟩ = 100) by rw [hcg]; omega),
      if_pos (show isDigitB (buf.get ⟨0, hpos⟩) = true by rw [hcg]; exact hdig'),
      hfs]
    dsimp only
    rw [if_pos (show (0 : Int) = 0 from rfl)]
  | glist items =>
    have hwfI : WfbItems items := hwf
    have hdropB' : buf.drop 0 = 108 :: (itemsBytes items ++ [101] ++ rest) := by
      rw [List.drop_zero, hbuf]
      simp [gencode]
    have hpos : 0 < buf.length := lt_of_drop_cons hdropB'
    have hcg : buf.get ⟨0, hpos⟩ = 108 := get_of_drop hdropB' hpos
    have hc0 : buf[0]? = some (if false then 100 else 108) := by
      simpa using getElem?_of_drop hdropB'
    have hinv1' := stepOpen_nil false none buf hc0 fwdOpenRootL
    have hinv1 : StInv buf 1 1 0 [⟨TokenKind.List, (0 : Int), -1, 0, 1⟩]
        [⟨false, 0, GItems.nil⟩] := hinv1'
    have hdrop1 : buf.drop 1 = itemsBytes items ++ (101 :: rest) := by
      have hd1 := drop_succ_of_drop hdropB'
      rw [hd1]
      simp
    have halt1 : (⟨false, 0, GItems.nil⟩ : Frame).isDict = true →
        altOk
          (decide (itemsLen (⟨false, 0, GItems.nil⟩ : Frame).blocks % 2 = 0))
          items := by
      intro h
      exact absurd (show false = true from h) (by decide)
    obtain ⟨heqI', hinv2'⟩ := runItems items hwfI (fuel + 1) buf 1 1 0
      [⟨TokenKind.List, (0 : Int), -1, 0, 1⟩] ⟨false, 0, GItems.nil⟩ []
      (101 :: rest) hinv1 hdrop1 halt1
    have heqI : parseLoop none buf (fuel + 1 + itemsIters items) 1 (0 + 1) 0
        [⟨TokenKind.List, (0 : Int), -1, 0, 1⟩] =
        parseLoop none buf (fuel + 1) (1 + (itemsBytes items).length) (0 + 1) 0
          (stackToks ((⟨false, 0, items⟩ : Frame) :: ([] : List Frame))) :=
      heqI'
    have hinv2 : StInv buf (1 + (itemsBytes items).length) 1 0
        (stackToks ((⟨false, 0, items⟩ : Frame) :: ([] : List Frame)))
        ((⟨false, 0, items⟩ : Frame) :: ([] : List Frame)) := hinv2'
    have hdrop3 : buf.drop (1 + (itemsBytes items).length) = 101 :: rest :=
      drop_add_of_drop hdrop1
    have hlt3 : 1 + (itemsBytes items).length < buf.length :=
      lt_of_drop_cons hdrop3
    have hcg3 : buf.get ⟨1 + (itemsBytes items).length, hlt3⟩ = 101 :=
      get_of_drop hdrop3 hlt3
    obtain ⟨pos3, sup3, toks3, hdc⟩ :=
      fwdClose (1 + (itemsBytes items).length) (⟨false, 0, items⟩ : Frame)
        ([] : List Frame)
    obtain ⟨hp3, ht3, hs3, harith⟩ := doClose_stack buf
      (1 + (itemsBytes items).length) 1 0
      (stackToks ((⟨false, 0, items⟩ : Frame) :: ([] : List Frame)))
      ⟨false, 0, items⟩ [] hinv2 hdc
    have ht3' : toks3 = gtokens (GValue.glist items) 0 := ht3.trans rfl
    have hp3' : pos3 = (gencode (GValue.glist items)).length := by
      rw [hp3]
      simp [gencode]
      omega
    have hfuel : fuel + gIters (GValue.glist items) =
        fuel + 1 + itemsIters items + 1 := by
      show fuel + (2 + itemsIters items) = fuel + 1 + itemsIters items + 1
      omega
    rw [hfuel, parseLoop, dif_pos hpos,
      if_neg (show ¬(buf.get ⟨0, hpos⟩ = 105) by rw [hcg]; omega),
      if_pos hcg, fwdOpenRootL]
    dsimp only
    rw [if_neg (show ¬((0 : Int) + 1 = 0) by omega)]
    rw [heqI]
    rw [parseLoop, dif_pos hlt3,
      if_neg (show ¬(buf.get ⟨1 + (itemsBytes items).length, hlt3⟩ = 105) by
        rw [hcg3]; omega),
      if_neg (show ¬(buf.get ⟨1 + (itemsBytes items).length, hlt3⟩ = 108) by
        rw [hcg3]; omega),
      if_neg (show ¬(buf.get ⟨1 + (itemsBytes items).length, hlt3⟩ = 100) by
        rw [hcg3]; omega),
      if_neg (show
        ¬(isDigitB (buf.get ⟨1 + (itemsBytes items).length, hlt3⟩) = true) by
        rw [hcg3]; decide),
      if_pos hcg3, hdc]
    dsimp only
    rw [if_pos (show (0 : Int) + 1 - 1 = 0 by omega)]
    rw [hp3', ht3']
  | gdict items =>
    obtain ⟨hwfI, haltI⟩ := hwf
    have hdropB' : buf.drop 0 = 100 :: (itemsBytes items ++ [101] ++ rest) := by
      rw [List.drop_zero, hbuf]
      simp [gencode]
    have hpos : 0 < buf.length := lt_of_drop_cons hdropB'
    have hcg : buf.get ⟨0, hpos⟩ = 100 := get_of_drop hdropB' hpos
    have hc0 : buf[0]? = some (if true then 100 else 108) := by
      simpa using getElem?_of_drop hdropB'
    have hinv1' := stepOpen_nil true none buf hc0 fwdOpenRootD
    have hinv1 : StInv buf 1 1 0 [⟨TokenKind.Dict, (0 : Int), -1, 0, 1⟩]
        [⟨true, 0, GItems.nil⟩] := hinv1'
    have hdrop1 : buf.drop 1 = itemsBytes items ++ (101 :: rest) := by
      have hd1 := drop_succ_of_drop hdropB'
      rw [hd1]
      simp
    have halt1 : (⟨true, 0, GItems.nil⟩ : Frame).isDict = true →
        altOk
          (decide (itemsLen (⟨true, 0, GItems.nil⟩ : Frame).blocks % 2 = 0))
          items := fun _ => haltI
    obtain ⟨heqI', hinv2'⟩ := runItems items hwfI (fuel + 1) buf 1 1 0
      [⟨TokenKind.Dict, (0 : Int), -1, 0, 1⟩] ⟨true, 0, GItems.nil⟩ []
      (101 :: rest) hinv1 hdrop1 halt1
    have heqI : parseLoop none buf (fuel + 1 + itemsIters items) 1 (0 + 1) 0
        [⟨TokenKind.Dict, (0 : Int), -1, 0, 1⟩] =
        parseLoop none buf (fuel + 1) (1 + (itemsBytes items).length) (0 + 1) 0
          (stackToks ((⟨true, 0, items⟩ : Frame) :: ([] : List Frame))) :=
      heqI'
    have hinv2 : StInv buf (1 + (itemsBytes items).length) 1 0
        (stackToks ((⟨true, 0, items⟩ : Frame) :: ([] : List Frame)))
        ((⟨true, 0, items⟩ : Frame) :: ([] : List Frame)) := hinv2'
    have hdrop3 : buf.drop (1 + (itemsBytes items).length) = 101 :: rest :=
      drop_add_of_drop hdrop1
    have hlt3 : 1 + (itemsBytes items).length < buf.length :=
      lt_of_drop_cons hdrop3
    have hcg3 : buf.get ⟨1 + (itemsBytes items).length, hlt3⟩ = 101 :=
      get_of_drop hdrop3 hlt3
    obtain ⟨pos3, sup3, toks3, hdc⟩ :=
      fwdClose (1 + (itemsBytes items).length) (⟨true, 0, items⟩ : Frame)
        ([] : List Frame)
    obtain ⟨hp3, ht3, hs3, harith⟩ := doClose_stack buf
      (1 + (itemsBytes items).length) 1 0
      (stackToks ((⟨true, 0, items⟩ : Frame) :: ([] : List Frame)))
      ⟨true, 0, items⟩ [] hinv2 hdc
    have ht3' : toks3 = gtokens (GValue.gdict items) 0 := ht3.trans rfl
    have hp3' : pos3 = (gencode (GValue.gdict items)).length := by
      rw [hp3]
      simp [gencode]
      omega
    have hfuel : fuel + gIters (GValue.gdict items) =
        fuel + 1 + itemsIters items + 1 := by
      show fuel + (2 + itemsIters items) = fuel + 1 + itemsIters items + 1
      omega
    rw [hfuel, parseLoop, dif_pos hpos,
      if_neg (show ¬(buf.get ⟨0, hpos⟩ = 105) by rw [hcg]; omega),
      if_neg (show ¬(buf.get ⟨0, hpos⟩ = 108) by rw [hcg]; omega),
      if_pos hcg, fwdOpenRootD]
    dsimp only
    rw [if_neg (show ¬((0 : Int) + 1 = 0) by omega)]
    rw [heqI]
    rw [parseLoop, dif_pos hlt3,
      if_neg (show ¬(buf.get ⟨1 + (itemsBytes items).length, hlt3⟩ = 105) by
        rw [hcg3]; omega),
      if_neg (show ¬(buf.get ⟨1 + (itemsBytes items).length, hlt3⟩ = 108) by
        rw [hcg3]; omega),
      if_neg (show ¬(buf.get ⟨1 + (itemsBytes items).length, hlt3⟩ = 100) by
        rw [hcg3]; omega),
      if_neg (show
        ¬(isDigitB (buf.get ⟨1 + (itemsBytes items).length, hlt3⟩) = true) by
        rw [hcg3]; decide),
      if_pos hcg3, hdc]
    dsimp only
    rw [if_pos (show (0 : Int) + 1 - 1 = 0 by omega)]
    rw [hp3', ht3']

/-- Completeness of `parse_prefix`: every well-formed, dangling-free value's
encoding, followed by anything, parses to exactly that value's token arena,
consuming exactly the encoding. -/
theorem parsePrefix_complete (g : GValue) (rest : List Nat) (hwf : Wfb g)
    (hclean : CleanG g) :
    parsePrefix none (gencode g ++ rest) =
      .ok (gtokens g 0, (gencode g).length) := by
  have hlen := gencode_length_pos g
  have hne : gencode g ++ rest ≠ [] := by
    intro h
    have h2 := congrArg List.length h
    simp only [List.length_append, List.length_nil] at h2
    omega
  rw [parsePrefix, if_neg (by simpa [List.isEmpty_iff] using hne)]
  obtain ⟨F, hF⟩ : ∃ F, (gencode g ++ rest).length + 1 = F + gIters g := by
    refine ⟨(gencode g ++ rest).length + 1 - gIters g, ?_⟩
    have h1 := gIters_le g
    have h2 : (gencode g ++ rest).length =
        (gencode g).length + rest.length := by simp
    omega
  rw [hF, rootRun g hwf F (gencode g ++ rest) rest rfl]
  dsimp only
  rw [if_neg ?hval]
  case hval =>
    intro hbad
    rw [List.any_eq_true] at hbad
    obtain ⟨t, ht, hb⟩ := hbad
    rw [tokenBad, Bool.or_eq_true, Bool.and_eq_true, Bool.and_eq_true] at hb
    rcases hb with ⟨h1, h2⟩ | ⟨h1, h2⟩
    · exact gtokens_closed g 0 t ht
        ⟨of_decide_eq_true h1, of_decide_eq_true h2⟩
    · exact (of_decide_eq_true h2)
        (gtokens_dict_even g 0 hclean t ht (of_decide_eq_true h1))

/-- Completeness of `parse`: every well-formed, dangling-free value's
encoding parses to exactly that value's token arena. -/
theorem parse_complete (g : GValue) (hwf : Wfb g) (hclean : CleanG g) :
    parse none (gencode g) = .ok (gtokens g 0) := by
  rw [parse]
  have hp := parsePrefix_complete g [] hwf hclean
  rw [List.append_nil] at hp
  rw [hp]
  dsimp only
  rw [if_pos rfl]

/-! ## Locating subvalues inside a parsed arena -/

theorem drop_add {α : Type} (l : List α) (a b : Nat) :
    l.drop (a + b) = (l.drop a).drop b := by
  rw [List.drop_drop, Nat.add_comm]

theorem dropCons {α : Type} {l : List α} {i : Nat} {x : α} {tl : List α}
    (h : l.drop i = x :: tl) : l.drop (i + 1) = tl := by
  have hdd : l.drop (i + 1) = (l.drop i).drop 1 := by
    rw [List.drop_drop, Nat.add_comm]
  rw [hdd, h]
  rfl

theorem dropChunk {α : Type} {l : List α} {i : Nat} {pre tl : List α}
    (h : l.drop i = pre ++ tl) : l.drop (i + pre.length) = tl := by
  have hdd : l.drop (i + pre.length) = (l.drop i).drop pre.length := by
    rw [List.drop_drop, Nat.add_comm]
  rw [hdd, h, List.drop_left]

theorem getElemQ_of_drop {α : Type} {l : List α} {i : Nat} {x : α}
    {tl : List α} (h : l.drop i = x :: tl) : l[i]? = some x := by
  have h2 : (l.drop i)[0]? = some x := by rw [h]; simp
  rw [List.getElem?_drop] at h2
  simpa using h2

/-- The token run of `g` (at byte offset `off`) sits in arena `A` at token
index `i`, and the bytes of `g` sit in `buf` at byte offset `off`. -/
def LocAt (buf : List Nat) (A : List Token) (i : Nat) (g : GValue)
    (off : Nat) : Prop :=
  A.drop i = gtokens g off ++ A.drop (i + gcount g) ∧
  buf.drop off = gencode g ++ buf.drop (off + (gencode g).length)

/-- Item-sequence version of `LocAt`. -/
def ItemsLoc (buf : List Nat) (A : List Token) (i : Nat) (its : GItems)
    (off : Nat) : Prop :=
  A.drop i = itemsTokens its off ++ A.drop (i + itemsCount its) ∧
  buf.drop off = itemsBytes its ++ buf.drop (off + (itemsBytes its).length)

/-- The root of a parsed buffer is a located subvalue. -/
theorem locAt_root (g : GValue) : LocAt (gencode g) (gtokens g 0) 0 g 0 := by
  constructor
  · rw [List.drop_zero, Nat.zero_add,
      show gcount g = (gtokens g 0).length from (gtokens_length g 0).symm,
      List.drop_length, List.append_nil]
  · rw [List.drop_zero, Nat.zero_add, List.drop_length, List.append_nil]

/-- The head token the tokenizer records for a value at offset `off`. -/
def headTok : GValue → Nat → Token
  | .gint neg ds, off =>
    ⟨.Int, ((off + 1 : Nat) : Int),
      ((off + 1 + (if neg then 1 else 0) + ds.length : Nat) : Int), 0, 1⟩
  | .gbytes lds content, off =>
    ⟨.ByteStr, ((off + lds.length + 1 : Nat) : Int),
      ((off + lds.length + 1 + content.length : Nat) : Int), 0, 1⟩
  | .glist items, off =>
    ⟨.List, (off : Int), ((off + (gencode (.glist items)).length : Nat) : Int),
      itemsLen items, 1 + itemsCount items⟩
  | .gdict items, off =>
    ⟨.Dict, (off : Int), ((off + (gencode (.gdict items)).length : Nat) : Int),
      itemsLen items, 1 + itemsCount items⟩

theorem gtokens_cons (g : GValue) (off : Nat) :
    gtokens g off =
      headTok g off ::
        (match g with
          | .gint _ _ => []
          | .gbytes _ _ => []
          | .glist items => itemsTokens items (off + 1)
          | .gdict items => itemsTokens items (off + 1)) := by
  cases g <;> rfl

theorem headTok_next (g : GValue) (off : Nat) :
    (headTok g off).next = gcount g := by
  cases g <;> simp [headTok, gcount]

theorem locAt_head {buf : List Nat} {A : List Token} {i : Nat} {g : GValue}
    {off : Nat} (h : LocAt buf A i g off) : A[i]? = some (headTok g off) := by
  have h1 := h.1
  rw [gtokens_cons] at h1
  exact getElemQ_of_drop (by rw [h1]; rfl)

/-- Inside a located list, the child sequence is located right after the
container token and its opening delimiter. -/
theorem locAt_items_list {buf : List Nat} {A : List Token} {i : Nat}
    {its : GItems} {off : Nat} (h : LocAt buf A i (.glist its) off) :
    ItemsLoc buf A (i + 1) its (off + 1) := by
  obtain ⟨h1, h2⟩ := h
  constructor
  · have h1' : A.drop i = headTok (.glist its) off ::
        (itemsTokens its (off + 1) ++ A.drop (i + gcount (.glist its))) := by
      rw [h1, gtokens_cons]
      rfl
    have h3 := dropCons h1'
    rw [h3]
    have hc : i + gcount (GValue.glist its) = i + 1 + itemsCount its := by
      simp [gcount]
      omega
    rw [← hc]
  · have h2' : buf.drop off = 108 ::
        (itemsBytes its ++
          (101 :: buf.drop (off + (gencode (.glist its)).length))) := by
      rw [h2]
      simp [gencode]
    have h3 := dropCons h2'
    have h6 : buf.drop (off + 1 + (itemsBytes its).length) =
        (buf.drop (off + 1)).drop (itemsBytes its).length :=
      drop_add buf (off + 1) (itemsBytes its).length
    have hside : buf.drop (off + 1 + (itemsBytes its).length) =
        101 :: buf.drop (off + (gencode (.glist its)).length) := by
      rw [h6, h3, List.drop_left]
    rw [h3, hside]

/-- Inside a located dict, the child sequence is located right after the
container token and its opening delimiter. -/
theorem locAt_items_dict {buf : List Nat} {A : List Token} {i : Nat}
    {its : GItems} {off : Nat} (h : LocAt buf A i (.gdict its) off) :
    ItemsLoc buf A (i + 1) its (off + 1) := by
  obtain ⟨h1, h2⟩ := h
  constructor
  · have h1' : A.drop i = headTok (.gdict its) off ::
        (itemsTokens its (off + 1) ++ A.drop (i + gcount (.gdict its))) := by
      rw [h1, gtokens_cons]
      rfl
    have h3 := dropCons h1'
    rw [h3]
    have hc : i + gcount (GValue.gdict its) = i + 1 + itemsCount its := by
      simp [gcount]
      omega
    rw [← hc]
  · have h2' : buf.drop off = 100 ::
        (itemsBytes its ++
          (101 :: buf.drop (off + (gencode (.gdict its)).length))) := by
      rw [h2]
      simp [gencode]
    have h3 := dropCons h2'
    have h6 : buf.drop (off + 1 + (itemsBytes its).length) =
        (buf.drop (off + 1)).drop (itemsBytes its).length :=
      drop_add buf (off + 1) (itemsBytes its).length
    have hside : buf.drop (off + 1 + (itemsBytes its).length) =
        101 :: buf.drop (off + (gencode (.gdict its)).length) := by
      rw [h6, h3, List.drop_left]
    rw [h3, hside]

/-- A located item sequence decomposes into a located head value and a
located tail. -/
theorem itemsLoc_cons {buf : List Nat} {A : List Token} {i : Nat}
    {g : GValue} {tl : GItems} {off : Nat}
    (h : ItemsLoc buf A i (.cons g tl) off) :
    LocAt buf A i g off ∧
      ItemsLoc buf A (i + gcount g) tl (off + (gencode g).length) := by
  obtain ⟨h1, h2⟩ := h
  have h1' : A.drop i = gtokens g off ++
      (itemsTokens tl (off + (gencode g).length) ++
        A.drop (i + itemsCount (.cons g tl))) := by
    rw [h1]
    simp [itemsTokens]
  have h2' : buf.drop off = gencode g ++
      (itemsBytes tl ++
        buf.drop (off + (itemsBytes (.cons g tl)).length)) := by
    rw [h2]
    simp [itemsBytes]
  have hA1 := dropChunk h1'
  rw [gtokens_length] at hA1
  have hB1 := dropChunk h2'
  have hidx : i + itemsCount (GItems.cons g tl) =
      i + gcount g + itemsCount tl := by
    simp only [itemsCount]
    omega
  have hidx2 : off + (itemsBytes (GItems.cons g tl)).length =
      off + (gencode g).length + (itemsBytes tl).length := by
    simp only [itemsBytes, List.length_append]
    omega
  refine ⟨⟨?_, ?_⟩, ?_, ?_⟩
  · rw [h1', hA1]
  · rw [h2', hB1]
  · rw [hA1, hidx]
  · rw [hB1, hidx2]

/-- First `k` children of a sequence. -/
def gitake : Nat → GItems → GItems
  | 0, _ => .nil
  | _ + 1, .nil => .nil
  | k + 1, .cons g tl => .cons g (gitake k tl)

/-- The `k`-th child of a sequence. -/
def gnth : GItems → Nat → Option GValue
  | .nil, _ => none
  | .cons g _, 0 => some g
  | .cons _ tl, k + 1 => gnth tl k

/-- Hopping `k` times by `next` from the start of a located child run lands
at the start of the `k`-th child's token run. -/
theorem advance_run : ∀ (k : Nat) (its : GItems), k ≤ itemsLen its →
    ∀ (buf : List Nat) (A : List Token) (i off : Nat),
    ItemsLoc buf A i its off →
    advanceIdx A i k = i + itemsCount (gitake k its)
  | 0, its, _, buf, A, i, off, h => by
    simp [advanceIdx, gitake, itemsCount]
  | k + 1, .nil, hk, _, _, _, _, _ => by simp [itemsLen] at hk
  | k + 1, .cons g tl, hk, buf, A, i, off, h => by
    obtain ⟨hg, htl⟩ := itemsLoc_cons h
    have hhead := locAt_head hg
    rw [advanceIdx, hhead]
    dsimp only
    rw [headTok_next]
    have hk' : k ≤ itemsLen tl := by
      simp only [itemsLen] at hk
      omega
    rw [advance_run k tl hk' buf A (i + gcount g) (off + (gencode g).length)
      htl]
    simp only [gitake, itemsCount]
    omega

/-- `List::len` on a located list is the number of children. -/
theorem locAt_list_len {buf : List Nat} {A : List Token} {i : Nat}
    {its : GItems} {off : Nat} (h : LocAt buf A i (.glist its) off) :
    BenList.len ⟨buf, A, i⟩ = itemsLen its := by
  rw [BenList.len]
  show (match A[i]? with
    | some t => t.children
    | none => 0) = _
  rw [locAt_head h]
  rfl

/-- `Dict::len` on a located dict is half the number of children. -/
theorem locAt_dict_len {buf : List Nat} {A : List Token} {i : Nat}
    {its : GItems} {off : Nat} (h : LocAt buf A i (.gdict its) off) :
    BenDict.len ⟨buf, A, i⟩ = itemsLen its / 2 := by
  rw [BenDict.len]
  show (match A[i]? with
    | some t => t.children / 2
    | none => 0) = _
  rw [locAt_head h]
  rfl

/-- `List::find_idx` on a located list: out-of-range gives `none`, in-range
hops to the `k`-th child's token index. -/
theorem locAt_find_idx {buf : List Nat} {A : List Token} {i : Nat}
    {its : GItems} {off : Nat} (h : LocAt buf A i (.glist its) off)
    (k : Nat) :
    BenList.find_idx ⟨buf, A, i⟩ k =
      if itemsLen its ≤ k then none
      else some (i + 1 + itemsCount (gitake k its)) := by
  rw [BenList.find_idx]
  show (match A[i]? with
    | none => none
    | some t =>
      if t.children ≤ k then none else some (advanceIdx A (i + 1) k)) = _
  rw [locAt_head h]
  dsimp only
  by_cases hk : itemsLen its ≤ k
  · rw [if_pos (show (headTok (.glist its) off).children ≤ k from hk),
      if_pos hk]
  · rw [if_neg (show ¬((headTok (.glist its) off).children ≤ k) from hk),
      if_neg hk,
      advance_run k its (by omega) buf A (i + 1) (off + 1)
        (locAt_items_list h)]

/-- `List::get` on a located list. -/
theorem locAt_get {buf : List Nat} {A : List Token} {i : Nat}
    {its : GItems} {off : Nat} (h : LocAt buf A i (.glist its) off)
    (k : Nat) :
    BenList.get ⟨buf, A, i⟩ k =
      if itemsLen its ≤ k then none
      else some ⟨buf, A, i + 1 + itemsCount (gitake k its)⟩ := by
  rw [BenList.get, locAt_find_idx h k]
  by_cases hk : itemsLen its ≤ k
  · rw [if_pos hk, if_pos hk]
    rfl
  · rw [if_neg hk, if_neg hk]
    rfl

/-- The `k`-th element of a list iterator over a located child run. -/
theorem iterNth_run : ∀ (k : Nat) (its : GItems) (buf : List Nat)
    (A : List Token) (i off pos : Nat),
    ItemsLoc buf A i its off →
    ListIter.nth ⟨buf, A, pos + itemsLen its, i, pos⟩ k =
      match gnth its k with
      | some _ => some ⟨buf, A, i + itemsCount (gitake k its)⟩
      | none => none
  | 0, .nil, buf, A, i, off, pos, h => by
    rw [ListIter.nth, ListIter.next]
    rw [if_pos (show pos + itemsLen GItems.nil ≤ pos by simp [itemsLen])]
    rfl
  | 0, .cons g tl, buf, A, i, off, pos, h => by
    rw [ListIter.nth, ListIter.next]
    rw [if_neg (show ¬(pos + itemsLen (GItems.cons g tl) ≤ pos) by
      simp [itemsLen])]
    rfl
  | k + 1, .nil, buf, A, i, off, pos, h => by
    rw [ListIter.nth, ListIter.next]
    rw [if_pos (show pos + itemsLen GItems.nil ≤ pos by simp [itemsLen])]
    rfl
  | k + 1, .cons g tl, buf, A, i, off, pos, h => by
    obtain ⟨hg, htl⟩ := itemsLoc_cons h
    have hhead := locAt_head hg
    rw [ListIter.nth, ListIter.next]
    rw [if_neg (show ¬(pos + itemsLen (GItems.cons g tl) ≤ pos) by
      simp [itemsLen])]
    dsimp only
    rw [hhead]
    dsimp only
    rw [headTok_next]
    have htot : pos + itemsLen (GItems.cons g tl) =
        (pos + 1) + itemsLen tl := by
      simp only [itemsLen]
      omega
    rw [htot]
    rw [iterNth_run k tl buf A (i + gcount g) (off + (gencode g).length)
      (pos + 1) htl]
    show (match gnth tl k with
      | some _ => some (⟨buf, A, i + gcount g + itemsCount (gitake k tl)⟩ : Node)
      | none => none) = _
    have hidx : i + gcount g + itemsCount (gitake k tl) =
        i + itemsCount (gitake (k + 1) (GItems.cons g tl)) := by
      simp only [gitake, itemsCount]
      omega
    rw [hidx]
    rfl

/-- The bytes the spec calls a token's payload: the sign and digits for an
`Int`, the content for a `ByteStr`, and the full encoding (both delimiters
included) for a container. -/
def payloadBytes : GValue → List Nat
  | .gint neg ds => signBytes neg ds
  | .gbytes _ content => content
  | .glist its => gencode (.glist its)
  | .gdict its => gencode (.gdict its)

/-- The byte slice a located token's `start`/`end` bounds select is exactly
its payload. -/
theorem locAt_slice {buf : List Nat} {A : List Token} {i : Nat} {g : GValue}
    {off : Nat} (h : LocAt buf A i g off) :
    sliceRange buf (headTok g off) = payloadBytes g := by
  have h2 := h.2
  cases g with
  | gint neg ds =>
    rw [sliceRange]
    show (buf.drop ((((off + 1 : Nat) : Int)).toNat)).take
      ((((off + 1 + (if neg then 1 else 0) + ds.length : Nat) : Int) -
        ((off + 1 : Nat) : Int)).toNat) = signBytes neg ds
    have hs : (((off + 1 : Nat) : Int)).toNat = off + 1 := by omega
    have hsl : (if neg then 1 else 0) + ds.length =
        (signBytes neg ds).length := by
      rw [signBytes_length]
      have : signLen neg = if neg then 1 else 0 := rfl
      omega
    have hc : ((((off + 1 + (if neg then 1 else 0) + ds.length : Nat) : Int)) -
        ((off + 1 : Nat) : Int)).toNat = (signBytes neg ds).length := by
      rw [← hsl]
      omega
    rw [hs, hc]
    have hd1 : buf.drop off = 105 ::
        (signBytes neg ds ++
          (101 :: buf.drop (off + (gencode (.gint neg ds)).length))) := by
      rw [h2]
      simp [gencode, signBytes]
    have hd2 := dropCons hd1
    rw [hd2]
    rw [show signBytes neg ds ++
        (101 :: buf.drop (off + (gencode (.gint neg ds)).length)) =
        signBytes neg ds ++
          (101 :: buf.drop (off + (gencode (.gint neg ds)).length)) ++ []
      by simp]
    rw [List.append_assoc, List.take_left]
  | gbytes lds content =>
    rw [sliceRange]
    show (buf.drop ((((off + lds.length + 1 : Nat) : Int)).toNat)).take
      ((((off + lds.length + 1 + content.length : Nat) : Int) -
        ((off + lds.length + 1 : Nat) : Int)).toNat) = content
    have hs : (((off + lds.length + 1 : Nat) : Int)).toNat =
        off + lds.length + 1 := by omega
    have hc : ((((off + lds.length + 1 + content.length : Nat) : Int)) -
        ((off + lds.length + 1 : Nat) : Int)).toNat = content.length := by
      omega
    rw [hs, hc]
    have hd1 : buf.drop off = lds ++
        (58 :: (content ++
          buf.drop (off + (gencode (.gbytes lds content)).length))) := by
      rw [h2]
      simp [gencode]
    have hd2 := dropChunk hd1
    have hd3 := dropCons hd2
    have hd4 : buf.drop (off + lds.length + 1) =
        content ++ buf.drop (off + (gencode (.gbytes lds content)).length) := by
      rw [show off + lds.length + 1 = off + lds.length + 1 from rfl]
      exact hd3
    rw [hd4, List.take_left]
  | glist its =>
    rw [sliceRange]
    show (buf.drop (((off : Nat) : Int)).toNat).take
      ((((off + (gencode (.glist its)).length : Nat) : Int) -
        ((off : Nat) : Int)).toNat) = gencode (.glist its)
    have hs : (((off : Nat) : Int)).toNat = off := by omega
    have hc : ((((off + (gencode (.glist its)).length : Nat) : Int)) -
        ((off : Nat) : Int)).toNat = (gencode (.glist its)).length := by
      omega
    rw [hs, hc, h2, List.take_left]
  | gdict its =>
    rw [sliceRange]
    show (buf.drop (((off : Nat) : Int)).toNat).take
      ((((off + (gencode (.gdict its)).length : Nat) : Int) -
        ((off : Nat) : Int)).toNat) = gencode (.gdict its)
    have hs : (((off : Nat) : Int)).toNat = off := by omega
    have hc : ((((off + (gencode (.gdict its)).length : Nat) : Int)) -
        ((off : Nat) : Int)).toNat = (gencode (.gdict its)).length := by
      omega
    rw [hs, hc, h2, List.take_left]

theorem bindPureInt (l : List Nat) :
    (do let x ← l; pure ((x : Nat) : Int)) = l.map (fun x => ((x : Nat) : Int)) := by
  show l.flatMap _ = _
  induction l with
  | nil => rfl
  | cons c tl ih =>
    rw [List.flatMap_cons, ih, List.map_cons]
    rfl

theorem foldDigits : ∀ (ds : List Nat) (a : Int) (b : Bool),
    (∀ c ∈ ds, isDigitB c = true) →
    List.foldl
      (fun (p : Int × Bool) (c : Int) =>
        if c = 45 then (p.1, true) else (p.1 * 10 + (c - 48), p.2))
      (a, b) (ds.map (fun x => ((x : Nat) : Int))) = (dvFrom a ds, b)
  | [], a, b, _ => rfl
  | c :: tl, a, b, hds => by
    have hc : isDigitB c = true := hds c (by simp)
    have hb2 : 48 ≤ c ∧ c ≤ 57 := by
      rw [isDigitB, Bool.and_eq_true, decide_eq_true_eq, decide_eq_true_eq]
        at hc
      exact hc
    rw [List.map_cons, List.foldl_cons, if_neg (by omega)]
    rw [dvFrom_cons]
    exact foldDigits tl _ b fun d hd => hds d (by simp [hd])

/-- `Node::as_int` on a located integer literal recovers its signed value. -/
theorem locAt_as_int {buf : List Nat} {A : List Token} {i : Nat} {neg : Bool}
    {ds : List Nat} {off : Nat} (h : LocAt buf A i (.gint neg ds) off)
    (hds : ∀ c ∈ ds, isDigitB c = true) :
    Node.as_int ⟨buf, A, i⟩ = some (signedVal neg ds) := by
  rw [Node.as_int]
  show (match A[i]? with
    | none => none
    | some t =>
      if t.kind = TokenKind.Int then
        let r := List.foldl
          (fun (p : Int × Bool) (c : Int) =>
            if c = 45 then (p.1, true) else (p.1 * 10 + (c - 48), p.2))
          (0, false) (do let x ← sliceRange buf t; pure ((x : Nat) : Int))
        some (if r.2 then -r.1 else r.1)
      else none) = _
  rw [locAt_head h]
  dsimp only
  rw [if_pos (show (headTok (GValue.gint neg ds) off).kind = TokenKind.Int
    from rfl)]
  rw [locAt_slice h, bindPureInt]
  simp only [payloadBytes]
  cases neg with
  | false =>
    rw [show signBytes false ds = ds from rfl, foldDigits ds 0 false hds]
    rfl
  | true =>
    rw [show signBytes true ds = 45 :: ds from rfl, List.map_cons,
      List.foldl_cons,
      if_pos (show ((45 : Nat) : Int) = 45 from rfl),
      foldDigits ds 0 true hds]
    rfl

/-- `Node::as_bytes` on a located byte string recovers its content. -/
theorem locAt_as_bytes {buf : List Nat} {A : List Token} {i : Nat}
    {lds content : List Nat} {off : Nat}
    (h : LocAt buf A i (.gbytes lds content) off) :
    Node.as_bytes ⟨buf, A, i⟩ = some content := by
  rw [Node.as_bytes]
  show (match A[i]? with
    | none => none
    | some t =>
      if t.kind = TokenKind.ByteStr then some (sliceRange buf t)
      else none) = _
  rw [locAt_head h]
  dsimp only
  rw [if_pos (show (headTok (GValue.gbytes lds content) off).kind =
    TokenKind.ByteStr from rfl)]
  rw [locAt_slice h]
  rfl

/-- `Node::as_raw_bytes` on any located subvalue. -/
theorem locAt_as_raw_bytes {buf : List Nat} {A : List Token} {i : Nat}
    {g : GValue} {off : Nat} (h : LocAt buf A i g off) :
    Node.as_raw_bytes ⟨buf, A, i⟩ = payloadBytes g := by
  rw [Node.as_raw_bytes]
  show (match A[i]? with
    | some t => sliceRange buf t
    | none => []) = _
  rw [locAt_head h]
  dsimp only
  exact locAt_slice h

/-- `Node::kind` on a located subvalue. -/
theorem locAt_kind {buf : List Nat} {A : List Token} {i : Nat} {g : GValue}
    {off : Nat} (h : LocAt buf A i g off) :
    Node.kind? ⟨buf, A, i⟩ = some (headTok g off).kind := by
  rw [Node.kind?]
  show (A[i]?).map Token.kind = _
  rw [locAt_head h]
  rfl

theorem gitake_full : ∀ (its : GItems), gitake (itemsLen its) its = its
  | .nil => rfl
  | .cons g tl => by
    show gitake (1 + itemsLen tl) (.cons g tl) = _
    rw [Nat.add_comm]
    show GItems.cons g (gitake (itemsLen tl) tl) = _
    rw [gitake_full tl]

theorem gnth_isSome_iff : ∀ (its : GItems) (k : Nat),
    (gnth its k).isSome = true ↔ k < itemsLen its
  | .nil, k => by simp [gnth, itemsLen]
  | .cons g tl, 0 => by simp [gnth, itemsLen]
  | .cons g tl, k + 1 => by
    rw [show gnth (.cons g tl) (k + 1) = gnth tl k from rfl,
      gnth_isSome_iff tl k]
    simp [itemsLen]
    omega

mutual
/-- Every token slot inside a located value is itself the start of a located
subvalue. -/
theorem index_loc : ∀ (g : GValue) (buf : List Nat) (A : List Token)
    (i off : Nat), LocAt buf A i g off →
    ∀ j, j < gcount g → ∃ h o, LocAt buf A (i + j) h o
  | .gint neg ds, buf, A, i, off, hl, j, hj => by
    have hj0 : j = 0 := by
      simp only [gcount] at hj
      omega
    subst hj0
    exact ⟨.gint neg ds, off, hl⟩
  | .gbytes lds content, buf, A, i, off, hl, j, hj => by
    have hj0 : j = 0 := by
      simp only [gcount] at hj
      omega
    subst hj0
    exact ⟨.gbytes lds content, off, hl⟩
  | .glist its, buf, A, i, off, hl, j, hj => by
    cases j with
    | zero => exact ⟨.glist its, off, hl⟩
    | succ j' =>
      have hj' : j' < itemsCount its := by
        simp only [gcount] at hj
        omega
      obtain ⟨h, o, hlo⟩ := items_index_loc its buf A (i + 1) (off + 1)
        (locAt_items_list hl) j' hj'
      refine ⟨h, o, ?_⟩
      rw [show i + (j' + 1) = i + 1 + j' by omega]
      exact hlo
  | .gdict its, buf, A, i, off, hl, j, hj => by
    cases j with
    | zero => exact ⟨.gdict its, off, hl⟩
    | succ j' =>
      have hj' : j' < itemsCount its := by
        simp only [gcount] at hj
        omega
      obtain ⟨h, o, hlo⟩ := items_index_loc its buf A (i + 1) (off + 1)
        (locAt_items_dict hl) j' hj'
      refine ⟨h, o, ?_⟩
      rw [show i + (j' + 1) = i + 1 + j' by omega]
      exact hlo
theorem items_index_loc : ∀ (its : GItems) (buf : List Nat) (A : List Token)
    (i off : Nat), ItemsLoc buf A i its off →
    ∀ j, j < itemsCount its → ∃ h o, LocAt buf A (i + j) h o
  | .nil, buf, A, i, off, hl, j, hj => by
    simp [itemsCount] at hj
  | .cons g tl, buf, A, i, off, hl, j, hj => by
    obtain ⟨hg, htl⟩ := itemsLoc_cons hl
    by_cases hjg : j < gcount g
    · exact index_loc g buf A i off hg j hjg
    · have hj' : j - gcount g < itemsCount tl := by
        simp only [itemsCount] at hj
        omega
      obtain ⟨h, o, hlo⟩ := items_index_loc tl buf A (i + gcount g)
        (off + (gencode g).length) htl (j - gcount g) hj'
      refine ⟨h, o, ?_⟩
      rw [show i + j = i + gcount g + (j - gcount g) by omega]
      exact hlo
end

/-- The closing delimiter of a located list: the byte right before the
container token's `end` is `e`, right after the children's bytes. -/
theorem locAt_list_close {buf : List Nat} {A : List Token} {i : Nat}
    {its : GItems} {off : Nat} (h : LocAt buf A i (.glist its) off) :
    buf[off + 1 + (itemsBytes its).length]? = some 101 ∧
    off + 1 + (itemsBytes its).length =
      (headTok (.glist its) off).«end».toNat - 1 := by
  have h2 := h.2
  have h2' : buf.drop off = 108 ::
      (itemsBytes its ++
        (101 :: buf.drop (off + (gencode (.glist its)).length))) := by
    rw [h2]
    simp [gencode]
  have h3 := dropCons h2'
  have hside : buf.drop (off + 1 + (itemsBytes its).length) =
      101 :: buf.drop (off + (gencode (.glist its)).length) := by
    rw [drop_add buf (off + 1) (itemsBytes its).length, h3, List.drop_left]
  refine ⟨getElemQ_of_drop hside, ?_⟩
  show _ = (((off + (gencode (.glist its)).length : Nat) : Int)).toNat - 1
  have hL : (gencode (GValue.glist its)).length =
      (itemsBytes its).length + 2 := by
    simp [gencode]
  omega

/-- The closing delimiter of a located dict. -/
theorem locAt_dict_close {buf : List Nat} {A : List Token} {i : Nat}
    {its : GItems} {off : Nat} (h : LocAt buf A i (.gdict its) off) :
    buf[off + 1 + (itemsBytes its).length]? = some 101 ∧
    off + 1 + (itemsBytes its).length =
      (headTok (.gdict its) off).«end».toNat - 1 := by
  have h2 := h.2
  have h2' : buf.drop off = 100 ::
      (itemsBytes its ++
        (101 :: buf.drop (off + (gencode (.gdict its)).length))) := by
    rw [h2]
    simp [gencode]
  have h3 := dropCons h2'
  have hside : buf.drop (off + 1 + (itemsBytes its).length) =
      101 :: buf.drop (off + (gencode (.gdict its)).length) := by
    rw [drop_add buf (off + 1) (itemsBytes its).length, h3, List.drop_left]
  refine ⟨getElemQ_of_drop hside, ?_⟩
  show _ = (((off + (gencode (.gdict its)).length : Nat) : Int)).toNat - 1
  have hL : (gencode (GValue.gdict its)).length =
      (itemsBytes its).length + 2 := by
    simp [gencode]
  omega

/-! ## Encoder-to-grammar correspondence -/

theorem dvFrom_append (a : Int) (xs ys : List Nat) :
    dvFrom a (xs ++ ys) = dvFrom (dvFrom a xs) ys := by
  rw [dvFrom, dvFrom, dvFrom]
  show List.foldl _ a ((xs ++ ys).flatMap _) = _
  rw [List.flatMap_append, List.foldl_append]
  rfl

theorem lt_ten_pow (n : Nat) : n < 10 ^ (n + 1) := by
  induction n with
  | zero => simp
  | succ k ih =>
    have hp : 10 ^ (k + 1 + 1) = 10 * 10 ^ (k + 1) := by
      rw [pow_succ]
      ring
    omega

theorem itoaAux_spec : ∀ (fuel n : Nat), n < 10 ^ fuel → 1 ≤ fuel →
    (∀ c ∈ itoaAux fuel n, isDigitB c = true) ∧
    itoaAux fuel n ≠ [] ∧
    digitsVal (itoaAux fuel n) = (n : Int)
  | 0, n, _, hf => by omega
  | fuel + 1, n, hn, _ => by
    rw [itoaAux]
    by_cases h10 : n < 10
    · rw [if_pos h10]
      refine ⟨?_, by simp, ?_⟩
      · intro c hc
        simp at hc
        rw [hc, isDigitB, Bool.and_eq_true, decide_eq_true_eq,
          decide_eq_true_eq]
        omega
      · rw [digitsVal_eq_dvFrom, dvFrom_cons, dvFrom_nil]
        push_cast
        omega
    · rw [if_neg h10]
      have hdiv : n / 10 < 10 ^ fuel := by
        rw [Nat.div_lt_iff_lt_mul (by omega)]
        calc n < 10 ^ (fuel + 1) := hn
          _ = 10 ^ fuel * 10 := by rw [pow_succ]
      have hf1 : 1 ≤ fuel := by
        by_contra hf0
        have hfz : fuel = 0 := by omega
        rw [hfz] at hn
        simp at hn
        omega
      obtain ⟨hd, hne, hv⟩ := itoaAux_spec fuel (n / 10) hdiv hf1
      refine ⟨?_, by simp, ?_⟩
      · intro c hc
        rw [List.mem_append] at hc
        rcases hc with hc | hc
        · exact hd c hc
        · simp at hc
          rw [hc, isDigitB, Bool.and_eq_true, decide_eq_true_eq,
            decide_eq_true_eq]
          have := Nat.mod_lt n (show 0 < 10 by omega)
          omega
      · rw [digitsVal_eq_dvFrom, dvFrom_append, ← digitsVal_eq_dvFrom, hv,
          dvFrom_cons, dvFrom_nil]
        have hmod : n % 10 + 10 * (n / 10) = n := Nat.mod_add_div n 10
        push_cast
        omega

theorem itoaN_spec (n : Nat) :
    (∀ c ∈ itoaN n, isDigitB c = true) ∧ itoaN n ≠ [] ∧
    digitsVal (itoaN n) = (n : Int) := by
  rw [itoaN]
  exact itoaAux_spec (n + 1) n (lt_ten_pow n) (by omega)

mutual
/-- The grammar value a `Value` encodes as. -/
def toG : Value → GValue
  | .vint i => .gint (decide (i < 0)) (itoaN i.natAbs)
  | .vbytes s => .gbytes (itoaN s.length) s
  | .vlist items => .glist (toGItems items)
  | .vdict entries => .gdict (toGEntries entries)
def toGItems : ValueItems → GItems
  | .nil => .nil
  | .cons v tl => .cons (toG v) (toGItems tl)
def toGEntries : ValueEntries → GItems
  | .nil => .nil
  | .cons key v tl =>
    .cons (.gbytes (itoaN key.length) key) (.cons (toG v) (toGEntries tl))
end

mutual
theorem encode_toG : ∀ v : Value, encodeValue v = gencode (toG v)
  | .vint i => by
    rw [encodeValue, toG]
    show 105 :: itoaI i ++ [101] = 105 ::
      (if decide (i < 0) then 45 :: itoaN i.natAbs else itoaN i.natAbs) ++ [101]
    rw [itoaI]
    by_cases hi : i < 0
    · rw [if_pos hi, if_pos (by simpa using hi),
        show (-i).toNat = i.natAbs by omega]
    · rw [if_neg hi, if_neg (by simpa using hi),
        show i.toNat = i.natAbs by omega]
  | .vbytes s => by
    rw [encodeValue, toG]
    rfl
  | .vlist items => by
    rw [encodeValue, toG]
    show 108 :: encodeItems items ++ [101] = _
    rw [encodeItems_toG items]
    rfl
  | .vdict entries => by
    rw [encodeValue, toG]
    show 100 :: encodeEntries entries ++ [101] = _
    rw [encodeEntries_toG entries]
    rfl
theorem encodeItems_toG : ∀ its : ValueItems,
    encodeItems its = itemsBytes (toGItems its)
  | .nil => rfl
  | .cons v tl => by
    rw [encodeItems, toGItems]
    show encodeValue v ++ encodeItems tl = _
    rw [encode_toG v, encodeItems_toG tl]
    rfl
theorem encodeEntries_toG : ∀ es : ValueEntries,
    encodeEntries es = itemsBytes (toGEntries es)
  | .nil => rfl
  | .cons key v tl => by
    rw [encodeEntries, toGEntries]
    show itoaN key.length ++ 58 :: key ++ encodeValue v ++ encodeEntries tl = _
    rw [encode_toG v, encodeEntries_toG tl]
    show _ = gencode (.gbytes (itoaN key.length) key) ++
      (gencode (toG v) ++ itemsBytes (toGEntries tl))
    rw [show gencode (.gbytes (itoaN key.length) key) =
      itoaN key.length ++ 58 :: key from rfl]
    simp
end

mutual
/-- Side conditions under which a value tree round-trips: every integer fits
`i64` (note `i64::MIN` itself does not survive the magnitude-based overflow
check), and every byte-string length fits `i64`. -/
def valueOkB : Value → Bool
  | .vint i => decide (-i64Max ≤ i) && decide (i ≤ i64Max)
  | .vbytes s => decide ((s.length : Int) ≤ i64Max)
  | .vlist items => itemsOkB items
  | .vdict entries => entriesOkB entries
def itemsOkB : ValueItems → Bool
  | .nil => true
  | .cons v tl => valueOkB v && itemsOkB tl
def entriesOkB : ValueEntries → Bool
  | .nil => true
  | .cons key v tl =>
    decide ((key.length : Int) ≤ i64Max) && valueOkB v && entriesOkB tl
end

theorem altOk_toGEntries : ∀ es : ValueEntries, altOk true (toGEntries es)
  | .nil => trivial
  | .cons key v tl => by
    show (true = true → isGBytes (.gbytes (itoaN key.length) key) = true) ∧
      (false = true → isGBytes (toG v) = true) ∧ altOk true (toGEntries tl)
    exact ⟨fun _ => rfl, fun h => Bool.noConfusion h, altOk_toGEntries tl⟩

mutual
theorem Wfb_toG : ∀ v : Value, valueOkB v = true → Wfb (toG v)
  | .vint i, h => by
    rw [valueOkB, Bool.and_eq_true, decide_eq_true_eq, decide_eq_true_eq] at h
    obtain ⟨hds, hne, hv⟩ := itoaN_spec i.natAbs
    refine ⟨hds, ?_⟩
    rw [hv]
    omega
  | .vbytes s, h => by
    rw [valueOkB, decide_eq_true_eq] at h
    obtain ⟨hds, hne, hv⟩ := itoaN_spec s.length
    exact ⟨hne, hds, hv, h⟩
  | .vlist items, h => WfbItems_toG items h
  | .vdict entries, h => ⟨WfbEntries_toG entries h, altOk_toGEntries entries⟩
theorem WfbItems_toG : ∀ its : ValueItems, itemsOkB its = true →
    WfbItems (toGItems its)
  | .nil, _ => trivial
  | .cons v tl, h => by
    rw [itemsOkB, Bool.and_eq_true] at h
    exact ⟨Wfb_toG v h.1, WfbItems_toG tl h.2⟩
theorem WfbEntries_toG : ∀ es : ValueEntries, entriesOkB es = true →
    WfbItems (toGEntries es)
  | .nil, _ => trivial
  | .cons key v tl, h => by
    rw [entriesOkB, Bool.and_eq_true, Bool.and_eq_true, decide_eq_true_eq] at h
    obtain ⟨⟨hk, hv⟩, htl⟩ := h
    obtain ⟨hds, hne, hval⟩ := itoaN_spec key.length
    exact ⟨⟨hne, hds, hval, hk⟩, Wfb_toG v hv, WfbEntries_toG tl htl⟩
end

/-- Number of list entries of a value sequence. -/
def itemsLenV : ValueItems → Nat
  | .nil => 0
  | .cons _ tl => 1 + itemsLenV tl

/-- Number of dict entries of an entry sequence. -/
def entriesLen : ValueEntries → Nat
  | .nil => 0
  | .cons _ _ tl => 1 + entriesLen tl

theorem itemsLen_toGItems : ∀ its : ValueItems,
    itemsLen (toGItems its) = itemsLenV its
  | .nil => rfl
  | .cons v tl => by
    show 1 + itemsLen (toGItems tl) = 1 + itemsLenV tl
    rw [itemsLen_toGItems tl]

theorem itemsLen_toGEntries : ∀ es : ValueEntries,
    itemsLen (toGEntries es) = 2 * entriesLen es
  | .nil => rfl
  | .cons key v tl => by
    show 1 + (1 + itemsLen (toGEntries tl)) = 2 * (1 + entriesLen tl)
    rw [itemsLen_toGEntries tl]
    omega

mutual
theorem CleanG_toG : ∀ v : Value, CleanG (toG v)
  | .vint _ => trivial
  | .vbytes _ => trivial
  | .vlist items => CleanItems_toGItems items
  | .vdict entries => by
    refine ⟨CleanEntries_toGEntries entries, ?_⟩
    rw [itemsLen_toGEntries]
    omega
theorem CleanItems_toGItems : ∀ its : ValueItems, CleanItems (toGItems its)
  | .nil => trivial
  | .cons v tl => ⟨CleanG_toG v, CleanItems_toGItems tl⟩
theorem CleanEntries_toGEntries : ∀ es : ValueEntries,
    CleanItems (toGEntries es)
  | .nil => trivial
  | .cons key v tl => ⟨trivial, CleanG_toG v, CleanEntries_toGEntries tl⟩
end

mutual
/-- Agreement between a value tree and the tree view rooted at token slot
`i`: same kinds, same payload bytes (`as_int`/`as_bytes`), same child counts
(`len`), children in document order at consecutive token runs. -/
def agreeVal (buf : List Nat) (A : List Token) : Nat → Value → Prop
  | i, .vint x => Node.as_int ⟨buf, A, i⟩ = some x
  | i, .vbytes s => Node.as_bytes ⟨buf, A, i⟩ = some s
  | i, .vlist items =>
    Node.is_list ⟨buf, A, i⟩ = true ∧
    BenList.len ⟨buf, A, i⟩ = itemsLenV items ∧
    agreeItems buf A (i + 1) items
  | i, .vdict entries =>
    Node.is_dict ⟨buf, A, i⟩ = true ∧
    BenDict.len ⟨buf, A, i⟩ = entriesLen entries ∧
    agreeEntries buf A (i + 1) entries
def agreeItems (buf : List Nat) (A : List Token) : Nat → ValueItems → Prop
  | _, .nil => True
  | i, .cons v tl =>
    agreeVal buf A i v ∧ agreeItems buf A (i + gcount (toG v)) tl
def agreeEntries (buf : List Nat) (A : List Token) : Nat → ValueEntries → Prop
  | _, .nil => True
  | i, .cons key v tl =>
    Node.as_bytes ⟨buf, A, i⟩ = some key ∧ agreeVal buf A (i + 1) v ∧
    agreeEntries buf A (i + 1 + gcount (toG v)) tl
end

mutual
theorem agree_of_loc : ∀ (v : Value) (buf : List Nat) (A : List Token)
    (i off : Nat), valueOkB v = true → LocAt buf A i (toG v) off →
    agreeVal buf A i v
  | .vint x, buf, A, i, off, hok, hl => by
    show Node.as_int ⟨buf, A, i⟩ = some x
    obtain ⟨hds, hne, hv⟩ := itoaN_spec x.natAbs
    rw [locAt_as_int hl hds]
    congr 1
    rw [signedVal]
    by_cases hx : x < 0
    · rw [if_pos (by simpa using hx), hv]
      omega
    · rw [if_neg (by simpa using hx), hv]
      omega
  | .vbytes s, buf, A, i, off, hok, hl => by
    show Node.as_bytes ⟨buf, A, i⟩ = some s
    exact locAt_as_bytes hl
  | .vlist items, buf, A, i, off, hok, hl => by
    refine ⟨?_, ?_, ?_⟩
    · show Node.is_list ⟨buf, A, i⟩ = true
      rw [Node.is_list, locAt_kind hl]
      rfl
    · show BenList.len ⟨buf, A, i⟩ = itemsLenV items
      rw [locAt_list_len hl, itemsLen_toGItems]
    · exact agreeItems_of_loc items buf A (i + 1) (off + 1) hok
        (locAt_items_list hl)
  | .vdict entries, buf, A, i, off, hok, hl => by
    refine ⟨?_, ?_, ?_⟩
    · show Node.is_dict ⟨buf, A, i⟩ = true
      rw [Node.is_dict, locAt_kind hl]
      rfl
    · show BenDict.len ⟨buf, A, i⟩ = entriesLen entries
      rw [locAt_dict_len hl, itemsLen_toGEntries]
      omega
    · exact agreeEntries_of_loc entries buf A (i + 1) (off + 1) hok
        (locAt_items_dict hl)
theorem agreeItems_of_loc : ∀ (its : ValueItems) (buf : List Nat)
    (A : List Token) (i off : Nat), itemsOkB its = true →
    ItemsLoc buf A i (toGItems its) off → agreeItems buf A i its
  | .nil, _, _, _, _, _, _ => trivial
  | .cons v tl, buf, A, i, off, hok, hl => by
    rw [itemsOkB, Bool.and_eq_true] at hok
    have hl' : ItemsLoc buf A i (.cons (toG v) (toGItems tl)) off := hl
    obtain ⟨hv, htl⟩ := itemsLoc_cons hl'
    exact ⟨agree_of_loc v buf A i off hok.1 hv,
      agreeItems_of_loc tl buf A (i + gcount (toG v))
        (off + (gencode (toG v)).length) hok.2 htl⟩
theorem agreeEntries_of_loc : ∀ (es : ValueEntries) (buf : List Nat)
    (A : List Token) (i off : Nat), entriesOkB es = true →
    ItemsLoc buf A i (toGEntries es) off → agreeEntries buf A i es
  | .nil, _, _, _, _, _, _ => trivial
  | .cons key v tl, buf, A, i, off, hok, hl => by
    rw [entriesOkB, Bool.and_eq_true, Bool.and_eq_true] at hok
    obtain ⟨⟨hk, hv⟩, htl⟩ := hok
    have hl' : ItemsLoc buf A i
        (.cons (.gbytes (itoaN key.length) key)
          (.cons (toG v) (toGEntries tl))) off := hl
    obtain ⟨hkey, hrest⟩ := itemsLoc_cons hl'
    obtain ⟨hval, htail⟩ := itemsLoc_cons hrest
    refine ⟨locAt_as_bytes hkey, ?_, ?_⟩
    · exact agree_of_loc v buf A (i + 1)
        (off + (gencode (.gbytes (itoaN key.length) key)).length) hv hval
    · exact agreeEntries_of_loc tl buf A (i + 1 + gcount (toG v))
        (off + (gencode (.gbytes (itoaN key.length) key)).length +
          (gencode (toG v)).length) htl htail
end

/-- The encode/parse round trip for every admissible value tree: parsing the
encoded bytes succeeds, yields exactly the canonical token arena, and the
resulting tree view agrees with the original value. -/
theorem roundtrip (v : Value) (hok : valueOkB v = true) :
    parse none (encodeValue v) = .ok (gtokens (toG v) 0) ∧
    agreeVal (encodeValue v) (gtokens (toG v) 0) 0 v := by
  have he := encode_toG v
  constructor
  · rw [he]
    exact parse_complete (toG v) (Wfb_toG v hok) (CleanG_toG v)
  · rw [he]
    exact agree_of_loc v (gencode (toG v)) (gtokens (toG v) 0) 0 0 hok
      (locAt_root (toG v))

/-- An integer literal whose digit string exceeds `i64::MAX` in magnitude
makes the whole parse fail with `Overflow` at the literal's digits (byte
offset 1 for a literal at the buffer start). -/
theorem parse_int_overflow (neg : Bool) (ds rest : List Nat)
    (hds : ∀ c ∈ ds, isDigitB c = true) (hgt : digitsVal ds > i64Max) :
    parse none (105 :: (signBytes neg ds ++ rest)) = .error (.Overflow 1) := by
  set buf := 105 :: (signBytes neg ds ++ rest) with hbuf
  have hdoInt : doInt none buf 0 (-1) [] = .error (.Overflow 1) := by
    rw [doInt, updateSuper_neg _ _ _ _ (by omega)]
    dsimp only
    simp only [Nat.zero_add]
    have hPI := parseInt_overflow [105] neg ds 101 rest hds hgt
    rw [show ([105] : List Nat).length = 1 from rfl] at hPI
    rw [show ([105] : List Nat) ++ signBytes neg ds ++ rest =
      105 :: (signBytes neg ds ++ rest) from by simp] at hPI
    rw [hPI]
  have hpos : 0 < buf.length := by simp [hbuf]
  have hcg : buf.get ⟨0, hpos⟩ = 105 := rfl
  rw [parse, parsePrefix, if_neg (by simp [hbuf])]
  rw [show buf.length + 1 = buf.length + 1 from rfl, parseLoop,
    dif_pos hpos, if_pos hcg, hdoInt]

instance {e a : Type} [DecidableEq e] [DecidableEq a] :
    DecidableEq (Except e a)
  | .error x, .error y =>
    if h : x = y then .isTrue (by rw [h])
    else .isFalse (by intro hc; cases hc; exact h rfl)
  | .error _, .ok _ => .isFalse (by intro hc; cases hc)
  | .ok _, .error _ => .isFalse (by intro hc; cases hc)
  | .ok x, .ok y =>
    if h : x = y then .isTrue (by rw [h])
    else .isFalse (by intro hc; cases hc; exact h rfl)

theorem headTok_le (g : GValue) (off : Nat) :
    (headTok g off).start ≤ (headTok g off).«end» := by
  cases g <;> simp [headTok] <;> push_cast <;> omega

/-- The `k`-th child of a located child sequence is itself located, right
after the first `k` children. -/
theorem itemsLoc_nth : ∀ (its : GItems) (k : Nat) (g : GValue),
    gnth its k = some g →
    ∀ (buf : List Nat) (A : List Token) (i off : Nat),
    ItemsLoc buf A i its off →
    LocAt buf A (i + itemsCount (gitake k its))
      g (off + (itemsBytes (gitake k its)).length)
  | .nil, k, g, h, _, _, _, _, _ => by simp [gnth] at h
  | .cons g0 tl, 0, g, h, buf, A, i, off, hl => by
    have hg : g0 = g := by simpa [gnth] using h
    subst hg
    have h0 := (itemsLoc_cons hl).1
    rw [show i + itemsCount (gitake 0 (GItems.cons g0 tl)) = i by
        simp [gitake, itemsCount],
      show off + (itemsBytes (gitake 0 (GItems.cons g0 tl))).length = off by
        simp [gitake, itemsBytes]]
    exact h0
  | .cons g0 tl, k + 1, g, h, buf, A, i, off, hl => by
    have h' : gnth tl k = some g := h
    have hrec := itemsLoc_nth tl k g h' buf A (i + gcount g0)
      (off + (gencode g0).length) (itemsLoc_cons hl).2
    rw [show i + itemsCount (gitake (k + 1) (GItems.cons g0 tl)) =
        i + gcount g0 + itemsCount (gitake k tl) by
        simp [gitake, itemsCount]
        omega,
      show off + (itemsBytes (gitake (k + 1) (GItems.cons g0 tl))).length =
        off + (gencode g0).length + (itemsBytes (gitake k tl)).length by
        simp [gitake, itemsBytes]
        omega]
    exact hrec

/-! ## The claims -/

/-- C5: registering a non-`ByteStr` child with a `Dict` parent whose new
child-ordinal is odd (a key position) fails with `Invalid` citing the
key-must-be-string reason; concretely, parsing `di1ei2ee` (an int key) fails
with exactly that error at position 1, while `d1:ai1ee` parses successfully
into a dictionary with one entry. -/
theorem claim_C5_dict_keys :
    (∀ (t : Token) (A B : List Token) (k : TokenKind) (pos : Nat),
      t.kind = TokenKind.Dict → k ≠ TokenKind.ByteStr →
      (t.children + 1) % 2 ≠ 0 →
      updateSuper (A ++ t :: B) (A.length : Int) k pos =
        .error (.Invalid "Dictionary key must be a string" pos)) ∧
    parse none [100, 105, 49, 101, 105, 50, 101, 101] =
      .error (.Invalid "Dictionary key must be a string" 1) ∧
    (∃ tokens, parse none [100, 49, 58, 97, 105, 49, 101, 101] = .ok tokens ∧
      BenDict.len ⟨[100, 49, 58, 97, 105, 49, 101, 101], tokens, 0⟩ = 1) := by
  refine ⟨?_, by decide, ?_⟩
  · intro t A B k pos hkind hk hodd
    rw [updateSuper_at, if_pos ⟨hkind, hk, hodd⟩]
  · exact ⟨[⟨.Dict, 0, 8, 2, 3⟩, ⟨.ByteStr, 3, 4, 0, 1⟩, ⟨.Int, 5, 6, 0, 1⟩],
      by decide, by decide⟩

theorem claim_C5_dict_keys_witness :
    updateSuper [⟨TokenKind.Dict, 0, -1, 0, 1⟩] ((0 : Nat) : Int)
      TokenKind.Int 1 =
      .error (.Invalid "Dictionary key must be a string" 1) :=
  claim_C5_dict_keys.1 ⟨TokenKind.Dict, 0, -1, 0, 1⟩ [] []
    TokenKind.Int 1 rfl (by decide) (by decide)

/-- C6: parsing `3:ab` (string declares length 3 but only 2 payload bytes
follow) fails with `Eof`, and parsing `d1:a` (dict with a dangling key and no
closer) fails with `Eof`. -/
theorem claim_C6_truncation :
    parse none [51, 58, 97, 98] = .error .Eof ∧
    parse none [100, 49, 58, 97] = .error .Eof := by
  exact ⟨by decide, by decide⟩

/-- C9 (corrected): a `-` not followed by a digit is not rejected: the digit
run after the sign may be empty, so `i-e` parses successfully as an `Int`
token spanning just the sign, which `as_int` decodes as `0`; a bare `i-` only
fails because the buffer ends (`Eof`), not with `Invalid`/`Unexpected`. -/
theorem claim_C9_minus :
    parse none [105, 45, 101] = .ok [⟨.Int, 1, 2, 0, 1⟩] ∧
    Node.as_int ⟨[105, 45, 101], [⟨.Int, 1, 2, 0, 1⟩], 0⟩ = some 0 ∧
    parse none [105, 45] = .error .Eof := by
  exact ⟨by decide, by decide, by decide⟩

/-- C9 counterexample: `i-e` is accepted (with token `Int[1:2]`), refuting
"an input such as `i-e` is rejected, never accepted as a valid integer". -/
theorem claim_C9_counterexample :
    (∀ e : BenError, parse none [105, 45, 101] ≠ .error e) ∧
    parse none [105, 45, 101] = .ok [⟨.Int, 1, 2, 0, 1⟩] := by
  have hok : parse none [105, 45, 101] = .ok [⟨.Int, 1, 2, 0, 1⟩] := by
    decide
  refine ⟨?_, hok⟩
  intro e hcontra
  rw [hok] at hcontra
  cases hcontra

/-- C10: on the empty buffer both `parse` and `parse_prefix` return `Eof`
(whatever the token limit), producing no tokens. -/
theorem claim_C10_empty (limit : Option Nat) :
    parse limit [] = .error .Eof ∧ parsePrefix limit [] = .error .Eof :=
  ⟨rfl, rfl⟩


theorem claim_C10_empty_witness :
    parse none [] = .error .Eof ∧ parsePrefix none [] = .error .Eof :=
  claim_C10_empty none

theorem parse_loc (limit : Option Nat) (buf : List Nat)
    (tokens : List Token) (hp : parse limit buf = .ok tokens) :
    ∃ g, Wfb g ∧ CleanG g ∧ gencode g = buf ∧ tokens = gtokens g 0 ∧
      LocAt buf tokens 0 g 0 := by
  obtain ⟨g, hwf, hclean, hbuf, htok⟩ := parse_sound limit buf hp
  subst hbuf
  subst htok
  exact ⟨g, hwf, hclean, rfl, rfl, locAt_root g⟩

theorem parse_index_loc (limit : Option Nat) (buf : List Nat)
    (tokens : List Token) (hp : parse limit buf = .ok tokens)
    (i : Nat) (t : Token) (ht : tokens[i]? = some t) :
    ∃ h o, LocAt buf tokens i h o ∧ t = headTok h o := by
  obtain ⟨g, _, _, hbuf, htok, hloc⟩ := parse_loc limit buf tokens hp
  have hi : i < tokens.length := (List.getElem?_eq_some_iff.mp ht).1
  have hlen : tokens.length = gcount g := by rw [htok, gtokens_length]
  obtain ⟨h, o, hat⟩ := index_loc g buf tokens 0 0 hloc i (by omega)
  have hat' : LocAt buf tokens i h o := by
    rw [Nat.zero_add] at hat
    exact hat
  have hhead := locAt_head hat'
  rw [ht] at hhead
  exact ⟨h, o, hat', Option.some.inj hhead⟩

/-- C2 (corrected): in a successfully parsed buffer, a `ByteStr` token's
offsets bound exactly the content bytes (no length prefix, no `:`), an `Int`
token's offsets bound the literal body between `i` and `e` (optional sign
plus digits, both delimiters excluded), and a `List`/`Dict` token's offsets
bound the *entire* encoding, running from the opening delimiter to one past
the closing delimiter — both delimiter bytes included, not excluded. -/
theorem claim_C2_spans (limit : Option Nat) (buf : List Nat)
    (tokens : List Token) (hp : parse limit buf = .ok tokens)
    (i : Nat) (t : Token) (ht : tokens[i]? = some t) :
    ∃ h o, LocAt buf tokens i h o ∧ t = headTok h o ∧
      sliceRange buf t = payloadBytes h ∧
      ((t.kind = TokenKind.List ∨ t.kind = TokenKind.Dict) →
        t.start = (o : Int) ∧
        t.«end» = ((o + (gencode h).length : Nat) : Int)) := by
  obtain ⟨h, o, hat, hht⟩ := parse_index_loc limit buf tokens hp i t ht
  subst hht
  refine ⟨h, o, hat, rfl, locAt_slice hat, ?_⟩
  intro hkind
  cases h with
  | gint neg ds => simp [headTok] at hkind
  | gbytes lds content => simp [headTok] at hkind
  | glist its => exact ⟨rfl, rfl⟩
  | gdict its => exact ⟨rfl, rfl⟩

/-- C2 witness: the spans of the tokens of `le` as located subvalues. -/
theorem claim_C2_spans_witness :
    ∃ h o, LocAt [108, 101] [⟨.List, 0, 2, 0, 1⟩] 0 h o ∧
      (⟨.List, 0, 2, 0, 1⟩ : Token) = headTok h o ∧
      sliceRange [108, 101] ⟨.List, 0, 2, 0, 1⟩ = payloadBytes h ∧
      (((⟨.List, 0, 2, 0, 1⟩ : Token).kind = TokenKind.List ∨
          (⟨.List, 0, 2, 0, 1⟩ : Token).kind = TokenKind.Dict) →
        (⟨.List, 0, 2, 0, 1⟩ : Token).start = (o : Int) ∧
        (⟨.List, 0, 2, 0, 1⟩ : Token).«end» =
          ((o + (gencode h).length : Nat) : Int)) :=
  claim_C2_spans none [108, 101] [⟨.List, 0, 2, 0, 1⟩] (by decide) 0
    ⟨.List, 0, 2, 0, 1⟩ (by decide)

/-- spec-modelled: the container-span reading of spec §3, "for List/Dict,
the full span between the opening and closing delimiter, exclusive of both":
the opening delimiter would sit right before `start`, and the closing
delimiter right at `end`. -/
def specContainerSpanExclusive (buf : List Nat) (t : Token) : Prop :=
  (t.kind = TokenKind.List →
    buf[t.start.toNat - 1]? = some 108 ∧ buf[t.«end».toNat]? = some 101) ∧
  (t.kind = TokenKind.Dict →
    buf[t.start.toNat - 1]? = some 100 ∧ buf[t.«end».toNat]? = some 101)

/-- C2 counterexample: parsing `le` produces the List token `[0:2]`, whose
span covers the whole buffer including both delimiters; the spec's
delimiters-excluded reading is false for it. -/
theorem claim_C2_counterexample :
    parse none [108, 101] = .ok [⟨.List, 0, 2, 0, 1⟩] ∧
    ¬specContainerSpanExclusive [108, 101] ⟨.List, 0, 2, 0, 1⟩ := by
  refine ⟨by decide, ?_⟩
  intro hcon
  exact absurd ((hcon.1 rfl).2) (by decide)

/-- C3: `as_raw_bytes` returns the token's span in the original buffer: for
`List`/`Dict` the full encoding including the opening and the closing
delimiter byte, for `ByteStr` the content only, for `Int` the literal body
without the `i`/`e` delimiters. -/
theorem claim_C3_raw_bytes (limit : Option Nat) (buf : List Nat)
    (tokens : List Token) (hp : parse limit buf = .ok tokens)
    (i : Nat) (t : Token) (ht : tokens[i]? = some t) :
    ∃ h o, LocAt buf tokens i h o ∧ t = headTok h o ∧
      Node.as_raw_bytes ⟨buf, tokens, i⟩ = payloadBytes h ∧
      ((t.kind = TokenKind.List ∨ t.kind = TokenKind.Dict) →
        ∃ mid, Node.as_raw_bytes ⟨buf, tokens, i⟩ =
          (if t.kind = TokenKind.Dict then 100 else 108) :: mid ++ [101]) := by
  obtain ⟨h, o, hat, hht⟩ := parse_index_loc limit buf tokens hp i t ht
  subst hht
  refine ⟨h, o, hat, rfl, locAt_as_raw_bytes hat, ?_⟩
  intro hkind
  cases h with
  | gint neg ds => simp [headTok] at hkind
  | gbytes lds content => simp [headTok] at hkind
  | glist its =>
    refine ⟨itemsBytes its, ?_⟩
    rw [locAt_as_raw_bytes hat]
    show gencode (.glist its) =
      (if (headTok (.glist its) o).kind = TokenKind.Dict then 100 else 108) ::
        itemsBytes its ++ [101]
    rw [if_neg (by simp [headTok])]
    rfl
  | gdict its =>
    refine ⟨itemsBytes its, ?_⟩
    rw [locAt_as_raw_bytes hat]
    show gencode (.gdict its) =
      (if (headTok (.gdict its) o).kind = TokenKind.Dict then 100 else 108) ::
        itemsBytes its ++ [101]
    rw [if_pos (by simp [headTok])]
    rfl

/-- C3 witness: `as_raw_bytes` of the root of `li1ee`. -/
theorem claim_C3_raw_bytes_witness :
    ∃ h o, LocAt [108, 105, 49, 101, 101]
        [⟨.List, 0, 5, 1, 2⟩, ⟨.Int, 2, 3, 0, 1⟩] 0 h o ∧
      (⟨.List, 0, 5, 1, 2⟩ : Token) = headTok h o ∧
      Node.as_raw_bytes ⟨[108, 105, 49, 101, 101],
        [⟨.List, 0, 5, 1, 2⟩, ⟨.Int, 2, 3, 0, 1⟩], 0⟩ = payloadBytes h ∧
      (((⟨.List, 0, 5, 1, 2⟩ : Token).kind = TokenKind.List ∨
          (⟨.List, 0, 5, 1, 2⟩ : Token).kind = TokenKind.Dict) →
        ∃ mid, Node.as_raw_bytes ⟨[108, 105, 49, 101, 101],
            [⟨.List, 0, 5, 1, 2⟩, ⟨.Int, 2, 3, 0, 1⟩], 0⟩ =
          (if (⟨.List, 0, 5, 1, 2⟩ : Token).kind = TokenKind.Dict then 100
            else 108) :: mid ++ [101]) :=
  claim_C3_raw_bytes none [108, 105, 49, 101, 101]
    [⟨.List, 0, 5, 1, 2⟩, ⟨.Int, 2, 3, 0, 1⟩] (by decide) 0
    ⟨.List, 0, 5, 1, 2⟩ (by decide)

/-- C4: in a successfully parsed buffer every token satisfies
`start ≤ end`, and a closed `List`/`Dict` token's `next` is one more than
the number of tokens of its child subtrees, which sit immediately after it
in the arena; repeatedly advancing by the visited token's `next` from the
first child hops exactly over the children, yields exactly `children`
entries under the iterator, and after the last entry lands one past the
subtree, at which point the byte right before the container's `end` offset
is its closing delimiter `e`. -/
theorem claim_C4_next (limit : Option Nat) (buf : List Nat)
    (tokens : List Token) (hp : parse limit buf = .ok tokens)
    (i : Nat) (t : Token) (ht : tokens[i]? = some t) :
    t.start ≤ t.«end» ∧
    ((t.kind = TokenKind.List ∨ t.kind = TokenKind.Dict) →
      ∃ its o,
        t.children = itemsLen its ∧
        t.next = 1 + itemsCount its ∧
        tokens.drop (i + 1) =
          itemsTokens its (o + 1) ++ tokens.drop (i + t.next) ∧
        (∀ k, k ≤ itemsLen its →
          advanceIdx tokens (i + 1) k = i + 1 + itemsCount (gitake k its)) ∧
        advanceIdx tokens (i + 1) (itemsLen its) = i + t.next ∧
        (∀ k, k < t.children ↔
          (ListIter.nth ⟨buf, tokens, t.children, i + 1, 0⟩ k).isSome =
            true) ∧
        buf[o + 1 + (itemsBytes its).length]? = some 101 ∧
        o + 1 + (itemsBytes its).length = t.«end».toNat - 1) := by
  obtain ⟨h, o, hat, hht⟩ := parse_index_loc limit buf tokens hp i t ht
  subst hht
  refine ⟨headTok_le h o, ?_⟩
  intro hkind
  cases h with
  | gint neg ds => simp [headTok] at hkind
  | gbytes lds content => simp [headTok] at hkind
  | glist its =>
    have hIL := locAt_items_list hat
    refine ⟨its, o, rfl, rfl, ?_, ?_, ?_, ?_,
      (locAt_list_close hat).1, (locAt_list_close hat).2⟩
    · show tokens.drop (i + 1) =
        itemsTokens its (o + 1) ++ tokens.drop (i + (1 + itemsCount its))
      rw [hIL.1, show i + (1 + itemsCount its) = i + 1 + itemsCount its by
        omega]
    · intro k hk
      exact advance_run k its hk buf tokens (i + 1) (o + 1) hIL
    · show advanceIdx tokens (i + 1) (itemsLen its) =
        i + (1 + itemsCount its)
      rw [advance_run (itemsLen its) its le_rfl buf tokens (i + 1) (o + 1)
        hIL, gitake_full]
      omega
    · intro k
      have hiter := iterNth_run k its buf tokens (i + 1) (o + 1) 0 hIL
      rw [Nat.zero_add] at hiter
      show k < itemsLen its ↔
        (ListIter.nth ⟨buf, tokens, itemsLen its, i + 1, 0⟩ k).isSome = true
      rw [hiter]
      have hsome := gnth_isSome_iff its k
      cases hgn : gnth its k with
      | some g' =>
        rw [hgn] at hsome
        simp at hsome
        simp [hsome]
      | none =>
        rw [hgn] at hsome
        simp at hsome
        simp
        omega
  | gdict its =>
    have hIL := locAt_items_dict hat
    refine ⟨its, o, rfl, rfl, ?_, ?_, ?_, ?_,
      (locAt_dict_close hat).1, (locAt_dict_close hat).2⟩
    · show tokens.drop (i + 1) =
        itemsTokens its (o + 1) ++ tokens.drop (i + (1 + itemsCount its))
      rw [hIL.1, show i + (1 + itemsCount its) = i + 1 + itemsCount its by
        omega]
    · intro k hk
      exact advance_run k its hk buf tokens (i + 1) (o + 1) hIL
    · show advanceIdx tokens (i + 1) (itemsLen its) =
        i + (1 + itemsCount its)
      rw [advance_run (itemsLen its) its le_rfl buf tokens (i + 1) (o + 1)
        hIL, gitake_full]
      omega
    · intro k
      have hiter := iterNth_run k its buf tokens (i + 1) (o + 1) 0 hIL
      rw [Nat.zero_add] at hiter
      show k < itemsLen its ↔
        (ListIter.nth ⟨buf, tokens, itemsLen its, i + 1, 0⟩ k).isSome = true
      rw [hiter]
      have hsome := gnth_isSome_iff its k
      cases hgn : gnth its k with
      | some g' =>
        rw [hgn] at hsome
        simp at hsome
        simp [hsome]
      | none =>
        rw [hgn] at hsome
        simp at hsome
        simp
        omega

/-- C4 witness: the container invariants for the root List of `li1ee`. -/
theorem claim_C4_next_witness :
    (⟨.List, 0, 5, 1, 2⟩ : Token).start ≤ (⟨.List, 0, 5, 1, 2⟩ : Token).«end» ∧
    (((⟨.List, 0, 5, 1, 2⟩ : Token).kind = TokenKind.List ∨
        (⟨.List, 0, 5, 1, 2⟩ : Token).kind = TokenKind.Dict) →
      ∃ its o,
        (⟨.List, 0, 5, 1, 2⟩ : Token).children = itemsLen its ∧
        (⟨.List, 0, 5, 1, 2⟩ : Token).next = 1 + itemsCount its ∧
        ([⟨.List, 0, 5, 1, 2⟩, ⟨.Int, 2, 3, 0, 1⟩] : List Token).drop (0 + 1) =
          itemsTokens its (o + 1) ++
            ([⟨.List, 0, 5, 1, 2⟩, ⟨.Int, 2, 3, 0, 1⟩] : List Token).drop
              (0 + (⟨.List, 0, 5, 1, 2⟩ : Token).next) ∧
        (∀ k, k ≤ itemsLen its →
          advanceIdx [⟨.List, 0, 5, 1, 2⟩, ⟨.Int, 2, 3, 0, 1⟩] (0 + 1) k =
            0 + 1 + itemsCount (gitake k its)) ∧
        advanceIdx [⟨.List, 0, 5, 1, 2⟩, ⟨.Int, 2, 3, 0, 1⟩] (0 + 1)
          (itemsLen its) = 0 + (⟨.List, 0, 5, 1, 2⟩ : Token).next ∧
        (∀ k, k < (⟨.List, 0, 5, 1, 2⟩ : Token).children ↔
          (ListIter.nth ⟨[108, 105, 49, 101, 101],
            [⟨.List, 0, 5, 1, 2⟩, ⟨.Int, 2, 3, 0, 1⟩],
            (⟨.List, 0, 5, 1, 2⟩ : Token).children, 0 + 1, 0⟩ k).isSome =
            true) ∧
        ([108, 105, 49, 101, 101] : List Nat)[o + 1 +
          (itemsBytes its).length]? = some 101 ∧
        o + 1 + (itemsBytes its).length =
          (⟨.List, 0, 5, 1, 2⟩ : Token).«end».toNat - 1) :=
  claim_C4_next none [108, 105, 49, 101, 101]
    [⟨.List, 0, 5, 1, 2⟩, ⟨.Int, 2, 3, 0, 1⟩] (by decide) 0
    ⟨.List, 0, 5, 1, 2⟩ (by decide)

/-- C8: for a successfully parsed `List` node, `len()` is the container
token's `children` count; `get(k)` for `k < len()` hops from the first child
by each visited token's `next` exactly `k` times and returns the `k`-th
direct child (the head of the `k`-th child's token run, itself a located
subvalue), `get(k)` for `k ≥ len()` is `None`, and the iterator yields
exactly the same nodes as `get`. -/
theorem claim_C8_list_access (limit : Option Nat) (buf : List Nat)
    (tokens : List Token) (hp : parse limit buf = .ok tokens)
    (i : Nat) (t : Token) (ht : tokens[i]? = some t)
    (hl : t.kind = TokenKind.List) :
    ∃ its o, LocAt buf tokens i (.glist its) o ∧
      BenList.len ⟨buf, tokens, i⟩ = t.children ∧
      t.children = itemsLen its ∧
      (∀ k, t.children ≤ k → BenList.get ⟨buf, tokens, i⟩ k = none) ∧
      (∀ k, k < t.children →
        BenList.get ⟨buf, tokens, i⟩ k =
          some ⟨buf, tokens, advanceIdx tokens (i + 1) k⟩ ∧
        advanceIdx tokens (i + 1) k = i + 1 + itemsCount (gitake k its) ∧
        ∃ g' o', gnth its k = some g' ∧
          LocAt buf tokens (i + 1 + itemsCount (gitake k its)) g' o') ∧
      (∀ k, ListIter.nth (BenList.iter ⟨buf, tokens, i⟩) k =
        BenList.get ⟨buf, tokens, i⟩ k) := by
  obtain ⟨h, o, hat, hht⟩ := parse_index_loc limit buf tokens hp i t ht
  subst hht
  cases h with
  | gint neg ds => simp [headTok] at hl
  | gbytes lds content => simp [headTok] at hl
  | gdict its => simp [headTok] at hl
  | glist its =>
    have hIL := locAt_items_list hat
    refine ⟨its, o, hat, ?_, rfl, ?_, ?_, ?_⟩
    · rw [locAt_list_len hat]
      rfl
    · intro k hk
      rw [locAt_get hat k, if_pos (show itemsLen its ≤ k from hk)]
    · intro k hk
      have hk2 : k < itemsLen its := hk
      have hk' : ¬(itemsLen its ≤ k) := by omega
      have hadv := advance_run k its (by omega) buf tokens (i + 1) (o + 1) hIL
      refine ⟨?_, hadv, ?_⟩
      · rw [locAt_get hat k, if_neg hk', hadv]
      · have hgs := (gnth_isSome_iff its k).mpr (by
          show k < itemsLen its
          omega)
        cases hgn : gnth its k with
        | none => rw [hgn] at hgs; cases hgs
        | some g' =>
          refine ⟨g', o + 1 + (itemsBytes (gitake k its)).length, rfl, ?_⟩
          have := itemsLoc_nth its k g' hgn buf tokens (i + 1) (o + 1) hIL
          rw [show i + 1 + itemsCount (gitake k its) =
            i + 1 + itemsCount (gitake k its) from rfl]
          exact this
    · intro k
      show ListIter.nth ⟨buf, tokens,
        (match tokens[i]? with | some t => t.children | none => 0),
        i + 1, 0⟩ k = _
      rw [locAt_head hat]
      show ListIter.nth ⟨buf, tokens, itemsLen its, i + 1, 0⟩ k = _
      have hiter := iterNth_run k its buf tokens (i + 1) (o + 1) 0 hIL
      rw [Nat.zero_add] at hiter
      rw [hiter, locAt_get hat k]
      have hsome := gnth_isSome_iff its k
      cases hgn : gnth its k with
      | some g' =>
        rw [hgn] at hsome
        simp at hsome
        rw [if_neg (by omega)]
      | none =>
        rw [hgn] at hsome
        simp at hsome
        rw [if_pos (by omega)]

/-- C8 witness: list access on the root of `li1ee`. -/
theorem claim_C8_list_access_witness :
    ∃ its o, LocAt [108, 105, 49, 101, 101]
        [⟨.List, 0, 5, 1, 2⟩, ⟨.Int, 2, 3, 0, 1⟩] 0 (.glist its) o ∧
      BenList.len ⟨[108, 105, 49, 101, 101],
        [⟨.List, 0, 5, 1, 2⟩, ⟨.Int, 2, 3, 0, 1⟩], 0⟩ =
        (⟨.List, 0, 5, 1, 2⟩ : Token).children ∧
      (⟨.List, 0, 5, 1, 2⟩ : Token).children = itemsLen its ∧
      (∀ k, (⟨.List, 0, 5, 1, 2⟩ : Token).children ≤ k →
        BenList.get ⟨[108, 105, 49, 101, 101],
          [⟨.List, 0, 5, 1, 2⟩, ⟨.Int, 2, 3, 0, 1⟩], 0⟩ k = none) ∧
      (∀ k, k < (⟨.List, 0, 5, 1, 2⟩ : Token).children →
        BenList.get ⟨[108, 105, 49, 101, 101],
          [⟨.List, 0, 5, 1, 2⟩, ⟨.Int, 2, 3, 0, 1⟩], 0⟩ k =
          some ⟨[108, 105, 49, 101, 101],
            [⟨.List, 0, 5, 1, 2⟩, ⟨.Int, 2, 3, 0, 1⟩],
            advanceIdx [⟨.List, 0, 5, 1, 2⟩, ⟨.Int, 2, 3, 0, 1⟩] (0 + 1) k⟩ ∧
        advanceIdx [⟨.List, 0, 5, 1, 2⟩, ⟨.Int, 2, 3, 0, 1⟩] (0 + 1) k =
          0 + 1 + itemsCount (gitake k its) ∧
        ∃ g' o', gnth its k = some g' ∧
          LocAt [108, 105, 49, 101, 101]
            [⟨.List, 0, 5, 1, 2⟩, ⟨.Int, 2, 3, 0, 1⟩]
            (0 + 1 + itemsCount (gitake k its)) g' o') ∧
      (∀ k, ListIter.nth (BenList.iter ⟨[108, 105, 49, 101, 101],
          [⟨.List, 0, 5, 1, 2⟩, ⟨.Int, 2, 3, 0, 1⟩], 0⟩) k =
        BenList.get ⟨[108, 105, 49, 101, 101],
          [⟨.List, 0, 5, 1, 2⟩, ⟨.Int, 2, 3, 0, 1⟩], 0⟩ k) :=
  claim_C8_list_access none [108, 105, 49, 101, 101]
    [⟨.List, 0, 5, 1, 2⟩, ⟨.Int, 2, 3, 0, 1⟩] (by decide) 0
    ⟨.List, 0, 5, 1, 2⟩ (by decide) (by decide)

/-- C1 (corrected): for every value tree whose integers are at least
`-i64::MAX` (so `i64::MIN` is excluded) and whose byte strings fit `i64`,
parsing the encoded bytes succeeds with the canonical token arena and a tree
view that agrees with the original in kinds, payload bytes and child
order/counts; in particular encoding `["Hello", "World", 123]` yields
exactly `l5:Hello5:Worldi123ee`, which parses back to a List of length 3
whose elements decode to `"Hello"`, `"World"` and `123`, and whose raw span
is the entire buffer. -/
theorem claim_C1_roundtrip :
    (∀ v : Value, valueOkB v = true →
      parse none (encodeValue v) = .ok (gtokens (toG v) 0) ∧
      agreeVal (encodeValue v) (gtokens (toG v) 0) 0 v) ∧
    encodeValue (.vlist (.cons (.vbytes [72, 101, 108, 108, 111])
        (.cons (.vbytes [87, 111, 114, 108, 100])
          (.cons (.vint 123) .nil)))) =
      [108, 53, 58, 72, 101, 108, 108, 111, 53, 58, 87, 111, 114, 108, 100,
        105, 49, 50, 51, 101, 101] ∧
    parse none [108, 53, 58, 72, 101, 108, 108, 111, 53, 58, 87, 111, 114,
        108, 100, 105, 49, 50, 51, 101, 101] =
      .ok [⟨.List, 0, 21, 3, 4⟩, ⟨.ByteStr, 3, 8, 0, 1⟩,
        ⟨.ByteStr, 10, 15, 0, 1⟩, ⟨.Int, 16, 19, 0, 1⟩] ∧
    BenList.len ⟨[108, 53, 58, 72, 101, 108, 108, 111, 53, 58, 87, 111, 114,
        108, 100, 105, 49, 50, 51, 101, 101],
      [⟨.List, 0, 21, 3, 4⟩, ⟨.ByteStr, 3, 8, 0, 1⟩,
        ⟨.ByteStr, 10, 15, 0, 1⟩, ⟨.Int, 16, 19, 0, 1⟩], 0⟩ = 3 ∧
    (BenList.get ⟨[108, 53, 58, 72, 101, 108, 108, 111, 53, 58, 87, 111, 114,
        108, 100, 105, 49, 50, 51, 101, 101],
      [⟨.List, 0, 21, 3, 4⟩, ⟨.ByteStr, 3, 8, 0, 1⟩,
        ⟨.ByteStr, 10, 15, 0, 1⟩, ⟨.Int, 16, 19, 0, 1⟩], 0⟩ 0).map
        Node.as_bytes = some (some [72, 101, 108, 108, 111]) ∧
    (BenList.get ⟨[108, 53, 58, 72, 101, 108, 108, 111, 53, 58, 87, 111, 114,
        108, 100, 105, 49, 50, 51, 101, 101],
      [⟨.List, 0, 21, 3, 4⟩, ⟨.ByteStr, 3, 8, 0, 1⟩,
        ⟨.ByteStr, 10, 15, 0, 1⟩, ⟨.Int, 16, 19, 0, 1⟩], 0⟩ 1).map
        Node.as_bytes = some (some [87, 111, 114, 108, 100]) ∧
    (BenList.get ⟨[108, 53, 58, 72, 101, 108, 108, 111, 53, 58, 87, 111, 114,
        108, 100, 105, 49, 50, 51, 101, 101],
      [⟨.List, 0, 21, 3, 4⟩, ⟨.ByteStr, 3, 8, 0, 1⟩,
        ⟨.ByteStr, 10, 15, 0, 1⟩, ⟨.Int, 16, 19, 0, 1⟩], 0⟩ 2).map
        Node.as_int = some (some 123) ∧
    Node.as_raw_bytes ⟨[108, 53, 58, 72, 101, 108, 108, 111, 53, 58, 87, 111,
        114, 108, 100, 105, 49, 50, 51, 101, 101],
      [⟨.List, 0, 21, 3, 4⟩, ⟨.ByteStr, 3, 8, 0, 1⟩,
        ⟨.ByteStr, 10, 15, 0, 1⟩, ⟨.Int, 16, 19, 0, 1⟩], 0⟩ =
      [108, 53, 58, 72, 101, 108, 108, 111, 53, 58, 87, 111, 114, 108, 100,
        105, 49, 50, 51, 101, 101] := by
  refine ⟨fun v hok => roundtrip v hok, by decide, by decide, by decide,
    by decide, by decide, by decide, by decide⟩

/-- C1 witness: the round trip at the value `5`. -/
theorem claim_C1_roundtrip_witness :
    valueOkB (.vint 5) = true ∧
    parse none (encodeValue (.vint 5)) = .ok (gtokens (toG (.vint 5)) 0) ∧
    agreeVal (encodeValue (.vint 5)) (gtokens (toG (.vint 5)) 0) 0
      (.vint 5) :=
  ⟨by decide, (claim_C1_roundtrip.1 (.vint 5) (by decide)).1,
    (claim_C1_roundtrip.1 (.vint 5) (by decide)).2⟩

/-- C1 counterexample: the `i64::MIN` integer is expressible through the
encoder, but parsing its encoding fails with `Overflow` (the overflow check
compares magnitudes against `i64::MAX`), so the unrestricted round-trip
claim is false. -/
theorem claim_C1_counterexample :
    parse none (encodeValue (.vint (-9223372036854775808))) =
      .error (.Overflow 1) := by
  decide

/-- C7 (corrected): integer overflow is checked before each multiply/add,
but against the *magnitude* (the digit string's value versus `i64::MAX`),
with `Overflow` reported at the digits' start position; consequently every
literal whose digit string exceeds `i64::MAX` fails — including the in-range
`i64::MIN` — and every literal whose digit string fits parses successfully
with `as_int` returning exactly the signed value. -/
theorem claim_C7_overflow :
    (∀ (neg : Bool) (ds rest : List Nat), (∀ c ∈ ds, isDigitB c = true) →
      digitsVal ds > i64Max →
      parse none (105 :: (signBytes neg ds ++ rest)) =
        .error (.Overflow 1)) ∧
    (∀ (neg : Bool) (ds : List Nat), (∀ c ∈ ds, isDigitB c = true) →
      digitsVal ds ≤ i64Max →
      parse none (gencode (.gint neg ds)) = .ok (gtokens (.gint neg ds) 0) ∧
      Node.as_int ⟨gencode (.gint neg ds), gtokens (.gint neg ds) 0, 0⟩ =
        some (signedVal neg ds)) := by
  constructor
  · exact parse_int_overflow
  · intro neg ds hds hle
    exact ⟨parse_complete _ ⟨hds, hle⟩ trivial,
      locAt_as_int (locAt_root (.gint neg ds)) hds⟩

/-- C7 witness: the literal `9223372036854775808` (one past `i64::MAX`)
overflows, and the literal `123` parses with `as_int 123`. -/
theorem claim_C7_overflow_witness :
    parse none (105 :: (signBytes false (itoaN 9223372036854775808) ++
        [101])) = .error (.Overflow 1) ∧
    parse none (gencode (.gint false [49, 50, 51])) =
      .ok (gtokens (.gint false [49, 50, 51]) 0) ∧
    Node.as_int ⟨gencode (.gint false [49, 50, 51]),
        gtokens (.gint false [49, 50, 51]) 0, 0⟩ =
      some (signedVal false [49, 50, 51]) :=
  ⟨claim_C7_overflow.1 false (itoaN 9223372036854775808) [101] (by decide)
      (by decide),
    (claim_C7_overflow.2 false [49, 50, 51] (by decide) (by decide)).1,
    (claim_C7_overflow.2 false [49, 50, 51] (by decide) (by decide)).2⟩

/-- C7 counterexample: `i-9223372036854775808e` denotes the in-range value
`i64::MIN`, yet parsing fails with `Overflow`, because the check compares
the digit magnitude against `i64::MAX`. -/
theorem claim_C7_counterexample :
    signedVal true (itoaN 9223372036854775808) = -9223372036854775808 ∧
    -9223372036854775808 = -i64Max - 1 ∧
    parse none (gencode (.gint true (itoaN 9223372036854775808))) =
      .error (.Overflow 1) := by
  refine ⟨by decide, by decide, by decide⟩
